import Mathlib

/-!
Adaptive Homogeneity-Directed demosaicing (`src/demosaic/ahd.cc`).

A shallow embedding of `ahd_demosaic`.  The C++ function is stateful: it fills
a per-worker scratch buffer, writes three output planes and calls a progress
callback.  Here the state is an explicit record (`Machine`) that every
statement of the source transforms; the record also keeps the ordered list of
memory accesses made so far and the list of values passed to the callback.

Conventions of the embedding.

* `float`/`double` values are elements of a linearly ordered field `F`
  (exact arithmetic; instantiate `F := ℚ` to evaluate).
* Image coordinates, loop counters and array indices are unbounded integers
  (the loop bounds `top + TS`, `height - 5`, ... stay inside the `int` range
  for all dimensions up to `2^31 - 145`); the product `height * width` in the
  progress update is reduced to 32 bits (`wrap32`) because that is where the
  `int` range is left first.
* A pointer such as `pix = &rawData[row][col]` indexed with `a * width + b`
  is the sample at `(row + a, col + b)`; likewise `rix[a * TS + b]` is the
  scratch cell at tile-relative `(tr + a, tc + b)`.
* A single worker is modelled; the order in which it visits the tiles is a
  parameter (`ahd_run`), the source order being `tileList`.
* The library function `std::cbrt` is a parameter `cbrtFn` of the table
  (`cbrtTable`); the theorems about the table ask that it be the cube root.  The
  lookup `cbrt[x]` with a float index (`LUT.h`) is a parameter `cbrt` of the
  passes, about which nothing is assumed.
-/

namespace Ahd

/-! ## Constants and helpers -/

/-- Tile edge, `#define TS 144`. -/
def TS : Int := 144

/-- Two's-complement reduction of an integer to the 32-bit `int` range. -/
def wrap32 (x : Int) : Int := (x + 2147483648) % 4294967296 - 2147483648

/-- Loop `for (x = lo; x < hi; x += step)` with an explicit iteration budget:
the list of the values the loop variable takes, in order. -/
def forLoop : Nat → Int → Int → Int → List Int
  | 0, _, _, _ => []
  | fuel + 1, x, hi, step => if x < hi then x :: forLoop fuel (x + step) hi step else []

/-- Loop `for (x = lo; x < hi; x += step)`; the budget `hi - lo` is enough for
every positive step (see `mem_loopFrom`). -/
def loopFrom (lo hi step : Int) : List Int := forLoop (hi - lo).toNat lo hi step

/-- The colour filter array descriptor `cfarray[2][2]`. -/
structure Cfa where
  c00 : Nat
  c01 : Nat
  c10 : Nat
  c11 : Nat
deriving DecidableEq

/-- Colour lookup `fc(cfarray, r, c) = cfarray[r & 1][c & 1]`. -/
def fc (cfarray : Cfa) (r c : Int) : Nat :=
  if r % 2 = 0 then (if c % 2 = 0 then cfarray.c00 else cfarray.c01)
  else (if c % 2 = 0 then cfarray.c10 else cfarray.c11)

/-- Modelled from the spec: `validateBayerCfa(3, cfarray)` of `bayerhelper.h`,
which is not among the sources.  A valid Bayer pattern has green (colour 1) on
one diagonal of the 2x2 pattern and red (0) and blue (2) on the other. -/
def validateBayerCfa (cfarray : Cfa) : Bool :=
  (cfarray.c00 == 1 && cfarray.c11 == 1 &&
      ((cfarray.c01 == 0 && cfarray.c10 == 2) || (cfarray.c01 == 2 && cfarray.c10 == 0))) ||
  (cfarray.c01 == 1 && cfarray.c10 == 1 &&
      ((cfarray.c00 == 0 && cfarray.c11 == 2) || (cfarray.c00 == 2 && cfarray.c11 == 0)))

/-- Modelled from the spec: the error codes of `librtprocess.h` that this
function can produce itself; `RP_NO_ERROR` is the zero value tested by
`if (!rc)`, `RP_OTHER` stands for any further non-zero code a collaborator may
return. -/
inductive rpError
  | RP_NO_ERROR
  | RP_WRONG_CFA
  | RP_MEMORY_ERROR
  | RP_OTHER (code : Nat)
deriving DecidableEq

/-- One memory access of the tile engine.  Scratch cells are addressed by
direction `d`, tile-relative row `tr` and column `tc`, and channel `c`;
output planes by plane number (0 red, 1 green, 2 blue) and image position. -/
inductive Access
  | rawRead (row col : Int)
  | rgbRead (d tr tc c : Int)
  | rgbWrite (d tr tc c : Int)
  | labRead (d tr tc c : Int)
  | labWrite (d tr tc c : Int)
  | homoRead (d tr tc : Int)
  | homoWrite (d tr tc : Int)
  | planeWrite (p : Nat) (row col : Int)
deriving DecidableEq

section Model

variable {F : Type} [LinearOrderedField F]

/-- Modelled from the spec: `median(a, b, c)` of `median.h` (not among the
sources), the middle one of three values. -/
def median (a b c : F) : F := max (min a b) (min c (max a b))

/-- Modelled from the spec: `CLIP` of `rt_math.h` (not among the sources),
clamping a sample to the valid range `[0, 65535]`. -/
def CLIP (a : F) : F := max 0 (min 65535 a)

/-- Squaring, `SQR` of `rt_math.h`. -/
def SQR (a : F) : F := a * a

/-- The constant `xyz_rgb[3][3]` (XYZ from RGB). -/
def xyz_rgb (i k : Int) : F :=
  if i = 0 then (if k = 0 then 412453 / 1000000 else if k = 1 then 357580 / 1000000
    else 180423 / 1000000)
  else if i = 1 then (if k = 0 then 212671 / 1000000 else if k = 1 then 715160 / 1000000
    else 72169 / 1000000)
  else (if k = 0 then 19334 / 1000000 else if k = 1 then 119193 / 1000000
    else 950227 / 1000000)

/-- The constant `d65_white[3]`. -/
def d65_white (i : Int) : F :=
  if i = 0 then 950456 / 1000000 else if i = 1 then 1 else 1088754 / 1000000

/-- The matrix `xyz_cam[i][j]`: the accumulation
`xyz_cam[i][j] += xyz_rgb[i][k] * rgb_cam[k][j] / d65_white[i]` for `k = 0, 1, 2`
starting from zero. -/
def xyz_cam (rgb_cam : Int → Int → F) (i j : Int) : F :=
  ((0 + xyz_rgb i 0 * rgb_cam 0 j / d65_white i)
      + xyz_rgb i 1 * rgb_cam 1 j / d65_white i)
      + xyz_rgb i 2 * rgb_cam 2 j / d65_white i

/-- The state of one worker: the scratch volumes `rgb`, `lab`, `homo` carved
out of `buffer`, the three output planes, the accesses made so far, and the
progress bookkeeping (`progresscounter`, `progress`, the values handed to
`setProgCancel`, and how often the border pass ran). -/
structure Machine (F : Type) where
  rgb : Int → Int → Int → Int → F
  lab : Int → Int → Int → Int → F
  homo : Int → Int → Int → Nat
  red : Int → Int → F
  green : Int → Int → F
  blue : Int → Int → F
  log : List Access
  progresscounter : Nat
  progress : F
  reported : List F
  borderCalls : Nat

/-- Pointwise update of a four-index volume. -/
def upd4 {α : Type} (a : Int → Int → Int → Int → α) (d tr tc c : Int) (v : α) :
    Int → Int → Int → Int → α :=
  fun d' tr' tc' c' => if d' = d ∧ tr' = tr ∧ tc' = tc ∧ c' = c then v else a d' tr' tc' c'

/-- Pointwise update of a three-index volume. -/
def upd3 {α : Type} (a : Int → Int → Int → α) (d tr tc : Int) (v : α) :
    Int → Int → Int → α :=
  fun d' tr' tc' => if d' = d ∧ tr' = tr ∧ tc' = tc then v else a d' tr' tc'

/-- Pointwise update of a plane. -/
def upd2 {α : Type} (a : Int → Int → α) (row col : Int) (v : α) : Int → Int → α :=
  fun row' col' => if row' = row ∧ col' = col then v else a row' col'

/-- Record the accesses `l` (the reads of the statement being executed). -/
def Machine.note (m : Machine F) (l : List Access) : Machine F :=
  { m with log := m.log ++ l }

/-- Store `rgb[d][tr][tc][c] = v`. -/
def Machine.wrRgb (m : Machine F) (d tr tc c : Int) (v : F) : Machine F :=
  { m with rgb := upd4 m.rgb d tr tc c v, log := m.log ++ [Access.rgbWrite d tr tc c] }

/-- Store `lab[d][tr][tc][c] = v`. -/
def Machine.wrLab (m : Machine F) (d tr tc c : Int) (v : F) : Machine F :=
  { m with lab := upd4 m.lab d tr tc c v, log := m.log ++ [Access.labWrite d tr tc c] }

/-- Store `homo[d][tr][tc] = v`. -/
def Machine.wrHomo (m : Machine F) (d tr tc : Int) (v : Nat) : Machine F :=
  { m with homo := upd3 m.homo d tr tc v, log := m.log ++ [Access.homoWrite d tr tc] }

/-- Store `red[row][col] = v`. -/
def Machine.wrRed (m : Machine F) (row col : Int) (v : F) : Machine F :=
  { m with red := upd2 m.red row col v, log := m.log ++ [Access.planeWrite 0 row col] }

/-- Store `green[row][col] = v`. -/
def Machine.wrGreen (m : Machine F) (row col : Int) (v : F) : Machine F :=
  { m with green := upd2 m.green row col v, log := m.log ++ [Access.planeWrite 1 row col] }

/-- Store `blue[row][col] = v`. -/
def Machine.wrBlue (m : Machine F) (row col : Int) (v : F) : Machine F :=
  { m with blue := upd2 m.blue row col v, log := m.log ++ [Access.planeWrite 2 row col] }

/-- Two nested loops `for row in rows { for col in cols row { body } }`. -/
def sweep {σ : Type} (rows : List Int) (cols : Int → List Int) (body : σ → Int → Int → σ)
    (s : σ) : σ :=
  rows.foldl (fun s row => (cols row).foldl (fun s col => body s row col) s) s

/-! ## Pass A: green interpolation (lines 112-122) -/

/-- Body of the green loop at `(row, col)`: the horizontal and the vertical
green hypothesis, each the median of the second-order estimate and the two
neighbouring samples. -/
def greenStep (rawData : Int → Int → F) (top left : Int) (m : Machine F) (row col : Int) :
    Machine F :=
  let val0 : F := (1 / 4) * ((rawData row (col - 1) + rawData row col + rawData row (col + 1)) * 2
    - rawData row (col - 2) - rawData row (col + 2))
  let m1 := (m.note [Access.rawRead row (col - 1), Access.rawRead row col,
    Access.rawRead row (col + 1), Access.rawRead row (col - 2), Access.rawRead row (col + 2),
    Access.rawRead row (col - 1), Access.rawRead row (col + 1)]).wrRgb 0 (row - top) (col - left) 1
      (median val0 (rawData row (col - 1)) (rawData row (col + 1)))
  let val1 : F := (1 / 4) * ((rawData (row - 1) col + rawData row col + rawData (row + 1) col) * 2
    - rawData (row - 2) col - rawData (row + 2) col)
  (m1.note [Access.rawRead (row - 1) col, Access.rawRead row col,
    Access.rawRead (row + 1) col, Access.rawRead (row - 2) col, Access.rawRead (row + 2) col,
    Access.rawRead (row - 1) col, Access.rawRead (row + 1) col]).wrRgb 1 (row - top) (col - left) 1
      (median val1 (rawData (row - 1) col) (rawData (row + 1) col))

/-- Rows of the green pass: `for (row = top; row < top + TS && row < height - 2; row++)`. -/
def greenRows (height top : Int) : List Int := loopFrom top (min (top + TS) (height - 2)) 1

/-- Columns of the green pass in `row`:
`for (col = left + (fc(cfarray, row, left) & 1); col < min(left + TS, width - 2); col += 2)`. -/
def greenCols (width : Int) (cfarray : Cfa) (left row : Int) : List Int :=
  loopFrom (left + ((fc cfarray row left % 2 : Nat) : Int)) (min (left + TS) (width - 2)) 2

/-- Pass A over one tile. -/
def greenPass (width height : Int) (rawData : Int → Int → F) (cfarray : Cfa) (top left : Int)
    (m : Machine F) : Machine F :=
  sweep (greenRows height top) (greenCols width cfarray left) (greenStep rawData top left) m

/-! ## Pass B: red/blue interpolation and CIELab conversion (lines 125-161) -/

/-- The index `cng` of a row: `fc(cfarray, row + 1, fc(cfarray, row + 1, 0) & 1)`. -/
def cngOf (cfarray : Cfa) (row : Int) : Int :=
  (fc cfarray (row + 1) ((fc cfarray (row + 1) 0 % 2 : Nat) : Int) : Nat)

/-- Body of the red/blue loop for direction `d` at `(row, col)`, followed by the
conversion of the finished RGB triple to CIELab.  `xyzCam` is the matrix
`xyz_cam` and `cbrt` the lookup `cbrt[x]` in the cube-root table (an `LUTf` of
`LUT.h`, indexed by a float). -/
def redBlueStep (rawData : Int → Int → F) (cfarray : Cfa) (xyzCam : Int → Int → F)
    (cbrt : F → F) (top left d : Int) (m : Machine F) (row col : Int) : Machine F :=
  let cng : Int := cngOf cfarray row
  let tr := row - top
  let tc := col - left
  let m1 : Machine F :=
    if fc cfarray row col = 1 then
      let a := (m.note [Access.rawRead row col, Access.rawRead row (col - 1),
        Access.rawRead row (col + 1), Access.rgbRead d tr (tc - 1) 1,
        Access.rgbRead d tr (tc + 1) 1]).wrRgb d tr tc (2 - cng)
          (CLIP (rawData row col + (1 / 2) * (rawData row (col - 1) + rawData row (col + 1)
            - m.rgb d tr (tc - 1) 1 - m.rgb d tr (tc + 1) 1)))
      let b := (a.note [Access.rawRead row col, Access.rawRead (row - 1) col,
        Access.rawRead (row + 1) col, Access.rgbRead d (tr - 1) tc 1,
        Access.rgbRead d (tr + 1) tc 1]).wrRgb d tr tc cng
          (CLIP (rawData row col + (1 / 2) * (rawData (row - 1) col + rawData (row + 1) col
            - a.rgb d (tr - 1) tc 1 - a.rgb d (tr + 1) tc 1)))
      (b.note [Access.rawRead row col]).wrRgb d tr tc 1 (rawData row col)
    else
      let a := (m.note [Access.rgbRead d tr tc 1, Access.rawRead (row - 1) (col - 1),
        Access.rawRead (row - 1) (col + 1), Access.rawRead (row + 1) (col - 1),
        Access.rawRead (row + 1) (col + 1), Access.rgbRead d (tr - 1) (tc - 1) 1,
        Access.rgbRead d (tr - 1) (tc + 1) 1, Access.rgbRead d (tr + 1) (tc - 1) 1,
        Access.rgbRead d (tr + 1) (tc + 1) 1]).wrRgb d tr tc cng
          (CLIP (m.rgb d tr tc 1 + (1 / 4) * (rawData (row - 1) (col - 1)
            + rawData (row - 1) (col + 1) + rawData (row + 1) (col - 1)
            + rawData (row + 1) (col + 1)
            - m.rgb d (tr - 1) (tc - 1) 1 - m.rgb d (tr - 1) (tc + 1) 1
            - m.rgb d (tr + 1) (tc - 1) 1 - m.rgb d (tr + 1) (tc + 1) 1)))
      (a.note [Access.rawRead row col]).wrRgb d tr tc (2 - cng) (rawData row col)
  let x0 : F := ((0 + xyzCam 0 0 * m1.rgb d tr tc 0) + xyzCam 0 1 * m1.rgb d tr tc 1)
    + xyzCam 0 2 * m1.rgb d tr tc 2
  let x1 : F := ((0 + xyzCam 1 0 * m1.rgb d tr tc 0) + xyzCam 1 1 * m1.rgb d tr tc 1)
    + xyzCam 1 2 * m1.rgb d tr tc 2
  let x2 : F := ((0 + xyzCam 2 0 * m1.rgb d tr tc 0) + xyzCam 2 1 * m1.rgb d tr tc 1)
    + xyzCam 2 2 * m1.rgb d tr tc 2
  let m2 := m1.note [Access.rgbRead d tr tc 0, Access.rgbRead d tr tc 0, Access.rgbRead d tr tc 0,
    Access.rgbRead d tr tc 1, Access.rgbRead d tr tc 1, Access.rgbRead d tr tc 1,
    Access.rgbRead d tr tc 2, Access.rgbRead d tr tc 2, Access.rgbRead d tr tc 2]
  ((m2.wrLab d tr tc 0 (116 * cbrt x1 - 16)).wrLab d tr tc 1
    (500 * (cbrt x0 - cbrt x1))).wrLab d tr tc 2 (200 * (cbrt x1 - cbrt x2))

/-- Rows of the red/blue pass:
`for (row = top + 1; row < top + TS - 1 && row < height - 3; row++)`. -/
def redBlueRows (height top : Int) : List Int :=
  loopFrom (top + 1) (min (top + TS - 1) (height - 3)) 1

/-- Columns of the red/blue pass:
`for (col = left + 1; col < min(left + TS - 1, width - 3); col++)`. -/
def redBlueCols (width left : Int) : List Int :=
  loopFrom (left + 1) (min (left + TS - 1) (width - 3)) 1

/-- Pass B over one tile: `for (d = 0; d < 2; d++)` around the row and column
loops. -/
def redBluePass (width height : Int) (rawData : Int → Int → F) (cfarray : Cfa)
    (xyzCam : Int → Int → F) (cbrt : F → F) (top left : Int) (m : Machine F) : Machine F :=
  (loopFrom 0 2 1).foldl (fun m d =>
    sweep (redBlueRows height top) (fun _ => redBlueCols width left)
      (redBlueStep rawData cfarray xyzCam cbrt top left d) m) m

/-! ## Pass C: homogeneity maps (lines 165-192) -/

/-- The neighbour offsets `dir[4] = { -1, 1, -TS, TS }` as (row, column) steps:
left, right, up, down. -/
def dir (i : Nat) : Int × Int :=
  match i with
  | 0 => (0, -1)
  | 1 => (0, 1)
  | 2 => (-1, 0)
  | _ => (1, 0)

/-- Lightness difference `ldiff[d][i]` at tile cell `(tr, tc)` of a Lab volume. -/
def ldiffOf (lab : Int → Int → Int → Int → F) (tr tc d : Int) (i : Nat) : F :=
  |lab d tr tc 0 - lab d (tr + (dir i).1) (tc + (dir i).2) 0|

/-- Squared chroma distance `abdiff[d][i]` at tile cell `(tr, tc)` of a Lab volume. -/
def abdiffOf (lab : Int → Int → Int → Int → F) (tr tc d : Int) (i : Nat) : F :=
  SQR (lab d tr tc 1 - lab d (tr + (dir i).1) (tc + (dir i).2) 1)
    + SQR (lab d tr tc 2 - lab d (tr + (dir i).1) (tc + (dir i).2) 2)

/-- The threshold `leps`. -/
def lepsOf (lab : Int → Int → Int → Int → F) (tr tc : Int) : F :=
  min (max (ldiffOf lab tr tc 0 0) (ldiffOf lab tr tc 0 1))
    (max (ldiffOf lab tr tc 1 2) (ldiffOf lab tr tc 1 3))

/-- The threshold `abeps`. -/
def abepsOf (lab : Int → Int → Int → Int → F) (tr tc : Int) : F :=
  min (max (abdiffOf lab tr tc 0 0) (abdiffOf lab tr tc 0 1))
    (max (abdiffOf lab tr tc 1 2) (abdiffOf lab tr tc 1 3))

/-- The increment `(ldiff[d][i] <= leps) * (abdiff[d][i] <= abeps)`. -/
def homoBit (lab : Int → Int → Int → Int → F) (tr tc d : Int) (i : Nat) : Nat :=
  (if ldiffOf lab tr tc d i ≤ lepsOf lab tr tc then 1 else 0)
    * (if abdiffOf lab tr tc d i ≤ abepsOf lab tr tc then 1 else 0)

/-- Body of the homogeneity loop at `(row, col)`: the differences to the four
neighbours are read from both Lab volumes, then `homo[d][tr][tc]` is reset and
incremented (as a `uint16_t`) once per neighbour that passes both thresholds. -/
def homoStep (top left : Int) (m : Machine F) (row col : Int) : Machine F :=
  let tr := row - top
  let tc := col - left
  let lab := m.lab
  let m1 := m.note (([0, 1] : List Int).flatMap fun d => ([0, 1, 2, 3] : List Nat).flatMap fun i =>
    [Access.labRead d tr tc 0, Access.labRead d (tr + (dir i).1) (tc + (dir i).2) 0,
     Access.labRead d tr tc 1, Access.labRead d (tr + (dir i).1) (tc + (dir i).2) 1,
     Access.labRead d tr tc 2, Access.labRead d (tr + (dir i).1) (tc + (dir i).2) 2])
  ([0, 1] : List Int).foldl (fun m d =>
    ([0, 1, 2, 3] : List Nat).foldl (fun m i =>
      (m.note [Access.homoRead d tr tc]).wrHomo d tr tc
        ((m.homo d tr tc + homoBit lab tr tc d i) % 65536))
      (m.wrHomo d tr tc 0)) m1

/-- Rows of the homogeneity pass:
`for (row = top + 2; row < top + TS - 2 && row < height - 4; row++)`. -/
def homoRows (height top : Int) : List Int :=
  loopFrom (top + 2) (min (top + TS - 2) (height - 4)) 1

/-- Columns of the homogeneity pass:
`for (col = left + 2; col < left + TS - 2 && col < width - 4; col++)`. -/
def homoCols (width left : Int) : List Int :=
  loopFrom (left + 2) (min (left + TS - 2) (width - 4)) 1

/-- Pass C over one tile. -/
def homoPass (width height : Int) (top left : Int) (m : Machine F) : Machine F :=
  sweep (homoRows height top) (fun _ => homoCols width left) (homoStep top left) m

/-! ## Pass D: fusion (lines 195-217) -/

/-- The 3x3 neighbourhood scanned by
`for (i = tr - 1; i <= tr + 1; i++) for (j = tc - 1; j <= tc + 1; j++)`. -/
def hood (tr tc : Int) : List (Int × Int) :=
  (loopFrom (tr - 1) (tr + 2) 1).flatMap fun i => (loopFrom (tc - 1) (tc + 2) 1).map fun j => (i, j)

/-- The `uint16_t` accumulator `hm` of direction `d` after the 3x3 scan. -/
def hmOf (homo : Int → Int → Int → Nat) (d tr tc : Int) : Nat :=
  (hood tr tc).foldl (fun acc ij => (acc + homo d ij.1 ij.2) % 65536) 0

/-- Body of the fusion loop at `(row, col)`: the two 3x3 homogeneity sums are
formed; if they differ the RGB triple of the direction with the larger sum is
copied to the output planes, otherwise the channel-wise mean of both. -/
def fuseStep (top left : Int) (m : Machine F) (row col : Int) : Machine F :=
  let tr := row - top
  let tc := col - left
  let hm0 := hmOf m.homo 0 tr tc
  let hm1 := hmOf m.homo 1 tr tc
  let m1 := m.note ((hood tr tc).flatMap fun ij =>
    [Access.homoRead 0 ij.1 ij.2, Access.homoRead 1 ij.1 ij.2])
  if hm0 ≠ hm1 then
    let ldir : Int := if hm1 > hm0 then 1 else 0
    let a := (m1.note [Access.rgbRead ldir tr tc 0]).wrRed row col (m1.rgb ldir tr tc 0)
    let b := (a.note [Access.rgbRead ldir tr tc 1]).wrGreen row col (a.rgb ldir tr tc 1)
    (b.note [Access.rgbRead ldir tr tc 2]).wrBlue row col (b.rgb ldir tr tc 2)
  else
    let a := (m1.note [Access.rgbRead 0 tr tc 0, Access.rgbRead 1 tr tc 0]).wrRed row col
      ((1 / 2) * (m1.rgb 0 tr tc 0 + m1.rgb 1 tr tc 0))
    let b := (a.note [Access.rgbRead 0 tr tc 1, Access.rgbRead 1 tr tc 1]).wrGreen row col
      ((1 / 2) * (a.rgb 0 tr tc 1 + a.rgb 1 tr tc 1))
    (b.note [Access.rgbRead 0 tr tc 2, Access.rgbRead 1 tr tc 2]).wrBlue row col
      ((1 / 2) * (b.rgb 0 tr tc 2 + b.rgb 1 tr tc 2))

/-- Rows of the fusion pass:
`for (row = top + 3; row < top + TS - 3 && row < height - 5; row++)`. -/
def fuseRows (height top : Int) : List Int :=
  loopFrom (top + 3) (min (top + TS - 3) (height - 5)) 1

/-- Columns of the fusion pass:
`for (col = left + 3; col < min(left + TS - 3, width - 5); col++)`. -/
def fuseCols (width left : Int) : List Int :=
  loopFrom (left + 3) (min (left + TS - 3) (width - 5)) 1

/-- Pass D over one tile. -/
def fusePass (width height : Int) (top left : Int) (m : Machine F) : Machine F :=
  sweep (fuseRows height top) (fun _ => fuseCols width left) (fuseStep top left) m

/-! ## Progress update (lines 220-230) and the tile loop -/

/-- The statements after the four passes of a tile: `progresscounter++`, and
on every 32nd tile `progress += 32.0 * SQR(TS - 6) / (height * width)`,
`progress = min(progress, 1.0)`, `setProgCancel(progress)`.  The denominator is
the `int` product; when it is zero the double quotient is `+inf` and the
minimum with `1.0` is `1.0`. -/
def progressStep (width height : Int) (m : Machine F) : Machine F :=
  let m1 := { m with progresscounter := m.progresscounter + 1 }
  if m1.progresscounter % 32 = 0 then
    let area : Int := wrap32 (height * width)
    let p : F := if area = 0 then 1
      else min (m1.progress + 32 * (((TS - 6) * (TS - 6) : Int) : F) / (area : F)) 1
    { m1 with progress := p, reported := m1.reported ++ [p] }
  else m1

/-- The four passes of the tile with origin `(top, left)`. -/
def tilePasses (width height : Int) (rawData : Int → Int → F) (cfarray : Cfa)
    (xyzCam : Int → Int → F) (cbrt : F → F) (top left : Int) (m : Machine F) : Machine F :=
  fusePass width height top left
    (homoPass width height top left
      (redBluePass width height rawData cfarray xyzCam cbrt top left
        (greenPass width height rawData cfarray top left m)))

/-- One iteration of the tile loop: the four passes, then the progress update. -/
def tileStep (width height : Int) (rawData : Int → Int → F) (cfarray : Cfa)
    (xyzCam : Int → Int → F) (cbrt : F → F) (m : Machine F) (t : Int × Int) : Machine F :=
  progressStep width height (tilePasses width height rawData cfarray xyzCam cbrt t.1 t.2 m)

/-- Tile origins in source order:
`for (top = 2; top < height - 5; top += TS - 6)
   for (left = 2; left < width - 5; left += TS - 6)`. -/
def tileList (width height : Int) : List (Int × Int) :=
  (loopFrom 2 (height - 5) (TS - 6)).flatMap fun top =>
    (loopFrom 2 (width - 5) (TS - 6)).map fun left => (top, left)

/-- The tile loop run by a single worker over the tiles in the given order. -/
def runTiles (width height : Int) (rawData : Int → Int → F) (cfarray : Cfa)
    (xyzCam : Int → Int → F) (cbrt : F → F) (order : List (Int × Int)) (m : Machine F) :
    Machine F :=
  order.foldl (tileStep width height rawData cfarray xyzCam cbrt) m

/-! ## The entry point -/

/-- What `bayerborder_demosaic` (an external collaborator) hands back: its
return code and the three planes as it left them. -/
structure BorderResult (F : Type) where
  rc : rpError
  red : Int → Int → F
  green : Int → Int → F
  blue : Int → Int → F

/-- The signature of `bayerborder_demosaic(width, height, border, rawData, red,
green, blue, cfarray)`. -/
abbrev BorderPass (F : Type) :=
  Int → Int → Int → (Int → Int → F) → (Int → Int → F) → (Int → Int → F) → (Int → Int → F) →
    Cfa → BorderResult F

/-- The state at entry: the caller's output planes, a scratch buffer with the
arbitrary contents `rgb0`, `lab0`, `homo0` that fresh storage holds, and nothing
accessed or reported yet. -/
def Machine.initial (red green blue : Int → Int → F) (rgb0 lab0 : Int → Int → Int → Int → F)
    (homo0 : Int → Int → Int → Nat) : Machine F :=
  { rgb := rgb0, lab := lab0, homo := homo0, red := red, green := green, blue := blue,
    log := [], progresscounter := 0, progress := 0, reported := [], borderCalls := 0 }

/-- The function `ahd_demosaic` for a single worker that processes the tiles
in the order `order`.  `border` is the border pass, `allocOk` tells whether
`new (std::nothrow) float[13 * TS * TS]` succeeded and `cbrt` is the lookup in
the cube-root table.  The result is the return code and the final state. -/
def ahd_run (border : BorderPass F) (cbrt : F → F) (allocOk : Bool) (order : List (Int × Int))
    (width height : Int) (rawData : Int → Int → F) (m0 : Machine F) (cfarray : Cfa)
    (rgb_cam : Int → Int → F) : rpError × Machine F :=
  if !validateBayerCfa cfarray then (rpError.RP_WRONG_CFA, m0)
  else
    let m1 : Machine F := { m0 with progress := 0, reported := m0.reported ++ [0] }
    let b := border width height 5 rawData m1.red m1.green m1.blue cfarray
    let m2 : Machine F := { m1 with red := b.red, green := b.green, blue := b.blue,
                                    borderCalls := m1.borderCalls + 1 }
    let m3 : Machine F := { m2 with progresscounter := 0 }
    let rc : rpError := if allocOk then b.rc else rpError.RP_MEMORY_ERROR
    let m4 : Machine F :=
      if rc = rpError.RP_NO_ERROR then
        runTiles width height rawData cfarray (xyz_cam rgb_cam) cbrt order m3
      else m3
    (rc, { m4 with reported := m4.reported ++ [1] })

/-- The function `ahd_demosaic`: the tiles are visited in source order. -/
def ahd_demosaic (border : BorderPass F) (cbrt : F → F) (allocOk : Bool)
    (width height : Int) (rawData : Int → Int → F) (m0 : Machine F) (cfarray : Cfa)
    (rgb_cam : Int → Int → F) : rpError × Machine F :=
  ahd_run border cbrt allocOk (tileList width height) width height rawData m0 cfarray rgb_cam

/-! ## Vocabulary for the statements -/

/-- The state in which the tile loop is entered: `setProgCancel(0.0)` has been
called, the border pass has run and handed back the planes, and
`progresscounter` is zero. -/
def loopEntry (border : BorderPass F) (width height : Int) (rawData : Int → Int → F)
    (m0 : Machine F) (cfarray : Cfa) : Machine F :=
  { m0 with
    progress := 0
    reported := m0.reported ++ [0]
    red := (border width height 5 rawData m0.red m0.green m0.blue cfarray).red
    green := (border width height 5 rawData m0.red m0.green m0.blue cfarray).green
    blue := (border width height 5 rawData m0.red m0.green m0.blue cfarray).blue
    borderCalls := m0.borderCalls + 1
    progresscounter := 0 }

/-- The progress bookkeeping of `m'` is that of `m`. -/
def SameProgress (m m' : Machine F) : Prop :=
  m'.progresscounter = m.progresscounter ∧ m'.progress = m.progress ∧
    m'.reported = m.reported ∧ m'.borderCalls = m.borderCalls

/-- The output planes of `m'` are those of `m`. -/
def SamePlanes (m m' : Machine F) : Prop :=
  m'.red = m.red ∧ m'.green = m.green ∧ m'.blue = m.blue

/-- The increment `32.0 * SQR(TS - 6) / (height * width)` of the progress
update, for a non-zero `int` product. -/
def progressIncrement (width height : Int) : F :=
  32 * (((TS - 6) * (TS - 6) : Int) : F) / ((wrap32 (height * width) : Int) : F)

/-- Closed form of the value carried by the `k`-th report made inside the tile
loop (`k ≥ 1`), see `runTiles_reported`. -/
def reportValue (width height : Int) (k : Nat) : F :=
  if wrap32 (height * width) = 0 then 1 else min ((k : F) * progressIncrement width height) 1

/-- The values reported inside the tile loop when `n` tiles are processed. -/
def inLoopReports (width height : Int) (n : Nat) : List F :=
  (List.range (n / 32)).map fun j => reportValue width height (j + 1)

end Model

/-- An access is in bounds for an image of the given size: a raw read or a
plane write addresses a pixel of the image (and one of the three planes), a
scratch access addresses a cell of the `TS x TS` tile, of direction 0 or 1 and
of channel 0, 1 or 2. -/
def Access.inBounds (width height : Int) : Access → Prop
  | .rawRead row col => 0 ≤ row ∧ row < height ∧ 0 ≤ col ∧ col < width
  | .rgbRead d tr tc c =>
      0 ≤ d ∧ d < 2 ∧ 0 ≤ tr ∧ tr < TS ∧ 0 ≤ tc ∧ tc < TS ∧ 0 ≤ c ∧ c < 3
  | .rgbWrite d tr tc c =>
      0 ≤ d ∧ d < 2 ∧ 0 ≤ tr ∧ tr < TS ∧ 0 ≤ tc ∧ tc < TS ∧ 0 ≤ c ∧ c < 3
  | .labRead d tr tc c =>
      0 ≤ d ∧ d < 2 ∧ 0 ≤ tr ∧ tr < TS ∧ 0 ≤ tc ∧ tc < TS ∧ 0 ≤ c ∧ c < 3
  | .labWrite d tr tc c =>
      0 ≤ d ∧ d < 2 ∧ 0 ≤ tr ∧ tr < TS ∧ 0 ≤ tc ∧ tc < TS ∧ 0 ≤ c ∧ c < 3
  | .homoRead d tr tc => 0 ≤ d ∧ d < 2 ∧ 0 ≤ tr ∧ tr < TS ∧ 0 ≤ tc ∧ tc < TS
  | .homoWrite d tr tc => 0 ≤ d ∧ d < 2 ∧ 0 ≤ tr ∧ tr < TS ∧ 0 ≤ tc ∧ tc < TS
  | .planeWrite p row col => p < 3 ∧ 0 ≤ row ∧ row < height ∧ 0 ≤ col ∧ col < width

/-! ## Reference values

The value each pass leaves in a scratch cell, written as a function of the
image position alone (no tile, no state).  The theorems relate the state of
`Machine` to these functions. -/

section Reference

variable {F : Type} [LinearOrderedField F]

/-- Green hypothesis of direction `d` at a non-green pixel (the two assignments
of the green loop). -/
def greenRef (rawData : Int → Int → F) (d row col : Int) : F :=
  if d = 0 then
    median ((1 / 4) * ((rawData row (col - 1) + rawData row col + rawData row (col + 1)) * 2
      - rawData row (col - 2) - rawData row (col + 2)))
      (rawData row (col - 1)) (rawData row (col + 1))
  else
    median ((1 / 4) * ((rawData (row - 1) col + rawData row col + rawData (row + 1) col) * 2
      - rawData (row - 2) col - rawData (row + 2) col))
      (rawData (row - 1) col) (rawData (row + 1) col)

/-- Channel `c` of the RGB hypothesis of direction `d` at `(row, col)` after
the red/blue loop; where the loop assigns a cell more than once the last
assignment counts. -/
def rgbRef (rawData : Int → Int → F) (cfarray : Cfa) (d row col c : Int) : F :=
  if fc cfarray row col = 1 then
    if c = 1 then rawData row col
    else if c = cngOf cfarray row then
      CLIP (rawData row col + (1 / 2) * (rawData (row - 1) col + rawData (row + 1) col
        - greenRef rawData d (row - 1) col - greenRef rawData d (row + 1) col))
    else
      CLIP (rawData row col + (1 / 2) * (rawData row (col - 1) + rawData row (col + 1)
        - greenRef rawData d row (col - 1) - greenRef rawData d row (col + 1)))
  else
    if c = 2 - cngOf cfarray row then rawData row col
    else if c = cngOf cfarray row then
      CLIP (greenRef rawData d row col + (1 / 4) * (rawData (row - 1) (col - 1)
        + rawData (row - 1) (col + 1) + rawData (row + 1) (col - 1)
        + rawData (row + 1) (col + 1)
        - greenRef rawData d (row - 1) (col - 1) - greenRef rawData d (row - 1) (col + 1)
        - greenRef rawData d (row + 1) (col - 1) - greenRef rawData d (row + 1) (col + 1)))
    else greenRef rawData d row col

/-- Component `k` of the CIELab triple computed from an RGB triple `r`: the
matrix product, the table lookups and the Lab combination of lines 145-159. -/
def labOf (xyzCam : Int → Int → F) (cbrt : F → F) (r : Int → F) (k : Int) : F :=
  let x0 : F := ((0 + xyzCam 0 0 * r 0) + xyzCam 0 1 * r 1) + xyzCam 0 2 * r 2
  let x1 : F := ((0 + xyzCam 1 0 * r 0) + xyzCam 1 1 * r 1) + xyzCam 1 2 * r 2
  let x2 : F := ((0 + xyzCam 2 0 * r 0) + xyzCam 2 1 * r 1) + xyzCam 2 2 * r 2
  if k = 0 then 116 * cbrt x1 - 16
  else if k = 1 then 500 * (cbrt x0 - cbrt x1)
  else 200 * (cbrt x1 - cbrt x2)

/-- Component `k` of the CIELab triple of direction `d` at `(row, col)`. -/
def labRef (rawData : Int → Int → F) (cfarray : Cfa) (xyzCam : Int → Int → F) (cbrt : F → F)
    (d row col k : Int) : F :=
  labOf xyzCam cbrt (rgbRef rawData cfarray d row col) k

/-- Homogeneity score of direction `d` at `(row, col)`: the number of the four
neighbours that pass both thresholds. -/
def homoRef (rawData : Int → Int → F) (cfarray : Cfa) (xyzCam : Int → Int → F) (cbrt : F → F)
    (d row col : Int) : Nat :=
  homoBit (labRef rawData cfarray xyzCam cbrt) row col d 0
    + homoBit (labRef rawData cfarray xyzCam cbrt) row col d 1
    + homoBit (labRef rawData cfarray xyzCam cbrt) row col d 2
    + homoBit (labRef rawData cfarray xyzCam cbrt) row col d 3

/-- Sum of the homogeneity scores `homo[d]` over the 3x3 neighbourhood of the
cell `(tr, tc)`, as a natural number (no `uint16_t` wrap-around). -/
def homoSum (homo : Int → Int → Int → Nat) (d tr tc : Int) : Nat :=
  ((hood tr tc).map fun ij => homo d ij.1 ij.2).sum

/-- Channel `c` of the fused output at `(row, col)` given RGB hypotheses `rgb`
and homogeneity scores `homo` addressed by the cell `(tr, tc)`. -/
def fuseOf (rgb : Int → Int → Int → Int → F) (homo : Int → Int → Int → Nat) (tr tc c : Int) : F :=
  if hmOf homo 0 tr tc ≠ hmOf homo 1 tr tc then
    rgb (if hmOf homo 1 tr tc > hmOf homo 0 tr tc then 1 else 0) tr tc c
  else (1 / 2) * (rgb 0 tr tc c + rgb 1 tr tc c)

/-- Channel `c` of the final output at an interior pixel `(row, col)`. -/
def fusedRef (rawData : Int → Int → F) (cfarray : Cfa) (xyzCam : Int → Int → F) (cbrt : F → F)
    (row col c : Int) : F :=
  fuseOf (rgbRef rawData cfarray) (homoRef rawData cfarray xyzCam cbrt) row col c

/-- The green pass of the tile at `(top, left)` is complete in state `s`: the
green hypotheses of both directions at every non-green pixel of its range are
in place. -/
def GreenDone (width height : Int) (rawData : Int → Int → F) (cfarray : Cfa) (top left : Int)
    (s : Machine F) : Prop :=
  ∀ d row col tr tc : Int, tr = row - top → tc = col - left → (d = 0 ∨ d = 1) →
    top ≤ row → row < top + 144 → row < height - 2 →
    left ≤ col → col < left + 144 → col < width - 2 → fc cfarray row col ≠ 1 →
    s.rgb d tr tc 1 = greenRef rawData d row col

/-- The red/blue pass of the tile at `(top, left)` is complete for direction
`d` in state `s`: all three channels of the RGB hypothesis and the Lab triple of
every pixel of its range are in place. -/
def RgbLabDone (width height : Int) (rawData : Int → Int → F) (cfarray : Cfa)
    (xyzCam : Int → Int → F) (cbrt : F → F) (top left d : Int) (s : Machine F) : Prop :=
  ∀ row col tr tc c : Int, tr = row - top → tc = col - left →
    top + 1 ≤ row → row < top + 143 → row < height - 3 →
    left + 1 ≤ col → col < left + 143 → col < width - 3 → 0 ≤ c → c < 3 →
    s.rgb d tr tc c = rgbRef rawData cfarray d row col c ∧
    s.lab d tr tc c = labRef rawData cfarray xyzCam cbrt d row col c

/-- The homogeneity pass of the tile at `(top, left)` is complete in state `s`. -/
def HomoDone (width height : Int) (rawData : Int → Int → F) (cfarray : Cfa)
    (xyzCam : Int → Int → F) (cbrt : F → F) (top left : Int) (s : Machine F) : Prop :=
  ∀ d row col tr tc : Int, tr = row - top → tc = col - left → (d = 0 ∨ d = 1) →
    top + 2 ≤ row → row < top + 142 → row < height - 4 →
    left + 2 ≤ col → col < left + 142 → col < width - 4 →
    s.homo d tr tc = homoRef rawData cfarray xyzCam cbrt d row col

end Reference

/-! ## Reads and the writes they depend on -/

/-- The write a scratch read depends on: the write to the same cell.  Raw reads
and writes depend on nothing. -/
def Access.source : Access → Option Access
  | .rgbRead d tr tc c => some (.rgbWrite d tr tc c)
  | .labRead d tr tc c => some (.labWrite d tr tc c)
  | .homoRead d tr tc => some (.homoWrite d tr tc)
  | _ => none

/-- Scan of an access list in program order: every scratch read finds the write
to its cell among the accesses made before it (`seen`, latest first). -/
def readsDefinedFrom (seen : List Access) : List Access → Bool
  | [] => true
  | a :: rest =>
    (match a.source with
      | none => true
      | some w => decide (w ∈ seen)) && readsDefinedFrom (a :: seen) rest

section Logged

variable {F : Type}

/-- The log of `s` holds the green-pass writes of the tile at `(top, left)`. -/
def GreenLogged (width height : Int) (cfarray : Cfa) (top left : Int) (s : Machine F) : Prop :=
  ∀ d row col tr tc : Int, tr = row - top → tc = col - left → (d = 0 ∨ d = 1) →
    top ≤ row → row < top + 144 → row < height - 2 →
    left ≤ col → col < left + 144 → col < width - 2 → fc cfarray row col ≠ 1 →
    Access.rgbWrite d tr tc 1 ∈ s.log

/-- The log of `s` holds the red/blue-pass writes of direction `d` (all three
RGB channels and the Lab triple) of the tile at `(top, left)`. -/
def RgbLabLogged (width height : Int) (top left d : Int) (s : Machine F) : Prop :=
  ∀ row col tr tc c : Int, tr = row - top → tc = col - left →
    top + 1 ≤ row → row < top + 143 → row < height - 3 →
    left + 1 ≤ col → col < left + 143 → col < width - 3 → 0 ≤ c → c < 3 →
    Access.rgbWrite d tr tc c ∈ s.log ∧ Access.labWrite d tr tc c ∈ s.log

/-- The log of `s` holds the homogeneity-pass writes of the tile at
`(top, left)`. -/
def HomoLogged (width height : Int) (top left : Int) (s : Machine F) : Prop :=
  ∀ d row col tr tc : Int, tr = row - top → tc = col - left → (d = 0 ∨ d = 1) →
    top + 2 ≤ row → row < top + 142 → row < height - 4 →
    left + 2 ≤ col → col < left + 142 → col < width - 4 →
    Access.homoWrite d tr tc ∈ s.log

end Logged

/-! ## The tables built before the tile loop, and the estimates of pass B -/

section Further

variable {F : Type} [LinearOrderedField F]

/-- Pointwise update of a table. -/
def upd1 {α : Type} (a : Int → α) (i : Int) (v : α) : Int → α :=
  fun i' => if i' = i then v else a i'

/-- The value assigned to `cbrt[i]` (lines 66-67): with `r = i / 65535.0`,
`r > 0.008856 ? std::cbrt(r) : 7.787 * r + 16 / 116.0`.  `cbrtFn` is
`std::cbrt`. -/
def cbrtEntry (cbrtFn : F → F) (i : Int) : F :=
  let r : F := (i : F) / 65535
  if r > 8856 / 1000000 then cbrtFn r else 7787 / 1000 * r + 16 / 116

/-- The table after the filling loop `for (int i = 0; i < 65536; i++)` of lines
65-68, started from the contents `t0` of the fresh table. -/
def cbrtTable (cbrtFn : F → F) (t0 : Int → F) : Int → F :=
  (loopFrom 0 65536 1).foldl (fun t i => upd1 t i (cbrtEntry cbrtFn i)) t0

/-- The array `xyz_cam` after the loops of lines 70-76, started from the
contents `a0` of the uninitialised array: each cell is zeroed and then receives
the three summands `xyz_rgb[i][k] * rgb_cam[k][j] / d65_white[i]`. -/
def xyzCamLoop (rgb_cam : Int → Int → F) (a0 : Int → Int → F) : Int → Int → F :=
  (loopFrom 0 3 1).foldl (fun a i =>
    (loopFrom 0 3 1).foldl (fun a j =>
      (loopFrom 0 3 1).foldl (fun a k =>
        upd2 a i j (a i j + xyz_rgb i k * rgb_cam k j / d65_white i)) (upd2 a i j 0)) a) a0

/-- The state after the green pass and the red/blue pass of the tile at
`(top, left)`: both RGB hypotheses and both Lab volumes are complete. -/
def greenRedBlue (width height : Int) (rawData : Int → Int → F) (cfarray : Cfa)
    (xyzCam : Int → Int → F) (cbrt : F → F) (top left : Int) (m : Machine F) : Machine F :=
  redBluePass width height rawData cfarray xyzCam cbrt top left
    (greenPass width height rawData cfarray top left m)

/-- The estimate of lines 133-134 read on an RGB volume:
`CLIP(pix[0] + 0.5f * (pix[-1] + pix[1] - rix[-1][1] - rix[1][1]))`. -/
def rowEstimate (rawData : Int → Int → F) (rgb : Int → Int → Int → Int → F)
    (top left d row col : Int) : F :=
  CLIP (rawData row col + (1 / 2) * (rawData row (col - 1) + rawData row (col + 1)
    - rgb d (row - top) (col - left - 1) 1 - rgb d (row - top) (col - left + 1) 1))

/-- The estimate of lines 135-136 read on an RGB volume:
`CLIP(pix[0] + 0.5f * (pix[-width] + pix[width] - rix[-TS][1] - rix[TS][1]))`. -/
def columnEstimate (rawData : Int → Int → F) (rgb : Int → Int → Int → Int → F)
    (top left d row col : Int) : F :=
  CLIP (rawData row col + (1 / 2) * (rawData (row - 1) col + rawData (row + 1) col
    - rgb d (row - top - 1) (col - left) 1 - rgb d (row - top + 1) (col - left) 1))

/-- The estimate of lines 139-142 read on an RGB volume: the local green plus a
quarter of the four diagonal raw samples minus the green at the four diagonal
cells, clipped. -/
def diagonalEstimate (rawData : Int → Int → F) (rgb : Int → Int → Int → Int → F)
    (top left d row col : Int) : F :=
  CLIP (rgb d (row - top) (col - left) 1 + (1 / 4) * (rawData (row - 1) (col - 1)
    + rawData (row - 1) (col + 1) + rawData (row + 1) (col - 1) + rawData (row + 1) (col + 1)
    - rgb d (row - top - 1) (col - left - 1) 1 - rgb d (row - top - 1) (col - left + 1) 1
    - rgb d (row - top + 1) (col - left - 1) 1 - rgb d (row - top + 1) (col - left + 1) 1))

end Further

/-! ## Concrete inputs used to instantiate the theorems -/

/-- A raw plane with varying samples. -/
def demoRaw : Int → Int → ℚ := fun row col => (((row * 7 + col * 3 + row * col) % 11 : Int) : ℚ)

/-- The RGGB Bayer pattern. -/
def demoCfa : Cfa := { c00 := 0, c01 := 1, c10 := 1, c11 := 2 }

/-- A descriptor that is not a Bayer pattern (no green). -/
def badCfa : Cfa := { c00 := 0, c01 := 0, c10 := 2, c11 := 2 }

/-- A border pass that reports no error and leaves the planes as they are. -/
def demoBorder : BorderPass ℚ := fun _ _ _ _ r g b _ =>
  { rc := rpError.RP_NO_ERROR, red := r, green := g, blue := b }

/-- The identity camera matrix (fourth column zero). -/
def demoCam : Int → Int → ℚ := fun i j => if i = j then 1 else 0

/-- A stand-in for the cube-root table lookup. -/
def demoCbrt : ℚ → ℚ := fun x => x / 65535

/-- An entry state: planes filled with `-1`, scratch with arbitrary values. -/
def demoMachine : Machine ℚ :=
  Machine.initial (fun _ _ => -1) (fun _ _ => -1) (fun _ _ => -1) (fun _ _ _ _ => 77)
    (fun _ _ _ _ => 55) (fun _ _ _ => 9)

/-- A raw plane whose samples all exceed the sample range. -/
def brightRaw : Int → Int → ℚ := fun _ _ => 70000

/-- The plane `demoRaw` with the sample of the green pixel `(4, 5)` raised by 100. -/
def greenShiftRaw : Int → Int → ℚ :=
  fun r k => if r = 4 ∧ k = 5 then demoRaw 4 5 + 100 else demoRaw r k

/-- The plane `demoRaw` with the sample of the blue pixel `(5, 5)` raised by 100. -/
def blueShiftRaw : Int → Int → ℚ :=
  fun r k => if r = 5 ∧ k = 5 then demoRaw 5 5 + 100 else demoRaw r k

/-! # Theorems -/

section Loops

/-! ## Counting loops -/

theorem forLoop_fuel (hi step : Int) (hs : 0 < step) :
    ∀ (f1 f2 : Nat) (x : Int), (hi - x).toNat ≤ f1 → (hi - x).toNat ≤ f2 →
      forLoop f1 x hi step = forLoop f2 x hi step := by
  intro f1
  induction f1 with
  | zero =>
    intro f2 x h1 _
    have hx : ¬ x < hi := by omega
    cases f2 with
    | zero => rfl
    | succ n => simp [forLoop, hx]
  | succ n ih =>
    intro f2 x h1 h2
    cases f2 with
    | zero =>
      have hx : ¬ x < hi := by omega
      simp [forLoop, hx]
    | succ k =>
      by_cases hx : x < hi
      · simp only [forLoop, hx, if_true]
        rw [ih k (x + step) (by omega) (by omega)]
      · simp [forLoop, hx]

theorem loopFrom_unfold (lo hi step : Int) (hs : 0 < step) :
    loopFrom lo hi step = if lo < hi then lo :: loopFrom (lo + step) hi step else [] := by
  unfold loopFrom
  by_cases h : lo < hi
  · obtain ⟨n, hn⟩ : ∃ n, (hi - lo).toNat = n + 1 := ⟨(hi - lo).toNat - 1, by omega⟩
    rw [hn]
    simp only [forLoop, h, if_true]
    rw [forLoop_fuel hi step hs n (hi - (lo + step)).toNat (lo + step) (by omega) le_rfl]
  · have h0 : (hi - lo).toNat = 0 := by omega
    rw [h0]
    simp [forLoop, h]

theorem loopFrom_nil (lo hi step : Int) (hs : 0 < step) (h : hi ≤ lo) :
    loopFrom lo hi step = [] := by
  rw [loopFrom_unfold lo hi step hs, if_neg (by omega)]

theorem loopFrom_cons (lo hi step : Int) (hs : 0 < step) (h : lo < hi) :
    loopFrom lo hi step = lo :: loopFrom (lo + step) hi step := by
  rw [loopFrom_unfold lo hi step hs, if_pos h]

/-- Induction along a counting loop with a positive step. -/
theorem loopFrom_induction (hi step : Int) (hs : 0 < step) (P : Int → Prop)
    (hstop : ∀ lo, hi ≤ lo → P lo)
    (hnext : ∀ lo, lo < hi → P (lo + step) → P lo) : ∀ lo, P lo := by
  have key : ∀ (n : Nat) (lo : Int), (hi - lo).toNat ≤ n → P lo := by
    intro n
    induction n with
    | zero => intro lo h; exact hstop lo (by omega)
    | succ n ih =>
      intro lo h
      by_cases hlo : lo < hi
      · exact hnext lo hlo (ih (lo + step) (by omega))
      · exact hstop lo (by omega)
  intro lo
  exact key (hi - lo).toNat lo le_rfl

theorem mem_loopFrom (lo hi step : Int) (hs : 0 < step) (x : Int) :
    x ∈ loopFrom lo hi step ↔ lo ≤ x ∧ x < hi ∧ (x - lo) % step = 0 := by
  revert lo
  apply loopFrom_induction hi step hs
  · intro lo h
    rw [loopFrom_nil lo hi step hs h]
    simp only [List.not_mem_nil, false_iff]
    omega
  · intro lo h ih
    rw [loopFrom_cons lo hi step hs h, List.mem_cons, ih]
    constructor
    · rintro (rfl | ⟨h1, h2, h3⟩)
      · simp [h]
      · refine ⟨by omega, h2, ?_⟩
        have : x - lo = (x - (lo + step)) + step := by ring
        rw [this, Int.add_emod_self]
        exact h3
    · rintro ⟨h1, h2, h3⟩
      by_cases hx : x = lo
      · exact Or.inl hx
      · right
        have hdvd : step ∣ x - lo := Int.dvd_of_emod_eq_zero h3
        obtain ⟨k, hk⟩ := hdvd
        have hk1 : 1 ≤ k := by
          by_contra hk0
          have hk0' : k ≤ 0 := by omega
          have : step * k ≤ 0 := Int.mul_nonpos_of_nonneg_of_nonpos (le_of_lt hs) hk0'
          omega
        have hge : step ≤ step * k := by nlinarith
        refine ⟨by omega, h2, ?_⟩
        have : x - (lo + step) = step * (k - 1) := by rw [mul_sub, ← hk]; ring
        rw [this]
        exact Int.mul_emod_right step (k - 1)

theorem mem_loopFrom_one (lo hi x : Int) : x ∈ loopFrom lo hi 1 ↔ lo ≤ x ∧ x < hi := by
  rw [mem_loopFrom lo hi 1 (by decide)]
  simp

theorem loopFrom_nodup (lo hi step : Int) (hs : 0 < step) : (loopFrom lo hi step).Nodup := by
  revert lo
  apply loopFrom_induction hi step hs
  · intro lo h
    rw [loopFrom_nil lo hi step hs h]
    exact List.nodup_nil
  · intro lo h ih
    rw [loopFrom_cons lo hi step hs h, List.nodup_cons]
    refine ⟨?_, ih⟩
    rw [mem_loopFrom (lo + step) hi step hs]
    omega

theorem loopFrom_three (a : Int) : loopFrom a (a + 3) 1 = [a, a + 1, a + 2] := by
  rw [loopFrom_cons a (a + 3) 1 (by decide) (by omega),
    loopFrom_cons (a + 1) (a + 3) 1 (by decide) (by omega),
    loopFrom_cons (a + 1 + 1) (a + 3) 1 (by decide) (by omega),
    loopFrom_nil (a + 1 + 1 + 1) (a + 3) 1 (by decide) (by omega)]
  have : a + 1 + 1 = a + 2 := by ring
  rw [this]

theorem loopFrom_zero_two : loopFrom 0 2 1 = [0, 1] := by decide

/-! ## Folds -/

theorem foldl_invariant {σ ι : Type} (step : σ → ι → σ) (I : σ → Prop) (l : List ι)
    (hstep : ∀ s i, i ∈ l → I s → I (step s i)) : ∀ s, I s → I (l.foldl step s) := by
  induction l with
  | nil => intro s h; exact h
  | cons a t ih =>
    intro s h
    rw [List.foldl_cons]
    exact ih (fun s i hi hs => hstep s i (List.mem_cons_of_mem _ hi) hs) _
      (hstep s a (List.mem_cons_self _ _) h)

theorem sweep_invariant {σ : Type} (rows : List Int) (cols : Int → List Int)
    (body : σ → Int → Int → σ) (I : σ → Prop)
    (hstep : ∀ s row col, row ∈ rows → col ∈ cols row → I s → I (body s row col)) :
    ∀ s, I s → I (sweep rows cols body s) := by
  intro s hs
  unfold sweep
  refine foldl_invariant _ I rows ?_ s hs
  intro s row hrow hI
  exact foldl_invariant _ I (cols row) (fun s col hcol h => hstep s row col hrow hcol h) s hI

theorem foldl_measure {σ ι : Type} (step : σ → ι → σ) (f : σ → Nat) (g : ι → Nat) (l : List ι)
    (hstep : ∀ s i, i ∈ l → f (step s i) = f s + g i) :
    ∀ s, f (l.foldl step s) = f s + (l.map g).sum := by
  induction l with
  | nil => intro s; simp
  | cons a t ih =>
    intro s
    rw [List.foldl_cons, ih (fun s i hi => hstep s i (List.mem_cons_of_mem _ hi)),
      hstep s a (List.mem_cons_self _ _), List.map_cons, List.sum_cons]
    omega

theorem sweep_measure {σ : Type} (rows : List Int) (cols : Int → List Int)
    (body : σ → Int → Int → σ) (f : σ → Nat) (g : Int → Int → Nat)
    (hstep : ∀ s row col, row ∈ rows → col ∈ cols row → f (body s row col) = f s + g row col)
    (s : σ) :
    f (sweep rows cols body s) = f s + (rows.map fun row => ((cols row).map (g row)).sum).sum := by
  unfold sweep
  refine foldl_measure _ f (fun row => ((cols row).map (g row)).sum) rows ?_ s
  intro s row hrow
  exact foldl_measure _ f (g row) (cols row) (fun s col hcol => hstep s row col hrow hcol) s

theorem sum_map_zero {ι : Type} (l : List ι) (g : ι → Nat) (h : ∀ i ∈ l, g i = 0) :
    (l.map g).sum = 0 := by
  induction l with
  | nil => rfl
  | cons a t ih =>
    rw [List.map_cons, List.sum_cons, h a (List.mem_cons_self _ _),
      ih (fun i hi => h i (List.mem_cons_of_mem _ hi))]

theorem sum_map_indicator {ι : Type} [DecidableEq ι] (l : List ι) (hn : l.Nodup) (x : ι) (c : Nat) :
    (l.map fun y => if y = x then c else 0).sum = if x ∈ l then c else 0 := by
  induction l with
  | nil => simp
  | cons a t ih =>
    rw [List.nodup_cons] at hn
    rw [List.map_cons, List.sum_cons, ih hn.2]
    by_cases hax : a = x
    · subst hax
      simp [hn.1]
    · have hxa : ¬ x = a := fun h => hax h.symm
      simp [hax, hxa]

theorem sum_map_mul_left {ι : Type} (l : List ι) (c : Nat) (g : ι → Nat) :
    (l.map fun y => c * g y).sum = c * (l.map g).sum := by
  induction l with
  | nil => simp
  | cons a t ih => simp [ih, Nat.mul_add]

theorem sum_map_mul_right {ι : Type} (l : List ι) (c : Nat) (g : ι → Nat) :
    (l.map fun y => g y * c).sum = (l.map g).sum * c := by
  induction l with
  | nil => simp
  | cons a t ih => simp [ih, Nat.add_mul]

theorem sum_map_congr {ι : Type} (l : List ι) (g g' : ι → Nat) (h : ∀ i ∈ l, g i = g' i) :
    (l.map g).sum = (l.map g').sum := by
  rw [List.map_congr_left h]

theorem sum_map_flatMap {ι κ : Type} (l : List ι) (f : ι → List κ) (g : κ → Nat) :
    ((l.flatMap f).map g).sum = (l.map fun a => ((f a).map g).sum).sum := by
  induction l with
  | nil => rfl
  | cons a t ih => simp [List.flatMap_cons, ih]

theorem length_filter_eq_sum {ι : Type} (l : List ι) (q : ι → Bool) :
    (l.filter q).length = (l.map fun i => if q i = true then 1 else 0).sum := by
  induction l with
  | nil => rfl
  | cons a t ih =>
    by_cases h : q a = true
    · simp [List.filter_cons, h, ih]; omega
    · simp [List.filter_cons, h, ih]

/-! ## Tiling in one dimension -/

/-- Along one axis of length `n`, the fusion ranges of the tiles with origins
`a, a + 138, ...` below `n - 5` cover each position of `[a + 3, n - 5)` once. -/
theorem fuse_cover_from (n x : Int) : ∀ a : Int,
    ((loopFrom a (n - 5) (TS - 6)).map fun t =>
      if x ∈ loopFrom (t + 3) (min (t + TS - 3) (n - 5)) 1 then 1 else 0).sum
      = if a + 3 ≤ x ∧ x < n - 5 then 1 else 0 := by
  apply loopFrom_induction (n - 5) (TS - 6) (by decide)
  · intro a h
    rw [loopFrom_nil a (n - 5) (TS - 6) (by decide) h]
    have : ¬ (a + 3 ≤ x ∧ x < n - 5) := by omega
    simp [this]
  · intro a h ih
    rw [loopFrom_cons a (n - 5) (TS - 6) (by decide) h, List.map_cons, List.sum_cons, ih]
    simp only [mem_loopFrom_one, TS, lt_min_iff]
    split_ifs <;> omega

/-- Number of tiles of `tileList` whose fusion range contains `(row, col)`. -/
theorem tiles_hit_sum (width height row col : Int) :
    ((tileList width height).map fun t =>
      if row ∈ fuseRows height t.1 ∧ col ∈ fuseCols width t.2 then 1 else 0).sum
      = if 5 ≤ row ∧ row < height - 5 ∧ 5 ≤ col ∧ col < width - 5 then 1 else 0 := by
  have hr := fuse_cover_from height row 2
  have hc := fuse_cover_from width col 2
  unfold tileList
  rw [sum_map_flatMap]
  simp only [List.map_map, Function.comp_def]
  have e1 : ∀ top : Int,
      ((loopFrom 2 (width - 5) (TS - 6)).map fun left =>
        if row ∈ fuseRows height top ∧ col ∈ fuseCols width left then 1 else 0).sum
      = (if row ∈ fuseRows height top then 1 else 0)
        * ((loopFrom 2 (width - 5) (TS - 6)).map fun left =>
          if col ∈ fuseCols width left then 1 else 0).sum := by
    intro top
    rw [← sum_map_mul_left]
    apply sum_map_congr
    intro left _
    by_cases h1 : row ∈ fuseRows height top <;> by_cases h2 : col ∈ fuseCols width left <;>
      simp [h1, h2]
  simp only [e1]
  rw [sum_map_mul_right]
  unfold fuseRows fuseCols
  rw [hr, hc]
  split_ifs <;> first | rfl | omega

end Loops

section Logs
variable {F : Type} [LinearOrderedField F]

theorem greenStep_log (rawData : Int → Int → F) (top left : Int) (m : Machine F) (row col : Int) :
    (greenStep rawData top left m row col).log = m.log ++
      [Access.rawRead row (col - 1), Access.rawRead row col,
        Access.rawRead row (col + 1), Access.rawRead row (col - 2), Access.rawRead row (col + 2),
        Access.rawRead row (col - 1), Access.rawRead row (col + 1),
        Access.rgbWrite 0 (row - top) (col - left) 1,
        Access.rawRead (row - 1) col, Access.rawRead row col,
        Access.rawRead (row + 1) col, Access.rawRead (row - 2) col, Access.rawRead (row + 2) col,
        Access.rawRead (row - 1) col, Access.rawRead (row + 1) col,
        Access.rgbWrite 1 (row - top) (col - left) 1] := by
  simp [greenStep, Machine.note, Machine.wrRgb]

theorem redBlueStep_log (rawData : Int → Int → F) (cfarray : Cfa) (xyzCam : Int → Int → F)
    (cbrt : F → F) (top left d : Int) (m : Machine F) (row col : Int) :
    (redBlueStep rawData cfarray xyzCam cbrt top left d m row col).log = m.log ++
      ((if fc cfarray row col = 1 then
        [Access.rawRead row col, Access.rawRead row (col - 1), Access.rawRead row (col + 1),
          Access.rgbRead d (row - top) (col - left - 1) 1,
          Access.rgbRead d (row - top) (col - left + 1) 1,
          Access.rgbWrite d (row - top) (col - left) (2 - cngOf cfarray row),
          Access.rawRead row col, Access.rawRead (row - 1) col, Access.rawRead (row + 1) col,
          Access.rgbRead d (row - top - 1) (col - left) 1,
          Access.rgbRead d (row - top + 1) (col - left) 1,
          Access.rgbWrite d (row - top) (col - left) (cngOf cfarray row),
          Access.rawRead row col,
          Access.rgbWrite d (row - top) (col - left) 1]
      else
        [Access.rgbRead d (row - top) (col - left) 1, Access.rawRead (row - 1) (col - 1),
          Access.rawRead (row - 1) (col + 1), Access.rawRead (row + 1) (col - 1),
          Access.rawRead (row + 1) (col + 1),
          Access.rgbRead d (row - top - 1) (col - left - 1) 1,
          Access.rgbRead d (row - top - 1) (col - left + 1) 1,
          Access.rgbRead d (row - top + 1) (col - left - 1) 1,
          Access.rgbRead d (row - top + 1) (col - left + 1) 1,
          Access.rgbWrite d (row - top) (col - left) (cngOf cfarray row),
          Access.rawRead row col,
          Access.rgbWrite d (row - top) (col - left) (2 - cngOf cfarray row)]) ++
      [Access.rgbRead d (row - top) (col - left) 0, Access.rgbRead d (row - top) (col - left) 0,
        Access.rgbRead d (row - top) (col - left) 0, Access.rgbRead d (row - top) (col - left) 1,
        Access.rgbRead d (row - top) (col - left) 1, Access.rgbRead d (row - top) (col - left) 1,
        Access.rgbRead d (row - top) (col - left) 2, Access.rgbRead d (row - top) (col - left) 2,
        Access.rgbRead d (row - top) (col - left) 2, Access.labWrite d (row - top) (col - left) 0,
        Access.labWrite d (row - top) (col - left) 1,
        Access.labWrite d (row - top) (col - left) 2]) := by
  unfold redBlueStep
  by_cases h : fc cfarray row col = 1 <;> simp [h, Machine.note, Machine.wrRgb, Machine.wrLab]

theorem homoStep_log (top left : Int) (m : Machine F) (row col : Int) :
    (homoStep top left m row col).log = m.log ++
      ((([0, 1] : List Int).flatMap fun d => ([0, 1, 2, 3] : List Nat).flatMap fun i =>
        [Access.labRead d (row - top) (col - left) 0,
          Access.labRead d (row - top + (dir i).1) (col - left + (dir i).2) 0,
          Access.labRead d (row - top) (col - left) 1,
          Access.labRead d (row - top + (dir i).1) (col - left + (dir i).2) 1,
          Access.labRead d (row - top) (col - left) 2,
          Access.labRead d (row - top + (dir i).1) (col - left + (dir i).2) 2]) ++
      (([0, 1] : List Int).flatMap fun d =>
        Access.homoWrite d (row - top) (col - left) :: ([0, 1, 2, 3] : List Nat).flatMap fun _ =>
          [Access.homoRead d (row - top) (col - left),
            Access.homoWrite d (row - top) (col - left)])) := by
  simp [homoStep, Machine.note, Machine.wrHomo]

theorem fuseStep_log (top left : Int) (m : Machine F) (row col : Int) :
    (fuseStep top left m row col).log = m.log ++
      (((hood (row - top) (col - left)).flatMap fun ij =>
        [Access.homoRead 0 ij.1 ij.2, Access.homoRead 1 ij.1 ij.2]) ++
      (if hmOf m.homo 0 (row - top) (col - left) ≠ hmOf m.homo 1 (row - top) (col - left) then
        [Access.rgbRead (if hmOf m.homo 1 (row - top) (col - left)
            > hmOf m.homo 0 (row - top) (col - left) then 1 else 0) (row - top) (col - left) 0,
          Access.planeWrite 0 row col,
          Access.rgbRead (if hmOf m.homo 1 (row - top) (col - left)
            > hmOf m.homo 0 (row - top) (col - left) then 1 else 0) (row - top) (col - left) 1,
          Access.planeWrite 1 row col,
          Access.rgbRead (if hmOf m.homo 1 (row - top) (col - left)
            > hmOf m.homo 0 (row - top) (col - left) then 1 else 0) (row - top) (col - left) 2,
          Access.planeWrite 2 row col]
      else
        [Access.rgbRead 0 (row - top) (col - left) 0, Access.rgbRead 1 (row - top) (col - left) 0,
          Access.planeWrite 0 row col,
          Access.rgbRead 0 (row - top) (col - left) 1, Access.rgbRead 1 (row - top) (col - left) 1,
          Access.planeWrite 1 row col,
          Access.rgbRead 0 (row - top) (col - left) 2, Access.rgbRead 1 (row - top) (col - left) 2,
          Access.planeWrite 2 row col])) := by
  unfold fuseStep
  by_cases h : hmOf m.homo 0 (row - top) (col - left) = hmOf m.homo 1 (row - top) (col - left) <;>
    simp [h, Machine.note, Machine.wrRed, Machine.wrGreen, Machine.wrBlue]

theorem progressStep_log (width height : Int) (m : Machine F) :
    (progressStep width height m).log = m.log := by
  simp only [progressStep]
  split <;> rfl

/-! ## C1: plane writes of the fusion pass -/

theorem count_append_zero (x : Access) (l L : List Access) (h : ∀ a ∈ L, a ≠ x) :
    (l ++ L).count x = l.count x := by
  rw [List.count_append, List.count_eq_zero.mpr (fun hx => h x hx rfl), Nat.add_zero]

theorem greenPass_planeCount (width height : Int) (rawData : Int → Int → F) (cfarray : Cfa)
    (top left : Int) (m : Machine F) (p : Nat) (r c : Int) :
    (greenPass width height rawData cfarray top left m).log.count (Access.planeWrite p r c)
      = m.log.count (Access.planeWrite p r c) := by
  unfold greenPass
  refine sweep_invariant _ _ _ (fun s => s.log.count (Access.planeWrite p r c)
    = m.log.count (Access.planeWrite p r c)) ?_ m rfl
  intro s row col _ _ hs
  rw [greenStep_log, count_append_zero _ _ _ (by simp), hs]

theorem redBluePass_planeCount (width height : Int) (rawData : Int → Int → F) (cfarray : Cfa)
    (xyzCam : Int → Int → F) (cbrt : F → F) (top left : Int) (m : Machine F) (p : Nat)
    (r c : Int) :
    (redBluePass width height rawData cfarray xyzCam cbrt top left m).log.count
        (Access.planeWrite p r c) = m.log.count (Access.planeWrite p r c) := by
  unfold redBluePass
  refine foldl_invariant _ (fun s => s.log.count (Access.planeWrite p r c)
    = m.log.count (Access.planeWrite p r c)) _ ?_ m rfl
  intro s d _ hs
  refine sweep_invariant _ _ _ (fun s => s.log.count (Access.planeWrite p r c)
    = m.log.count (Access.planeWrite p r c)) ?_ s hs
  intro s row col _ _ hs
  rw [redBlueStep_log, count_append_zero _ _ _ (by split <;> simp), hs]

theorem homoPass_planeCount (width height : Int) (top left : Int) (m : Machine F) (p : Nat)
    (r c : Int) :
    (homoPass width height top left m).log.count (Access.planeWrite p r c)
      = m.log.count (Access.planeWrite p r c) := by
  unfold homoPass
  refine sweep_invariant _ _ _ (fun s => s.log.count (Access.planeWrite p r c)
    = m.log.count (Access.planeWrite p r c)) ?_ m rfl
  intro s row col _ _ hs
  rw [homoStep_log, count_append_zero _ _ _ (by simp), hs]

theorem fuseStep_planeCount (top left : Int) (m : Machine F) (row col : Int) (p : Fin 3)
    (r c : Int) :
    (fuseStep top left m row col).log.count (Access.planeWrite p.val r c)
      = m.log.count (Access.planeWrite p.val r c)
        + (if row = r then (if col = c then 1 else 0) else 0) := by
  have h0 : ((hood (row - top) (col - left)).flatMap fun ij =>
      [Access.homoRead 0 ij.1 ij.2, Access.homoRead 1 ij.1 ij.2]).count
        (Access.planeWrite p.val r c) = 0 := List.count_eq_zero.mpr (by simp)
  rw [fuseStep_log, List.count_append, List.count_append, h0, Nat.zero_add]
  congr 1
  split <;> fin_cases p <;> simp [List.count_cons] <;> split_ifs <;> simp_all

theorem fusePass_planeCount (width height : Int) (top left : Int) (m : Machine F) (p : Fin 3)
    (r c : Int) :
    (fusePass width height top left m).log.count (Access.planeWrite p.val r c)
      = m.log.count (Access.planeWrite p.val r c)
        + (if r ∈ fuseRows height top ∧ c ∈ fuseCols width left then 1 else 0) := by
  unfold fusePass
  have hm := sweep_measure (fuseRows height top) (fun _ => fuseCols width left)
    (fuseStep top left) (fun s : Machine F => s.log.count (Access.planeWrite p.val r c))
    (fun row col => if row = r then (if col = c then 1 else 0) else 0)
    (fun s row col _ _ => fuseStep_planeCount top left s row col p r c) m
  simp only at hm
  rw [hm]
  congr 1
  have inner : ∀ row : Int,
      ((fuseCols width left).map fun col => if row = r then (if col = c then 1 else 0) else 0).sum
        = if row = r then (if c ∈ fuseCols width left then 1 else 0) else 0 := by
    intro row
    by_cases h : row = r
    · simp only [h, if_true]
      exact sum_map_indicator _ (loopFrom_nodup _ _ _ (by decide)) c 1
    · simp only [h, if_false]
      exact sum_map_zero _ _ (fun _ _ => rfl)
  simp only [inner]
  have outer := sum_map_indicator (fuseRows height top) (loopFrom_nodup _ _ _ (by decide)) r
    (if c ∈ fuseCols width left then 1 else 0)
  rw [outer]
  split_ifs <;> simp_all

theorem tileStep_planeCount (width height : Int) (rawData : Int → Int → F) (cfarray : Cfa)
    (xyzCam : Int → Int → F) (cbrt : F → F) (m : Machine F) (t : Int × Int) (p : Fin 3)
    (r c : Int) :
    (tileStep width height rawData cfarray xyzCam cbrt m t).log.count (Access.planeWrite p.val r c)
      = m.log.count (Access.planeWrite p.val r c)
        + (if r ∈ fuseRows height t.1 ∧ c ∈ fuseCols width t.2 then 1 else 0) := by
  unfold tileStep tilePasses
  rw [progressStep_log, fusePass_planeCount, homoPass_planeCount, redBluePass_planeCount,
    greenPass_planeCount]

/-- Number of writes to one pixel of one plane over the whole tile loop. -/
theorem runTiles_planeCount (width height : Int) (rawData : Int → Int → F)
    (cfarray : Cfa) (xyzCam : Int → Int → F) (cbrt : F → F) (m : Machine F) (p : Fin 3)
    (row col : Int) :
    (runTiles width height rawData cfarray xyzCam cbrt (tileList width height) m).log.count
        (Access.planeWrite p.val row col)
      = m.log.count (Access.planeWrite p.val row col)
        + (if 5 ≤ row ∧ row < height - 5 ∧ 5 ≤ col ∧ col < width - 5 then 1 else 0) := by
  unfold runTiles
  have hm := foldl_measure (tileStep width height rawData cfarray xyzCam cbrt)
    (fun s : Machine F => s.log.count (Access.planeWrite p.val row col))
    (fun t => if row ∈ fuseRows height t.1 ∧ col ∈ fuseCols width t.2 then 1 else 0)
    (tileList width height)
    (fun s t _ => tileStep_planeCount width height rawData cfarray xyzCam cbrt s t p row col) m
  simp only at hm
  rw [hm, tiles_hit_sum]

/-- C1: over the whole tile loop (tiles in source order, from any state `m`),
each of the three output planes receives exactly one write at every pixel
`(row, col)` with `5 ≤ row < height - 5` and `5 ≤ col < width - 5` and no write
at any other pixel; and exactly one tile (none for a pixel outside that
rectangle) has the pixel in its fusion range.  This holds for every CFA
descriptor and every image size. -/
theorem fusion_writes_interior_exactly_once (width height : Int) (rawData : Int → Int → F)
    (cfarray : Cfa) (xyzCam : Int → Int → F) (cbrt : F → F) (m : Machine F) (p : Fin 3)
    (row col : Int) :
    (runTiles width height rawData cfarray xyzCam cbrt (tileList width height) m).log.count
        (Access.planeWrite p.val row col)
      = m.log.count (Access.planeWrite p.val row col)
        + (if 5 ≤ row ∧ row < height - 5 ∧ 5 ≤ col ∧ col < width - 5 then 1 else 0)
    ∧ ((tileList width height).filter fun t =>
        decide (row ∈ fuseRows height t.1 ∧ col ∈ fuseCols width t.2)).length
      = (if 5 ≤ row ∧ row < height - 5 ∧ 5 ≤ col ∧ col < width - 5 then 1 else 0) := by
  constructor
  · exact runTiles_planeCount width height rawData cfarray xyzCam cbrt m p row col
  · rw [length_filter_eq_sum, ← tiles_hit_sum width height row col]
    apply sum_map_congr
    intro t _
    simp

end Logs

/-! ## Frame properties of the passes -/

theorem sameProgress_refl {F : Type} (m : Machine F) : SameProgress m m := ⟨rfl, rfl, rfl, rfl⟩

theorem sameProgress_trans {F : Type} {a b c : Machine F} (h1 : SameProgress a b)
    (h2 : SameProgress b c) : SameProgress a c :=
  ⟨h2.1.trans h1.1, h2.2.1.trans h1.2.1, h2.2.2.1.trans h1.2.2.1, h2.2.2.2.trans h1.2.2.2⟩

section Progress

variable {F : Type} [LinearOrderedField F]

theorem greenStep_sameProgress (rawData : Int → Int → F) (top left : Int) (m : Machine F)
    (row col : Int) : SameProgress m (greenStep rawData top left m row col) :=
  ⟨rfl, rfl, rfl, rfl⟩

theorem redBlueStep_sameProgress (rawData : Int → Int → F) (cfarray : Cfa)
    (xyzCam : Int → Int → F) (cbrt : F → F) (top left d : Int) (m : Machine F) (row col : Int) :
    SameProgress m (redBlueStep rawData cfarray xyzCam cbrt top left d m row col) := by
  unfold redBlueStep SameProgress
  by_cases h : fc cfarray row col = 1 <;> simp [h, Machine.note, Machine.wrRgb, Machine.wrLab]

theorem homoStep_sameProgress (top left : Int) (m : Machine F) (row col : Int) :
    SameProgress m (homoStep top left m row col) := by
  simp [SameProgress, homoStep, Machine.note, Machine.wrHomo]

theorem fuseStep_sameProgress (top left : Int) (m : Machine F) (row col : Int) :
    SameProgress m (fuseStep top left m row col) := by
  unfold fuseStep SameProgress
  by_cases h : hmOf m.homo 0 (row - top) (col - left) = hmOf m.homo 1 (row - top) (col - left) <;>
    simp [h, Machine.note, Machine.wrRed, Machine.wrGreen, Machine.wrBlue]

theorem tilePasses_sameProgress (width height : Int) (rawData : Int → Int → F) (cfarray : Cfa)
    (xyzCam : Int → Int → F) (cbrt : F → F) (top left : Int) (m : Machine F) :
    SameProgress m (tilePasses width height rawData cfarray xyzCam cbrt top left m) := by
  unfold tilePasses
  have hA : SameProgress m (greenPass width height rawData cfarray top left m) :=
    sweep_invariant _ _ _ (SameProgress m)
      (fun s row col _ _ hs => sameProgress_trans hs (greenStep_sameProgress rawData top left s row col)) m
      (sameProgress_refl m)
  have hB : ∀ s : Machine F, SameProgress s
      (redBluePass width height rawData cfarray xyzCam cbrt top left s) := fun s =>
    foldl_invariant _ (SameProgress s) _
      (fun s1 d _ h1 => sweep_invariant _ _ _ (SameProgress s)
        (fun s2 row col _ _ h2 =>
          sameProgress_trans h2 (redBlueStep_sameProgress rawData cfarray xyzCam cbrt top left d s2 row col))
        s1 h1) s (sameProgress_refl s)
  have hC : ∀ s : Machine F, SameProgress s (homoPass width height top left s) := fun s =>
    sweep_invariant _ _ _ (SameProgress s)
      (fun s1 row col _ _ hs => sameProgress_trans hs (homoStep_sameProgress top left s1 row col)) s
      (sameProgress_refl s)
  have hD : ∀ s : Machine F, SameProgress s (fusePass width height top left s) := fun s =>
    sweep_invariant _ _ _ (SameProgress s)
      (fun s1 row col _ _ hs => sameProgress_trans hs (fuseStep_sameProgress top left s1 row col)) s
      (sameProgress_refl s)
  exact sameProgress_trans (sameProgress_trans (sameProgress_trans hA (hB _)) (hC _)) (hD _)

/-! ## The progress reports of the tile loop -/

/-- One more in-loop update applied to the closed form gives the next value. -/
theorem reportValue_succ (width height : Int) (k : Nat)
    (hne : wrap32 (height * width) ≠ 0) :
    min ((if k = 0 then (0 : F) else reportValue width height k)
      + 32 * (((TS - 6) * (TS - 6) : Int) : F) / ((wrap32 (height * width) : Int) : F)) 1
      = reportValue width height (k + 1) := by
  have hc : (32 * (((TS - 6) * (TS - 6) : Int) : F) / ((wrap32 (height * width) : Int) : F))
      = progressIncrement width height := rfl
  rw [hc]
  unfold reportValue
  simp only [hne, if_false]
  generalize (progressIncrement width height : F) = c
  push_cast
  by_cases hk : k = 0
  · subst hk
    simp
  · simp only [hk, if_false]
    have hkpos : (0 : F) < (k : F) := by exact_mod_cast Nat.pos_of_ne_zero hk
    rcases le_or_lt 0 c with hc0 | hc0
    · rcases le_or_lt ((k : F) * c) 1 with h1 | h1
      · rw [min_eq_left h1]
        have : ((k : F) + 1) * c = (k : F) * c + c := by ring
        rw [this]
      · rw [min_eq_right (le_of_lt h1)]
        have h2 : (1 : F) ≤ ((k : F) + 1) * c := by nlinarith
        have h3 : (1 : F) ≤ 1 + c := by linarith
        rw [min_eq_right h3, min_eq_right h2]
    · have h1 : (k : F) * c < 0 := mul_neg_of_pos_of_neg hkpos hc0
      rw [min_eq_left (by linarith : (k : F) * c ≤ 1)]
      have : ((k : F) + 1) * c = (k : F) * c + c := by ring
      rw [this]

theorem progressStep_fields (width height : Int) (m : Machine F) :
    (progressStep width height m).progresscounter = m.progresscounter + 1 ∧
    (progressStep width height m).progress
      = (if (m.progresscounter + 1) % 32 = 0 then
          (if wrap32 (height * width) = 0 then 1
            else min (m.progress + 32 * (((TS - 6) * (TS - 6) : Int) : F)
              / ((wrap32 (height * width) : Int) : F)) 1)
        else m.progress) ∧
    (progressStep width height m).reported
      = (if (m.progresscounter + 1) % 32 = 0 then
          m.reported ++ [if wrap32 (height * width) = 0 then 1
            else min (m.progress + 32 * (((TS - 6) * (TS - 6) : Int) : F)
              / ((wrap32 (height * width) : Int) : F)) 1]
        else m.reported) ∧
    (progressStep width height m).borderCalls = m.borderCalls := by
  simp only [progressStep]
  by_cases h : (m.progresscounter + 1) % 32 = 0 <;> simp [h]

theorem inLoopReports_succ (width height : Int) (n : Nat) :
    (inLoopReports width height (n + 1) : List F)
      = if (n + 1) % 32 = 0 then
          inLoopReports width height n ++ [reportValue width height (n / 32 + 1)]
        else inLoopReports width height n := by
  unfold inLoopReports
  by_cases h : (n + 1) % 32 = 0
  · have hd : (n + 1) / 32 = n / 32 + 1 := by omega
    simp [h, hd, List.range_succ]
  · have hd : (n + 1) / 32 = n / 32 := by omega
    simp [h, hd]

/-- State of the progress bookkeeping after the tile loop, started from a zero
counter and zero progress: the counter is the number of tiles and the reports
are the closed-form values, one per 32 completed tiles. -/
theorem runTiles_progress (width height : Int) (rawData : Int → Int → F) (cfarray : Cfa)
    (xyzCam : Int → Int → F) (cbrt : F → F) (m : Machine F) (hc : m.progresscounter = 0)
    (hp : m.progress = 0) (order : List (Int × Int)) :
    (runTiles width height rawData cfarray xyzCam cbrt order m).progresscounter = order.length ∧
    (runTiles width height rawData cfarray xyzCam cbrt order m).progress
      = (if order.length / 32 = 0 then 0 else reportValue width height (order.length / 32)) ∧
    (runTiles width height rawData cfarray xyzCam cbrt order m).reported
      = m.reported ++ inLoopReports width height order.length ∧
    (runTiles width height rawData cfarray xyzCam cbrt order m).borderCalls = m.borderCalls := by
  induction order using List.reverseRecOn with
  | nil => simp [runTiles, hc, hp, inLoopReports]
  | append_singleton l t ih =>
    obtain ⟨ih1, ih2, ih3, ih4⟩ := ih
    have hrun : runTiles width height rawData cfarray xyzCam cbrt (l ++ [t]) m
        = tileStep width height rawData cfarray xyzCam cbrt
            (runTiles width height rawData cfarray xyzCam cbrt l m) t := by
      simp [runTiles, List.foldl_append]
    rw [hrun]
    generalize runTiles width height rawData cfarray xyzCam cbrt l m = s at ih1 ih2 ih3 ih4 ⊢
    obtain ⟨f1, f2, f3, f4⟩ :=
      tilePasses_sameProgress width height rawData cfarray xyzCam cbrt t.1 t.2 s
    have hlen : (l ++ [t]).length = l.length + 1 := by simp
    rw [hlen]
    unfold tileStep
    obtain ⟨g1, g2, g3, g4⟩ := progressStep_fields width height
      (tilePasses width height rawData cfarray xyzCam cbrt t.1 t.2 s)
    rw [g1, g2, g3, g4, f1, f2, f3, f4, ih1, ih3, ih4, inLoopReports_succ]
    have key : (l.length + 1) % 32 = 0 →
        (if wrap32 (height * width) = 0 then (1 : F)
          else min (s.progress + 32 * (((TS - 6) * (TS - 6) : Int) : F)
            / ((wrap32 (height * width) : Int) : F)) 1)
        = reportValue width height (l.length / 32 + 1) := by
      intro _
      by_cases ha : wrap32 (height * width) = 0
      · simp [reportValue, ha]
      · rw [if_neg ha, ih2]
        exact reportValue_succ width height (l.length / 32) ha
    refine ⟨rfl, ?_, ?_, rfl⟩
    · by_cases h : (l.length + 1) % 32 = 0
      · have hd : (l.length + 1) / 32 = l.length / 32 + 1 := by omega
        rw [if_pos h, hd, key h]
        simp
      · have hd : (l.length + 1) / 32 = l.length / 32 := by omega
        rw [if_neg h, hd, ih2]
    · by_cases h : (l.length + 1) % 32 = 0
      · rw [if_pos h, if_pos h, List.append_assoc, key h]
      · rw [if_neg h, if_neg h]

end Progress

/-- The three ways a run can go: validation fails; the tile loop is skipped;
the tile loop runs. -/
theorem run_trichotomy (valid allocOk : Bool) (rc : rpError) :
    valid = false ∨ (valid = true ∧ (allocOk = false ∨ rc ≠ rpError.RP_NO_ERROR)) ∨
      (valid = true ∧ allocOk = true ∧ rc = rpError.RP_NO_ERROR) := by
  cases valid <;> cases allocOk <;> by_cases h : rc = rpError.RP_NO_ERROR <;> simp [h]

section Entry

variable {F : Type} [LinearOrderedField F]

/-! ## The entry point: return code and progress reports -/

/-- A run that passes validation, gets its buffer and a clean border pass:
return code and the complete sequence of reported values. -/
theorem ahd_run_ok (border : BorderPass F) (cbrt : F → F) (order : List (Int × Int))
    (width height : Int) (rawData : Int → Int → F) (m0 : Machine F) (cfarray : Cfa)
    (rgb_cam : Int → Int → F) (hv : validateBayerCfa cfarray = true)
    (hb : (border width height 5 rawData m0.red m0.green m0.blue cfarray).rc
      = rpError.RP_NO_ERROR) :
    (ahd_run border cbrt true order width height rawData m0 cfarray rgb_cam).1
      = rpError.RP_NO_ERROR ∧
    (ahd_run border cbrt true order width height rawData m0 cfarray rgb_cam).2.reported
      = m0.reported ++ [0] ++ inLoopReports width height order.length ++ [1] := by
  unfold ahd_run
  simp only [hv, Bool.not_true, Bool.false_eq_true, if_false, if_true, hb]
  refine ⟨trivial, ?_⟩
  have h := runTiles_progress width height rawData cfarray (xyz_cam rgb_cam) cbrt
    ({ m0 with
        progress := 0
        reported := m0.reported ++ [0]
        red := (border width height 5 rawData m0.red m0.green m0.blue cfarray).red
        green := (border width height 5 rawData m0.red m0.green m0.blue cfarray).green
        blue := (border width height 5 rawData m0.red m0.green m0.blue cfarray).blue
        borderCalls := m0.borderCalls + 1
        progresscounter := 0 } : Machine F)
    rfl rfl order
  exact congrArg (fun l => l ++ [1]) h.2.2.1

/-- A run that passes validation but skips the tile loop (no buffer, or an
error from the border pass): the state is the one after the border pass, and
the callback got `0` and `1`. -/
theorem ahd_run_skipped (border : BorderPass F) (cbrt : F → F) (allocOk : Bool)
    (order : List (Int × Int)) (width height : Int) (rawData : Int → Int → F) (m0 : Machine F)
    (cfarray : Cfa) (rgb_cam : Int → Int → F) (hv : validateBayerCfa cfarray = true)
    (hskip : allocOk = false ∨
      (border width height 5 rawData m0.red m0.green m0.blue cfarray).rc
        ≠ rpError.RP_NO_ERROR) :
    ahd_run border cbrt allocOk order width height rawData m0 cfarray rgb_cam
      = (if allocOk then (border width height 5 rawData m0.red m0.green m0.blue cfarray).rc
          else rpError.RP_MEMORY_ERROR,
        { m0 with
          progress := 0
          reported := m0.reported ++ [0] ++ [1]
          red := (border width height 5 rawData m0.red m0.green m0.blue cfarray).red
          green := (border width height 5 rawData m0.red m0.green m0.blue cfarray).green
          blue := (border width height 5 rawData m0.red m0.green m0.blue cfarray).blue
          borderCalls := m0.borderCalls + 1
          progresscounter := 0 }) := by
  unfold ahd_run
  simp only [hv, Bool.not_true, Bool.false_eq_true, if_false]
  rcases hskip with h | h
  · subst h
    simp
  · cases allocOk <;> simp [h]

/-- A run that passes validation, gets its buffer and a clean border pass
processes the tiles from the entry state and then reports `1`. -/
theorem ahd_run_ran (border : BorderPass F) (cbrt : F → F) (order : List (Int × Int))
    (width height : Int) (rawData : Int → Int → F) (m0 : Machine F) (cfarray : Cfa)
    (rgb_cam : Int → Int → F) (hv : validateBayerCfa cfarray = true)
    (hb : (border width height 5 rawData m0.red m0.green m0.blue cfarray).rc
      = rpError.RP_NO_ERROR) :
    ahd_run border cbrt true order width height rawData m0 cfarray rgb_cam
      = (rpError.RP_NO_ERROR,
        { runTiles width height rawData cfarray (xyz_cam rgb_cam) cbrt order
            (loopEntry border width height rawData m0 cfarray) with
          reported := (runTiles width height rawData cfarray (xyz_cam rgb_cam) cbrt order
            (loopEntry border width height rawData m0 cfarray)).reported ++ [1] }) := by
  unfold ahd_run
  simp only [hv, Bool.not_true, Bool.false_eq_true, if_false, if_true, hb]
  rfl

/-- The access log of a run that processes the tiles is the log of its tile
loop. -/
theorem ahd_run_ran_log (border : BorderPass F) (cbrt : F → F) (order : List (Int × Int))
    (width height : Int) (rawData : Int → Int → F) (m0 : Machine F) (cfarray : Cfa)
    (rgb_cam : Int → Int → F) (hv : validateBayerCfa cfarray = true)
    (hb : (border width height 5 rawData m0.red m0.green m0.blue cfarray).rc
      = rpError.RP_NO_ERROR) :
    (ahd_run border cbrt true order width height rawData m0 cfarray rgb_cam).2.log
      = (runTiles width height rawData cfarray (xyz_cam rgb_cam) cbrt order
          (loopEntry border width height rawData m0 cfarray)).log := by
  rw [ahd_run_ran border cbrt order width height rawData m0 cfarray rgb_cam hv hb]

/-- A run whose CFA descriptor fails validation returns at once. -/
theorem ahd_run_invalid (border : BorderPass F) (cbrt : F → F) (allocOk : Bool)
    (order : List (Int × Int)) (width height : Int) (rawData : Int → Int → F) (m0 : Machine F)
    (cfarray : Cfa) (rgb_cam : Int → Int → F) (hv : validateBayerCfa cfarray = false) :
    ahd_run border cbrt allocOk order width height rawData m0 cfarray rgb_cam
      = (rpError.RP_WRONG_CFA, m0) := by
  unfold ahd_run
  simp [hv]

/-- C5: when the CFA descriptor fails validation, `ahd_demosaic` returns
`RP_WRONG_CFA` and the state is exactly the entry state: the three output
planes are unchanged, the border pass has not run, the progress callback has
not been invoked, and no memory access was made. -/
theorem invalid_cfa_returns_wrong_cfa_untouched (border : BorderPass F) (cbrt : F → F)
    (allocOk : Bool) (width height : Int) (rawData : Int → Int → F) (m0 : Machine F)
    (cfarray : Cfa) (rgb_cam : Int → Int → F) (hv : validateBayerCfa cfarray = false) :
    (ahd_demosaic border cbrt allocOk width height rawData m0 cfarray rgb_cam).1
      = rpError.RP_WRONG_CFA ∧
    (ahd_demosaic border cbrt allocOk width height rawData m0 cfarray rgb_cam).2 = m0 ∧
    (ahd_demosaic border cbrt allocOk width height rawData m0 cfarray rgb_cam).2.red = m0.red ∧
    (ahd_demosaic border cbrt allocOk width height rawData m0 cfarray rgb_cam).2.green
      = m0.green ∧
    (ahd_demosaic border cbrt allocOk width height rawData m0 cfarray rgb_cam).2.blue = m0.blue ∧
    (ahd_demosaic border cbrt allocOk width height rawData m0 cfarray rgb_cam).2.borderCalls
      = m0.borderCalls ∧
    (ahd_demosaic border cbrt allocOk width height rawData m0 cfarray rgb_cam).2.reported
      = m0.reported ∧
    (ahd_demosaic border cbrt allocOk width height rawData m0 cfarray rgb_cam).2.log = m0.log := by
  have h : ahd_demosaic border cbrt allocOk width height rawData m0 cfarray rgb_cam
      = (rpError.RP_WRONG_CFA, m0) :=
    ahd_run_invalid border cbrt allocOk _ width height rawData m0 cfarray rgb_cam hv
  rw [h]
  exact ⟨rfl, rfl, rfl, rfl, rfl, rfl, rfl, rfl⟩

/-- C6: with a valid CFA and a failed scratch allocation, `ahd_demosaic`
returns `RP_MEMORY_ERROR` whatever code the border pass returned, and no tile
is processed: no memory access is logged, the scratch volumes and the tile
counter are untouched, and the output planes are those the border pass (run
once) handed back. -/
theorem alloc_failure_returns_memory_error (border : BorderPass F) (cbrt : F → F)
    (width height : Int) (rawData : Int → Int → F) (m0 : Machine F) (cfarray : Cfa)
    (rgb_cam : Int → Int → F) (hv : validateBayerCfa cfarray = true) :
    (ahd_demosaic border cbrt false width height rawData m0 cfarray rgb_cam).1
      = rpError.RP_MEMORY_ERROR ∧
    (ahd_demosaic border cbrt false width height rawData m0 cfarray rgb_cam).2.red
      = (border width height 5 rawData m0.red m0.green m0.blue cfarray).red ∧
    (ahd_demosaic border cbrt false width height rawData m0 cfarray rgb_cam).2.green
      = (border width height 5 rawData m0.red m0.green m0.blue cfarray).green ∧
    (ahd_demosaic border cbrt false width height rawData m0 cfarray rgb_cam).2.blue
      = (border width height 5 rawData m0.red m0.green m0.blue cfarray).blue ∧
    (ahd_demosaic border cbrt false width height rawData m0 cfarray rgb_cam).2.log = m0.log ∧
    (ahd_demosaic border cbrt false width height rawData m0 cfarray rgb_cam).2.rgb = m0.rgb ∧
    (ahd_demosaic border cbrt false width height rawData m0 cfarray rgb_cam).2.lab = m0.lab ∧
    (ahd_demosaic border cbrt false width height rawData m0 cfarray rgb_cam).2.homo = m0.homo ∧
    (ahd_demosaic border cbrt false width height rawData m0 cfarray rgb_cam).2.progresscounter
      = 0 ∧
    (ahd_demosaic border cbrt false width height rawData m0 cfarray rgb_cam).2.borderCalls
      = m0.borderCalls + 1 := by
  unfold ahd_demosaic
  rw [ahd_run_skipped border cbrt false _ width height rawData m0 cfarray rgb_cam hv (Or.inl rfl)]
  exact ⟨rfl, rfl, rfl, rfl, rfl, rfl, rfl, rfl, rfl, rfl⟩

/-- C7 (as amended): with a valid CFA and a failed scratch allocation the run
returns `RP_MEMORY_ERROR` and makes no report from the tile loop; the callback
receives exactly `0` at entry and the terminal `1`, which is passed on every
exit after validation. -/
theorem alloc_failure_reports_zero_then_one (border : BorderPass F) (cbrt : F → F)
    (width height : Int) (rawData : Int → Int → F) (red green blue : Int → Int → F)
    (rgb0 lab0 : Int → Int → Int → Int → F) (homo0 : Int → Int → Int → Nat) (cfarray : Cfa)
    (rgb_cam : Int → Int → F) (hv : validateBayerCfa cfarray = true) :
    (ahd_demosaic border cbrt false width height rawData
      (Machine.initial red green blue rgb0 lab0 homo0) cfarray rgb_cam).1
      = rpError.RP_MEMORY_ERROR ∧
    (ahd_demosaic border cbrt false width height rawData
      (Machine.initial red green blue rgb0 lab0 homo0) cfarray rgb_cam).2.reported = [0, 1] := by
  unfold ahd_demosaic
  rw [ahd_run_skipped border cbrt false _ width height rawData _ cfarray rgb_cam hv (Or.inl rfl)]
  exact ⟨rfl, rfl⟩

end Entry

/-! ## Instances -/

/-- Instance of C5: a descriptor without green on an 11 x 11 image. -/
theorem invalid_cfa_returns_wrong_cfa_untouched_witness :
    validateBayerCfa badCfa = false ∧
    (ahd_demosaic demoBorder demoCbrt true 11 11 demoRaw demoMachine badCfa demoCam).1
      = rpError.RP_WRONG_CFA ∧
    (ahd_demosaic demoBorder demoCbrt true 11 11 demoRaw demoMachine badCfa demoCam).2.reported
      = [] :=
  ⟨by decide,
   (invalid_cfa_returns_wrong_cfa_untouched demoBorder demoCbrt true 11 11 demoRaw demoMachine
      badCfa demoCam (by decide)).1,
   (invalid_cfa_returns_wrong_cfa_untouched demoBorder demoCbrt true 11 11 demoRaw demoMachine
      badCfa demoCam (by decide)).2.2.2.2.2.2.1⟩

/-- Instance of C6: the RGGB pattern on a 300 x 200 image with a failed allocation. -/
theorem alloc_failure_returns_memory_error_witness :
    validateBayerCfa demoCfa = true ∧
    (ahd_demosaic demoBorder demoCbrt false 300 200 demoRaw demoMachine demoCfa demoCam).1
      = rpError.RP_MEMORY_ERROR ∧
    (ahd_demosaic demoBorder demoCbrt false 300 200 demoRaw demoMachine demoCfa demoCam).2.log
      = [] :=
  ⟨by decide,
   (alloc_failure_returns_memory_error demoBorder demoCbrt 300 200 demoRaw demoMachine
      demoCfa demoCam (by decide)).1,
   (alloc_failure_returns_memory_error demoBorder demoCbrt 300 200 demoRaw demoMachine
      demoCfa demoCam (by decide)).2.2.2.2.1⟩

/-- C7 (counterexample): a run with a valid CFA whose scratch allocation fails
returns `RP_MEMORY_ERROR` and still passes the value `1` to the callback. -/
theorem alloc_failure_still_reports_one :
    (ahd_demosaic demoBorder demoCbrt false 300 200 demoRaw demoMachine demoCfa demoCam).1
      = rpError.RP_MEMORY_ERROR ∧
    (1 : ℚ) ∈
      (ahd_demosaic demoBorder demoCbrt false 300 200 demoRaw demoMachine demoCfa demoCam).2.reported := by
  have h : ahd_demosaic demoBorder demoCbrt false 300 200 demoRaw demoMachine demoCfa demoCam
      = (rpError.RP_MEMORY_ERROR, _) :=
    ahd_run_skipped demoBorder demoCbrt false _ 300 200 demoRaw demoMachine demoCfa demoCam
      (by decide) (Or.inl rfl)
  rw [h]
  exact ⟨rfl, by simp [demoMachine, Machine.initial]⟩

/-- Instance of C7 (as amended): the RGGB pattern on a 300 x 200 image with a failed allocation. -/
theorem alloc_failure_reports_zero_then_one_witness :
    validateBayerCfa demoCfa = true ∧
    (ahd_demosaic demoBorder demoCbrt false 300 200 demoRaw
      (Machine.initial (fun _ _ => 0) (fun _ _ => 0) (fun _ _ => 0) (fun _ _ _ _ => 0)
        (fun _ _ _ _ => 0) (fun _ _ _ => 0)) demoCfa demoCam).2.reported = [0, 1] :=
  ⟨by decide,
   (alloc_failure_reports_zero_then_one demoBorder demoCbrt 300 200 demoRaw (fun _ _ => 0)
      (fun _ _ => 0) (fun _ _ => 0) (fun _ _ _ _ => 0) (fun _ _ _ _ => 0) (fun _ _ _ => 0)
      demoCfa demoCam (by decide)).2⟩

/-! ## Progress reports of complete runs -/

theorem tileList_length (width height : Int) :
    (tileList width height).length
      = (loopFrom 2 (height - 5) (TS - 6)).length * (loopFrom 2 (width - 5) (TS - 6)).length := by
  unfold tileList
  generalize loopFrom 2 (height - 5) (TS - 6) = tops
  induction tops with
  | nil => simp
  | cons a t ih => simp [List.flatMap_cons, ih, Nat.succ_mul, Nat.add_comm]

theorem inLoopReports_head {F : Type} [LinearOrderedField F] (width height : Int) (n : Nat)
    (hn : 32 ≤ n) :
    ∃ rest : List F, inLoopReports width height n = reportValue width height 1 :: rest := by
  unfold inLoopReports
  obtain ⟨k, hk⟩ : ∃ k, n / 32 = k + 1 := ⟨n / 32 - 1, by omega⟩
  rw [hk, List.range_succ_eq_map]
  exact ⟨_, rfl⟩

set_option maxRecDepth 100000 in
theorem tileList_46341_length : (tileList 46341 46341).length = 112896 := by
  rw [tileList_length]
  have h : (loopFrom 2 (46341 - 5) (TS - 6)).length = 336 := by decide
  rw [h]

theorem reportValue_46341 : reportValue 46341 46341 1 = (-(609408 / 2147479015) : ℚ) := by
  have hw : wrap32 (46341 * 46341) = -2147479015 := by decide
  unfold reportValue progressIncrement
  rw [hw]
  norm_num [TS]

theorem run_46341_reported :
    (ahd_demosaic demoBorder demoCbrt true 46341 46341 demoRaw demoMachine demoCfa demoCam).1
      = rpError.RP_NO_ERROR ∧
    ∃ rest : List ℚ,
      (ahd_demosaic demoBorder demoCbrt true 46341 46341 demoRaw demoMachine demoCfa
        demoCam).2.reported = 0 :: (-(609408 / 2147479015)) :: rest := by
  obtain ⟨h1, h2⟩ := ahd_run_ok demoBorder demoCbrt (tileList 46341 46341) 46341 46341 demoRaw
    demoMachine demoCfa demoCam (by decide) rfl
  refine ⟨h1, ?_⟩
  obtain ⟨rest, hrest⟩ := inLoopReports_head (F := ℚ) 46341 46341 (tileList 46341 46341).length
    (by rw [tileList_46341_length]; decide)
  refine ⟨rest ++ [1], ?_⟩
  unfold ahd_demosaic
  rw [h2, hrest, reportValue_46341]
  simp [demoMachine, Machine.initial]

/-- C8 (the code at the failing input): for a 46341 x 46341 image the `int`
product `height * width` wraps to a negative number; the run succeeds, yet the
second value passed to the callback is negative, below the first one (`0`):
the reported sequence is neither non-decreasing nor inside `[0, 1]`. -/
theorem progress_decreases_on_int_overflow :
    (ahd_demosaic demoBorder demoCbrt true 46341 46341 demoRaw demoMachine demoCfa demoCam).1
      = rpError.RP_NO_ERROR ∧
    ∃ (v : ℚ) (rest : List ℚ),
      (ahd_demosaic demoBorder demoCbrt true 46341 46341 demoRaw demoMachine demoCfa
        demoCam).2.reported = 0 :: v :: rest ∧ v < 0 := by
  obtain ⟨h1, rest, h2⟩ := run_46341_reported
  exact ⟨h1, _, rest, h2, by norm_num⟩

/-- C10 (the code at the failing input): for a 46341 x 46341 image the first
report made inside the tile loop carries `-609408 / 2147479015`, not the value
`min(1, 1 * 32 * 138^2 / (46341 * 46341))` of the image area. -/
theorem first_report_differs_on_int_overflow :
    ∃ (v : ℚ) (rest : List ℚ),
      (ahd_demosaic demoBorder demoCbrt true 46341 46341 demoRaw demoMachine demoCfa
        demoCam).2.reported = 0 :: v :: rest ∧ v = -(609408 / 2147479015) ∧
      v ≠ min 1 (1 * 32 * 138 ^ 2 / (46341 * 46341)) := by
  obtain ⟨_, rest, h2⟩ := run_46341_reported
  refine ⟨_, rest, h2, rfl, ?_⟩
  have hpos : (0 : ℚ) < min 1 (1 * 32 * 138 ^ 2 / (46341 * 46341)) := by
    apply lt_min <;> norm_num
  have hneg : (-(609408 / 2147479015) : ℚ) < 0 := by norm_num
  exact ne_of_lt (lt_trans hneg hpos)

section Terminal

variable {F : Type} [LinearOrderedField F]

theorem reportValue_le_one (width height : Int) (k : Nat) :
    (reportValue width height k : F) ≤ 1 := by
  unfold reportValue
  split
  · exact le_rfl
  · exact min_le_right _ _

/-- C9 (as amended): in every run that returns `RP_NO_ERROR` the callback
receives `0`, then the in-loop reports (one per 32 completed tiles, each at
most `1`), then the terminal `1` as its last value; the value `1` is passed
once by the terminal call plus once for every in-loop report that the clamp
has brought to `1`. -/
theorem successful_run_terminal_one (border : BorderPass F) (cbrt : F → F) (allocOk : Bool)
    (width height : Int) (rawData : Int → Int → F) (red green blue : Int → Int → F)
    (rgb0 lab0 : Int → Int → Int → Int → F) (homo0 : Int → Int → Int → Nat) (cfarray : Cfa)
    (rgb_cam : Int → Int → F)
    (hrc : (ahd_demosaic border cbrt allocOk width height rawData
      (Machine.initial red green blue rgb0 lab0 homo0) cfarray rgb_cam).1
        = rpError.RP_NO_ERROR) :
    (ahd_demosaic border cbrt allocOk width height rawData
      (Machine.initial red green blue rgb0 lab0 homo0) cfarray rgb_cam).2.reported
      = 0 :: inLoopReports width height (tileList width height).length ++ [1] ∧
    (∀ v ∈ (inLoopReports width height (tileList width height).length : List F), v ≤ 1) ∧
    (ahd_demosaic border cbrt allocOk width height rawData
      (Machine.initial red green blue rgb0 lab0 homo0) cfarray rgb_cam).2.reported.count 1
      = 1 + (inLoopReports width height (tileList width height).length : List F).count 1 := by
  have hv : validateBayerCfa cfarray = true := by
    by_contra hv
    have hv' : validateBayerCfa cfarray = false := by simpa using hv
    unfold ahd_demosaic at hrc
    rw [ahd_run_invalid border cbrt allocOk _ width height rawData _ cfarray rgb_cam hv'] at hrc
    exact rpError.noConfusion hrc
  have ha : allocOk = true := by
    by_contra ha
    have ha' : allocOk = false := by simpa using ha
    subst ha'
    unfold ahd_demosaic at hrc
    rw [ahd_run_skipped border cbrt false _ width height rawData _ cfarray rgb_cam hv
      (Or.inl rfl)] at hrc
    exact rpError.noConfusion hrc
  subst ha
  have hb : (border width height 5 rawData red green blue cfarray).rc = rpError.RP_NO_ERROR := by
    by_contra hb
    have h := ahd_run_skipped border cbrt true (tileList width height) width height rawData
      (Machine.initial red green blue rgb0 lab0 homo0) cfarray rgb_cam hv (Or.inr hb)
    unfold ahd_demosaic at hrc
    rw [h] at hrc
    exact hb hrc
  obtain ⟨_, h2⟩ := ahd_run_ok border cbrt (tileList width height) width height rawData
    (Machine.initial red green blue rgb0 lab0 homo0) cfarray rgb_cam hv hb
  have hrep : (ahd_demosaic border cbrt true width height rawData
      (Machine.initial red green blue rgb0 lab0 homo0) cfarray rgb_cam).2.reported
      = 0 :: inLoopReports width height (tileList width height).length ++ [1] := by
    unfold ahd_demosaic
    rw [h2]
    simp [Machine.initial]
  refine ⟨hrep, ?_, ?_⟩
  · intro v hvmem
    unfold inLoopReports at hvmem
    rw [List.mem_map] at hvmem
    obtain ⟨j, _, rfl⟩ := hvmem
    exact reportValue_le_one width height (j + 1)
  · rw [hrep]
    have h01 : ¬ ((0 : F) = 1) := zero_ne_one
    simp [List.count_cons, List.count_append, h01]
    omega

end Terminal

/-- C9 (counterexample): a 2078 x 146 image has 32 tiles; the run returns
`RP_NO_ERROR` and the callback receives `0, 1, 1`: the value `1` is passed
twice, once by the clamped in-loop report and once by the terminal call. -/
theorem successful_run_reports_one_twice :
    (ahd_demosaic demoBorder demoCbrt true 2078 146 demoRaw demoMachine demoCfa demoCam).1
      = rpError.RP_NO_ERROR ∧
    (ahd_demosaic demoBorder demoCbrt true 2078 146 demoRaw demoMachine demoCfa
      demoCam).2.reported = [0, 1, 1] ∧
    (ahd_demosaic demoBorder demoCbrt true 2078 146 demoRaw demoMachine demoCfa
      demoCam).2.reported.count 1 = 2 := by
  obtain ⟨h1, h2⟩ := ahd_run_ok demoBorder demoCbrt (tileList 2078 146) 2078 146 demoRaw
    demoMachine demoCfa demoCam (by decide) rfl
  have hlen : (tileList 2078 146).length = 32 := by decide
  have hw : wrap32 (146 * 2078) = 303388 := by decide
  have hval : (reportValue 2078 146 1 : ℚ) = 1 := by
    unfold reportValue progressIncrement
    rw [hw]
    norm_num [TS]
  have hrep : (ahd_demosaic demoBorder demoCbrt true 2078 146 demoRaw demoMachine demoCfa
      demoCam).2.reported = [0, 1, 1] := by
    unfold ahd_demosaic
    rw [h2, hlen]
    simp [inLoopReports, List.range_succ, hval, demoMachine, Machine.initial]
  refine ⟨h1, hrep, ?_⟩
  rw [hrep]
  decide

/-- Instance of C9 (as amended): a successful run on a 2078 x 146 image. -/
theorem successful_run_terminal_one_witness :
    (ahd_demosaic demoBorder demoCbrt true 2078 146 demoRaw
      (Machine.initial (fun _ _ => 0) (fun _ _ => 0) (fun _ _ => 0) (fun _ _ _ _ => 0)
        (fun _ _ _ _ => 0) (fun _ _ _ => 0)) demoCfa demoCam).1 = rpError.RP_NO_ERROR ∧
    (ahd_demosaic demoBorder demoCbrt true 2078 146 demoRaw
      (Machine.initial (fun _ _ => 0) (fun _ _ => 0) (fun _ _ => 0) (fun _ _ _ _ => 0)
        (fun _ _ _ _ => 0) (fun _ _ _ => 0)) demoCfa demoCam).2.reported
      = 0 :: inLoopReports 2078 146 (tileList 2078 146).length ++ [1] :=
  ⟨rfl,
   (successful_run_terminal_one demoBorder demoCbrt true 2078 146 demoRaw (fun _ _ => 0)
      (fun _ _ => 0) (fun _ _ => 0) (fun _ _ _ _ => 0) (fun _ _ _ _ => 0) (fun _ _ _ => 0)
      demoCfa demoCam rfl).1⟩

/-! ## Loop ranges of the passes -/

theorem mem_greenRows (height top row : Int) :
    row ∈ greenRows height top ↔ top ≤ row ∧ row < top + 144 ∧ row < height - 2 := by
  simp only [greenRows, mem_loopFrom_one, lt_min_iff, TS]

theorem mem_greenCols (width : Int) (cfarray : Cfa) (left row col : Int) :
    col ∈ greenCols width cfarray left row ↔
      left + ((fc cfarray row left % 2 : Nat) : Int) ≤ col ∧ col < left + 144 ∧ col < width - 2 ∧
        (col - (left + ((fc cfarray row left % 2 : Nat) : Int))) % 2 = 0 := by
  simp only [greenCols, mem_loopFrom _ _ 2 (by decide), lt_min_iff, TS]
  tauto

theorem mem_redBlueRows (height top row : Int) :
    row ∈ redBlueRows height top ↔ top + 1 ≤ row ∧ row < top + 143 ∧ row < height - 3 := by
  simp only [redBlueRows, mem_loopFrom_one, lt_min_iff, TS]
  omega

theorem mem_redBlueCols (width left col : Int) :
    col ∈ redBlueCols width left ↔ left + 1 ≤ col ∧ col < left + 143 ∧ col < width - 3 := by
  simp only [redBlueCols, mem_loopFrom_one, lt_min_iff, TS]
  omega

theorem mem_homoRows (height top row : Int) :
    row ∈ homoRows height top ↔ top + 2 ≤ row ∧ row < top + 142 ∧ row < height - 4 := by
  simp only [homoRows, mem_loopFrom_one, lt_min_iff, TS]
  omega

theorem mem_homoCols (width left col : Int) :
    col ∈ homoCols width left ↔ left + 2 ≤ col ∧ col < left + 142 ∧ col < width - 4 := by
  simp only [homoCols, mem_loopFrom_one, lt_min_iff, TS]
  omega

theorem mem_fuseRows (height top row : Int) :
    row ∈ fuseRows height top ↔ top + 3 ≤ row ∧ row < top + 141 ∧ row < height - 5 := by
  simp only [fuseRows, mem_loopFrom_one, lt_min_iff, TS]
  omega

theorem mem_fuseCols (width left col : Int) :
    col ∈ fuseCols width left ↔ left + 3 ≤ col ∧ col < left + 141 ∧ col < width - 5 := by
  simp only [fuseCols, mem_loopFrom_one, lt_min_iff, TS]
  omega

theorem mem_tileOrigins (n x : Int) :
    x ∈ loopFrom 2 (n - 5) (TS - 6) ↔ 2 ≤ x ∧ x < n - 5 ∧ (x - 2) % 138 = 0 := by
  rw [mem_loopFrom 2 (n - 5) (TS - 6) (by decide)]
  simp only [TS]
  norm_num

theorem mem_tileList (width height : Int) (t : Int × Int) :
    t ∈ tileList width height ↔
      (2 ≤ t.1 ∧ t.1 < height - 5 ∧ (t.1 - 2) % 138 = 0) ∧
      (2 ≤ t.2 ∧ t.2 < width - 5 ∧ (t.2 - 2) % 138 = 0) := by
  obtain ⟨a, b⟩ := t
  simp only [tileList, List.mem_flatMap, List.mem_map, Prod.mk.injEq, mem_tileOrigins]
  constructor
  · rintro ⟨top, h1, left, h2, rfl, rfl⟩
    exact ⟨h1, h2⟩
  · rintro ⟨h1, h2⟩
    exact ⟨a, h1, b, h2, rfl, rfl⟩

theorem hood_eq (tr tc : Int) :
    hood tr tc = [(tr - 1, tc - 1), (tr - 1, tc - 1 + 1), (tr - 1, tc - 1 + 2),
      (tr - 1 + 1, tc - 1), (tr - 1 + 1, tc - 1 + 1), (tr - 1 + 1, tc - 1 + 2),
      (tr - 1 + 2, tc - 1), (tr - 1 + 2, tc - 1 + 1), (tr - 1 + 2, tc - 1 + 2)] := by
  have h1 : tr + 2 = tr - 1 + 3 := by ring
  have h2 : tc + 2 = tc - 1 + 3 := by ring
  unfold hood
  rw [h1, h2, loopFrom_three, loopFrom_three]
  rfl

/-! ## The colours of a valid Bayer pattern -/

theorem cngOf_valid (cfarray : Cfa) (hv : validateBayerCfa cfarray = true) (row : Int) :
    cngOf cfarray row = 0 ∨ cngOf cfarray row = 2 := by
  obtain ⟨a, b, c, d⟩ := cfarray
  simp only [validateBayerCfa, Bool.or_eq_true, Bool.and_eq_true, beq_iff_eq] at hv
  unfold cngOf fc
  rcases hv with ⟨⟨rfl, rfl⟩, (⟨rfl, rfl⟩ | ⟨rfl, rfl⟩)⟩ | ⟨⟨rfl, rfl⟩, (⟨rfl, rfl⟩ | ⟨rfl, rfl⟩)⟩ <;>
    simp <;> split_ifs <;> omega


section Bounds

variable {F : Type} [LinearOrderedField F]

/-! ## C4: every access is in bounds -/

theorem forall_mem_append_of {α : Type} (P : α → Prop) (l L : List α) (hl : ∀ a ∈ l, P a)
    (hL : ∀ a ∈ L, P a) : ∀ a ∈ l ++ L, P a := by
  intro a ha
  rcases List.mem_append.mp ha with h | h
  · exact hl a h
  · exact hL a h

theorem greenStep_inBounds (width height : Int) (rawData : Int → Int → F) (cfarray : Cfa)
    (top left : Int) (m : Machine F) (row col : Int) (ht : 2 ≤ top) (hl : 2 ≤ left)
    (hrow : row ∈ greenRows height top) (hcol : col ∈ greenCols width cfarray left row)
    (hm : ∀ a ∈ m.log, a.inBounds width height) :
    ∀ a ∈ (greenStep rawData top left m row col).log, a.inBounds width height := by
  rw [mem_greenRows] at hrow
  rw [mem_greenCols] at hcol
  rw [greenStep_log]
  refine forall_mem_append_of _ _ _ hm ?_
  simp only [List.forall_mem_cons, List.not_mem_nil, Access.inBounds, TS]
  repeat' apply And.intro
  all_goals first | omega | simp

theorem redBlueStep_inBounds (width height : Int) (rawData : Int → Int → F) (cfarray : Cfa)
    (hv : validateBayerCfa cfarray = true) (xyzCam : Int → Int → F) (cbrt : F → F)
    (top left d : Int) (m : Machine F) (row col : Int) (ht : 2 ≤ top) (hl : 2 ≤ left)
    (hd : d ∈ loopFrom 0 2 1)
    (hrow : row ∈ redBlueRows height top) (hcol : col ∈ redBlueCols width left)
    (hm : ∀ a ∈ m.log, a.inBounds width height) :
    ∀ a ∈ (redBlueStep rawData cfarray xyzCam cbrt top left d m row col).log,
      a.inBounds width height := by
  rw [mem_redBlueRows] at hrow
  rw [mem_redBlueCols] at hcol
  rw [mem_loopFrom_one] at hd
  have hc := cngOf_valid cfarray hv row
  rw [redBlueStep_log]
  refine forall_mem_append_of _ _ _ hm (forall_mem_append_of _ _ _ ?_ ?_)
  · split <;> simp only [List.forall_mem_cons, List.not_mem_nil, Access.inBounds, TS] <;>
      repeat' apply And.intro
    all_goals first | omega | simp
  · simp only [List.forall_mem_cons, List.not_mem_nil, Access.inBounds, TS]
    repeat' apply And.intro
    all_goals first | omega | simp

theorem homoStep_inBounds (width height : Int) (top left : Int) (m : Machine F) (row col : Int)
    (hrow : row ∈ homoRows height top) (hcol : col ∈ homoCols width left)
    (hm : ∀ a ∈ m.log, a.inBounds width height) :
    ∀ a ∈ (homoStep top left m row col).log, a.inBounds width height := by
  rw [mem_homoRows] at hrow
  rw [mem_homoCols] at hcol
  rw [homoStep_log]
  refine forall_mem_append_of _ _ _ hm ?_
  simp only [List.flatMap_cons, List.flatMap_nil, List.append_nil, List.cons_append,
    List.nil_append, List.forall_mem_cons, List.not_mem_nil, Access.inBounds, TS, dir]
  repeat' apply And.intro
  all_goals first | omega | simp

theorem fuseStep_inBounds (width height : Int) (top left : Int) (m : Machine F) (row col : Int)
    (ht : 2 ≤ top) (hl : 2 ≤ left)
    (hrow : row ∈ fuseRows height top) (hcol : col ∈ fuseCols width left)
    (hm : ∀ a ∈ m.log, a.inBounds width height) :
    ∀ a ∈ (fuseStep top left m row col).log, a.inBounds width height := by
  rw [mem_fuseRows] at hrow
  rw [mem_fuseCols] at hcol
  rw [fuseStep_log, hood_eq]
  refine forall_mem_append_of _ _ _ hm (forall_mem_append_of _ _ _ ?_ ?_)
  · simp only [List.flatMap_cons, List.flatMap_nil, List.append_nil, List.cons_append,
      List.nil_append, List.forall_mem_cons, List.not_mem_nil, Access.inBounds, TS]
    repeat' apply And.intro
    all_goals first | omega | simp
  · split <;> [split; skip] <;>
      simp only [List.forall_mem_cons, List.not_mem_nil, Access.inBounds, TS] <;>
      repeat' apply And.intro
    all_goals first | omega | simp

theorem tilePasses_inBounds (width height : Int) (rawData : Int → Int → F) (cfarray : Cfa)
    (hv : validateBayerCfa cfarray = true) (xyzCam : Int → Int → F) (cbrt : F → F)
    (top left : Int) (m : Machine F) (ht : 2 ≤ top) (hl : 2 ≤ left)
    (hm : ∀ a ∈ m.log, a.inBounds width height) :
    ∀ a ∈ (tilePasses width height rawData cfarray xyzCam cbrt top left m).log,
      a.inBounds width height := by
  unfold tilePasses
  have hA : ∀ a ∈ (greenPass width height rawData cfarray top left m).log,
      a.inBounds width height :=
    sweep_invariant _ _ _ (fun s : Machine F => ∀ a ∈ s.log, a.inBounds width height)
      (fun s row col hrow hcol hs =>
        greenStep_inBounds width height rawData cfarray top left s row col ht hl hrow hcol hs)
      m hm
  have hB : ∀ s : Machine F, (∀ a ∈ s.log, a.inBounds width height) →
      ∀ a ∈ (redBluePass width height rawData cfarray xyzCam cbrt top left s).log,
        a.inBounds width height := fun s hs =>
    foldl_invariant _ (fun s : Machine F => ∀ a ∈ s.log, a.inBounds width height) _
      (fun s1 d hd h1 =>
        sweep_invariant _ _ _ (fun s : Machine F => ∀ a ∈ s.log, a.inBounds width height)
          (fun s2 row col hrow hcol h2 =>
            redBlueStep_inBounds width height rawData cfarray hv xyzCam cbrt top left d s2 row col
              ht hl hd hrow hcol h2) s1 h1) s hs
  have hC : ∀ s : Machine F, (∀ a ∈ s.log, a.inBounds width height) →
      ∀ a ∈ (homoPass width height top left s).log, a.inBounds width height := fun s hs =>
    sweep_invariant _ _ _ (fun s : Machine F => ∀ a ∈ s.log, a.inBounds width height)
      (fun s1 row col hrow hcol h1 =>
        homoStep_inBounds width height top left s1 row col hrow hcol h1) s hs
  have hD : ∀ s : Machine F, (∀ a ∈ s.log, a.inBounds width height) →
      ∀ a ∈ (fusePass width height top left s).log, a.inBounds width height := fun s hs =>
    sweep_invariant _ _ _ (fun s : Machine F => ∀ a ∈ s.log, a.inBounds width height)
      (fun s1 row col hrow hcol h1 =>
        fuseStep_inBounds width height top left s1 row col ht hl hrow hcol h1) s hs
  exact hD _ (hC _ (hB _ hA))

theorem runTiles_inBounds (width height : Int) (rawData : Int → Int → F) (cfarray : Cfa)
    (hv : validateBayerCfa cfarray = true) (xyzCam : Int → Int → F) (cbrt : F → F)
    (order : List (Int × Int)) (horder : ∀ t ∈ order, 2 ≤ t.1 ∧ 2 ≤ t.2) (m : Machine F)
    (hm : ∀ a ∈ m.log, a.inBounds width height) :
    ∀ a ∈ (runTiles width height rawData cfarray xyzCam cbrt order m).log,
      a.inBounds width height := by
  unfold runTiles
  refine foldl_invariant _ (fun s : Machine F => ∀ a ∈ s.log, a.inBounds width height) order
    ?_ m hm
  intro s t ht hs
  unfold tileStep
  rw [progressStep_log]
  exact tilePasses_inBounds width height rawData cfarray hv xyzCam cbrt t.1 t.2 s
    (horder t ht).1 (horder t ht).2 hs

/-- C4: every memory access made by a run of `ahd_demosaic` is in bounds, for
every image size (also sizes without any tile), every tile and all four
passes: raw reads and plane writes address a pixel `0 ≤ row < height`,
`0 ≤ col < width`, scratch accesses address tile-relative rows and columns in
`[0, 144)` (direction 0 or 1, channel 0, 1 or 2). -/
theorem all_accesses_in_bounds (border : BorderPass F) (cbrt : F → F) (allocOk : Bool)
    (width height : Int) (rawData : Int → Int → F) (red green blue : Int → Int → F)
    (rgb0 lab0 : Int → Int → Int → Int → F) (homo0 : Int → Int → Int → Nat) (cfarray : Cfa)
    (rgb_cam : Int → Int → F) :
    ∀ a ∈ (ahd_demosaic border cbrt allocOk width height rawData
      (Machine.initial red green blue rgb0 lab0 homo0) cfarray rgb_cam).2.log,
      a.inBounds width height := by
  unfold ahd_demosaic
  rcases run_trichotomy (validateBayerCfa cfarray) allocOk
    (border width height 5 rawData red green blue cfarray).rc with hv | ⟨hv, hs⟩ | ⟨hv, ha, hb⟩
  · rw [ahd_run_invalid border cbrt allocOk _ width height rawData _ cfarray rgb_cam hv]
    intro a ha
    simp [Machine.initial] at ha
  · rw [ahd_run_skipped border cbrt allocOk _ width height rawData _ cfarray rgb_cam hv hs]
    intro a ha
    simp [Machine.initial] at ha
  · subst ha
    rw [ahd_run_ran border cbrt _ width height rawData _ cfarray rgb_cam hv hb]
    refine runTiles_inBounds width height rawData cfarray hv _ cbrt (tileList width height) ?_ _ ?_
    · intro t ht
      rw [mem_tileList] at ht
      exact ⟨ht.1.1, ht.2.1⟩
    · intro a ha
      simp [loopEntry, Machine.initial] at ha

end Bounds

/-! ## Loops whose iterations each establish a fact that later iterations keep -/

theorem foldl_writes {σ ι : Type} (step : σ → ι → σ) (l : List ι) (J : σ → Prop)
    (W : ι → σ → Prop)
    (hJ : ∀ s i, i ∈ l → J s → J (step s i))
    (hW : ∀ s i, i ∈ l → J s → W i (step s i))
    (hkeep : ∀ s i j, i ∈ l → j ∈ l → J s → W j s → W j (step s i)) :
    ∀ s, J s → J (l.foldl step s) ∧ ∀ j ∈ l, W j (l.foldl step s) := by
  induction l with
  | nil => intro s hs; exact ⟨hs, fun j hj => absurd hj (List.not_mem_nil j)⟩
  | cons a t ih =>
    intro s hs
    rw [List.foldl_cons]
    have hsa : J (step s a) := hJ s a (List.mem_cons_self _ _) hs
    have ih' := ih (fun s i hi => hJ s i (List.mem_cons_of_mem _ hi))
      (fun s i hi => hW s i (List.mem_cons_of_mem _ hi))
      (fun s i j hi hj => hkeep s i j (List.mem_cons_of_mem _ hi) (List.mem_cons_of_mem _ hj))
      (step s a) hsa
    refine ⟨ih'.1, ?_⟩
    intro j hj
    rcases List.mem_cons.mp hj with rfl | hjt
    · have key := foldl_invariant step (fun s => J s ∧ W j s) t
        (fun s i hi h => ⟨hJ s i (List.mem_cons_of_mem _ hi) h.1,
          hkeep s i j (List.mem_cons_of_mem _ hi) (List.mem_cons_self _ _) h.1 h.2⟩)
        (step s j) ⟨hsa, hW s j (List.mem_cons_self _ _) hs⟩
      exact key.2
    · exact ih'.2 j hjt

theorem sweep_eq_foldl {σ : Type} (rows : List Int) (cols : Int → List Int)
    (body : σ → Int → Int → σ) (s : σ) :
    sweep rows cols body s
      = (rows.flatMap fun r => (cols r).map fun c => (r, c)).foldl
          (fun s rc => body s rc.1 rc.2) s := by
  unfold sweep
  induction rows generalizing s with
  | nil => rfl
  | cons a t ih =>
    rw [List.foldl_cons, List.flatMap_cons, List.foldl_append, List.foldl_map, ih]

theorem sweep_writes {σ : Type} (rows : List Int) (cols : Int → List Int)
    (body : σ → Int → Int → σ) (J : σ → Prop) (W : Int → Int → σ → Prop)
    (hJ : ∀ s row col, row ∈ rows → col ∈ cols row → J s → J (body s row col))
    (hW : ∀ s row col, row ∈ rows → col ∈ cols row → J s → W row col (body s row col))
    (hkeep : ∀ s row col row' col', row ∈ rows → col ∈ cols row → row' ∈ rows →
      col' ∈ cols row' → J s → W row' col' s → W row' col' (body s row col)) :
    ∀ s, J s → J (sweep rows cols body s) ∧
      ∀ row ∈ rows, ∀ col ∈ cols row, W row col (sweep rows cols body s) := by
  intro s hs
  rw [sweep_eq_foldl]
  have hmem : ∀ rc : Int × Int, rc ∈ (rows.flatMap fun r => (cols r).map fun c => (r, c)) →
      rc.1 ∈ rows ∧ rc.2 ∈ cols rc.1 := by
    intro rc hrc
    rw [List.mem_flatMap] at hrc
    obtain ⟨r, hr, hrc⟩ := hrc
    rw [List.mem_map] at hrc
    obtain ⟨c, hc, rfl⟩ := hrc
    exact ⟨hr, hc⟩
  have key := foldl_writes (fun s (rc : Int × Int) => body s rc.1 rc.2)
    (rows.flatMap fun r => (cols r).map fun c => (r, c)) J (fun rc s => W rc.1 rc.2 s)
    (fun s i hi h => hJ s i.1 i.2 (hmem i hi).1 (hmem i hi).2 h)
    (fun s i hi h => hW s i.1 i.2 (hmem i hi).1 (hmem i hi).2 h)
    (fun s i j hi hj h hw =>
      hkeep s i.1 i.2 j.1 j.2 (hmem i hi).1 (hmem i hi).2 (hmem j hj).1 (hmem j hj).2 h hw)
    s hs
  refine ⟨key.1, ?_⟩
  intro row hrow col hcol
  exact key.2 (row, col) (List.mem_flatMap.mpr ⟨row, hrow, List.mem_map.mpr ⟨col, hcol, rfl⟩⟩)

/-! ## Reading an updated volume -/

theorem upd4_eq {α : Type} (a : Int → Int → Int → Int → α) (d tr tc c : Int) (v : α) :
    upd4 a d tr tc c v d tr tc c = v := by
  simp [upd4]

theorem upd4_ne {α : Type} (a : Int → Int → Int → Int → α) (d tr tc c : Int) (v : α)
    (d' tr' tc' c' : Int) (h : ¬ (d' = d ∧ tr' = tr ∧ tc' = tc ∧ c' = c)) :
    upd4 a d tr tc c v d' tr' tc' c' = a d' tr' tc' c' := by
  simp only [upd4, h, if_false]

theorem upd3_eq {α : Type} (a : Int → Int → Int → α) (d tr tc : Int) (v : α) :
    upd3 a d tr tc v d tr tc = v := by
  simp [upd3]

theorem upd3_ne {α : Type} (a : Int → Int → Int → α) (d tr tc : Int) (v : α)
    (d' tr' tc' : Int) (h : ¬ (d' = d ∧ tr' = tr ∧ tc' = tc)) :
    upd3 a d tr tc v d' tr' tc' = a d' tr' tc' := by
  simp only [upd3, h, if_false]

theorem upd2_eq {α : Type} (a : Int → Int → α) (row col : Int) (v : α) :
    upd2 a row col v row col = v := by
  simp [upd2]

theorem upd2_ne {α : Type} (a : Int → Int → α) (row col : Int) (v : α)
    (row' col' : Int) (h : ¬ (row' = row ∧ col' = col)) :
    upd2 a row col v row' col' = a row' col' := by
  simp only [upd2, h, if_false]

/-! ## Colours of a valid Bayer pattern, continued -/

/-- In a valid Bayer pattern the green pixels are those of one parity class of
`row + col`, and every colour is 0, 1 or 2. -/
theorem fc_valid (cfarray : Cfa) (hv : validateBayerCfa cfarray = true) :
    ∃ g : Int, (g = 0 ∨ g = 1) ∧ ∀ r c : Int,
      (fc cfarray r c = 1 ↔ (r + c) % 2 = g) ∧
      (fc cfarray r c = 0 ∨ fc cfarray r c = 1 ∨ fc cfarray r c = 2) := by
  obtain ⟨a, b, c, d⟩ := cfarray
  simp only [validateBayerCfa, Bool.or_eq_true, Bool.and_eq_true, beq_iff_eq] at hv
  rcases hv with ⟨⟨rfl, rfl⟩, (⟨rfl, rfl⟩ | ⟨rfl, rfl⟩)⟩ | ⟨⟨rfl, rfl⟩, (⟨rfl, rfl⟩ | ⟨rfl, rfl⟩)⟩
  · refine ⟨0, Or.inl rfl, fun r c => ?_⟩
    unfold fc
    constructor <;> split_ifs <;> simp <;> omega
  · refine ⟨0, Or.inl rfl, fun r c => ?_⟩
    unfold fc
    constructor <;> split_ifs <;> simp <;> omega
  · refine ⟨1, Or.inr rfl, fun r c => ?_⟩
    unfold fc
    constructor <;> split_ifs <;> simp <;> omega
  · refine ⟨1, Or.inr rfl, fun r c => ?_⟩
    unfold fc
    constructor <;> split_ifs <;> simp <;> omega

/-- The green loop of a row visits every non-green pixel of its column range. -/
theorem nongreen_mem_greenCols (width : Int) (cfarray : Cfa)
    (hv : validateBayerCfa cfarray = true) (left row col : Int) (hng : fc cfarray row col ≠ 1)
    (h1 : left ≤ col) (h2 : col < left + 144) (h3 : col < width - 2) :
    col ∈ greenCols width cfarray left row := by
  obtain ⟨g, hg, hfc⟩ := fc_valid cfarray hv
  rw [mem_greenCols]
  have hl := hfc row left
  have hc := hfc row col
  rcases hl.2 with h | h | h
  · have : ¬ (row + left) % 2 = g := fun hh => by rw [hl.1.mpr hh] at h; exact absurd h (by decide)
    have : ¬ (row + col) % 2 = g := fun hh => hng (hc.1.mpr hh)
    rw [h]
    norm_num
    omega
  · have : (row + left) % 2 = g := hl.1.mp h
    have : ¬ (row + col) % 2 = g := fun hh => hng (hc.1.mpr hh)
    rw [h]
    norm_num
    omega
  · have : ¬ (row + left) % 2 = g := fun hh => by rw [hl.1.mpr hh] at h; exact absurd h (by decide)
    have : ¬ (row + col) % 2 = g := fun hh => hng (hc.1.mpr hh)
    rw [h]
    norm_num
    omega

section Values

variable {F : Type} [LinearOrderedField F]

/-! ## Pass A: the green hypotheses -/

theorem greenStep_rgb (rawData : Int → Int → F) (top left : Int) (m : Machine F) (row col : Int) :
    (greenStep rawData top left m row col).rgb
      = upd4 (upd4 m.rgb 0 (row - top) (col - left) 1 (greenRef rawData 0 row col))
          1 (row - top) (col - left) 1 (greenRef rawData 1 row col) := by
  simp [greenStep, greenRef, Machine.note, Machine.wrRgb]

/-- After the green pass, both green hypotheses of every visited pixel are in
the scratch buffer, whatever it held before. -/
theorem greenPass_values (width height : Int) (rawData : Int → Int → F) (cfarray : Cfa)
    (top left : Int) (m : Machine F) :
    ∀ row ∈ greenRows height top, ∀ col ∈ greenCols width cfarray left row,
      (greenPass width height rawData cfarray top left m).rgb 0 (row - top) (col - left) 1
        = greenRef rawData 0 row col ∧
      (greenPass width height rawData cfarray top left m).rgb 1 (row - top) (col - left) 1
        = greenRef rawData 1 row col := by
  unfold greenPass
  refine (sweep_writes (greenRows height top) (greenCols width cfarray left)
    (greenStep rawData top left) (fun _ => True)
    (fun row col s => s.rgb 0 (row - top) (col - left) 1 = greenRef rawData 0 row col ∧
      s.rgb 1 (row - top) (col - left) 1 = greenRef rawData 1 row col)
    (fun _ _ _ _ _ _ => trivial) ?_ ?_ m trivial).2
  · intro s row col _ _ _
    rw [greenStep_rgb]
    exact ⟨by rw [upd4_ne _ _ _ _ _ _ _ _ _ _ (by omega), upd4_eq], by rw [upd4_eq]⟩
  · intro s row col row' col' _ _ _ _ _ hw
    rw [greenStep_rgb]
    by_cases h : row' = row ∧ col' = col
    · obtain ⟨h1, h2⟩ := h
      subst h1 h2
      exact ⟨by rw [upd4_ne _ _ _ _ _ _ _ _ _ _ (by omega), upd4_eq], by rw [upd4_eq]⟩
    · rw [upd4_ne _ _ _ _ _ _ _ _ _ _ (by omega), upd4_ne _ _ _ _ _ _ _ _ _ _ (by omega),
        upd4_ne _ _ _ _ _ _ _ _ _ _ (by omega), upd4_ne _ _ _ _ _ _ _ _ _ _ (by omega)]
      exact hw

theorem greenPass_greenDone (width height : Int) (rawData : Int → Int → F) (cfarray : Cfa)
    (hv : validateBayerCfa cfarray = true) (top left : Int) (m : Machine F) :
    GreenDone width height rawData cfarray top left
      (greenPass width height rawData cfarray top left m) := by
  intro d row col tr tc htr htc hd h1 h2 h3 h4 h5 h6 hng
  subst htr htc
  have hrow : row ∈ greenRows height top := (mem_greenRows height top row).mpr ⟨h1, h2, h3⟩
  have hcol : col ∈ greenCols width cfarray left row :=
    nongreen_mem_greenCols width cfarray hv left row col hng h4 h5 h6
  have h := greenPass_values width height rawData cfarray top left m row hrow col hcol
  rcases hd with rfl | rfl
  · exact h.1
  · exact h.2

/-! ## Pass B: red, blue and Lab -/

theorem redBlueStep_rgb_other (rawData : Int → Int → F) (cfarray : Cfa) (xyzCam : Int → Int → F)
    (cbrt : F → F) (top left d : Int) (m : Machine F) (row col : Int) (d' tr' tc' c' : Int)
    (h : ¬ (d' = d ∧ tr' = row - top ∧ tc' = col - left)) :
    (redBlueStep rawData cfarray xyzCam cbrt top left d m row col).rgb d' tr' tc' c'
      = m.rgb d' tr' tc' c' := by
  have hne : ∀ c, ¬ (d' = d ∧ tr' = row - top ∧ tc' = col - left ∧ c' = c) :=
    fun c hc => h ⟨hc.1, hc.2.1, hc.2.2.1⟩
  unfold redBlueStep
  by_cases hg : fc cfarray row col = 1 <;>
    simp [hg, Machine.note, Machine.wrRgb, Machine.wrLab, upd4_ne _ _ _ _ _ _ _ _ _ _ (hne _)]

theorem redBlueStep_lab_other (rawData : Int → Int → F) (cfarray : Cfa) (xyzCam : Int → Int → F)
    (cbrt : F → F) (top left d : Int) (m : Machine F) (row col : Int) (d' tr' tc' c' : Int)
    (h : ¬ (d' = d ∧ tr' = row - top ∧ tc' = col - left)) :
    (redBlueStep rawData cfarray xyzCam cbrt top left d m row col).lab d' tr' tc' c'
      = m.lab d' tr' tc' c' := by
  have hne : ∀ c, ¬ (d' = d ∧ tr' = row - top ∧ tc' = col - left ∧ c' = c) :=
    fun c hc => h ⟨hc.1, hc.2.1, hc.2.2.1⟩
  unfold redBlueStep
  by_cases hg : fc cfarray row col = 1 <;>
    simp [hg, Machine.note, Machine.wrRgb, Machine.wrLab, upd4_ne _ _ _ _ _ _ _ _ _ _ (hne _)]

theorem redBlueStep_rgb_self (width height : Int) (rawData : Int → Int → F) (cfarray : Cfa)
    (hv : validateBayerCfa cfarray = true) (xyzCam : Int → Int → F) (cbrt : F → F)
    (top left d : Int) (m : Machine F) (row col : Int) (hd : d = 0 ∨ d = 1)
    (hG : GreenDone width height rawData cfarray top left m)
    (h1 : top + 1 ≤ row) (h2 : row < top + 143) (h3 : row < height - 3)
    (h4 : left + 1 ≤ col) (h5 : col < left + 143) (h6 : col < width - 3)
    (c : Int) (hc0 : 0 ≤ c) (hc3 : c < 3) :
    (redBlueStep rawData cfarray xyzCam cbrt top left d m row col).rgb d (row - top) (col - left) c
      = rgbRef rawData cfarray d row col c := by
  obtain ⟨g, hg, hfc⟩ := fc_valid cfarray hv
  have hcng := cngOf_valid cfarray hv row
  have hcases : c = 0 ∨ c = 1 ∨ c = 2 := by omega
  unfold redBlueStep rgbRef
  by_cases hgr : fc cfarray row col = 1
  · have hp : (row + col) % 2 = g := (hfc row col).1.mp hgr
    have eL : m.rgb d (row - top) (col - left - 1) 1 = greenRef rawData d row (col - 1) :=
      hG d row (col - 1) _ _ rfl (by ring) hd (by omega) (by omega) (by omega) (by omega)
        (by omega) (by omega) (fun h => by have := (hfc row (col - 1)).1.mp h; omega)
    have eR : m.rgb d (row - top) (col - left + 1) 1 = greenRef rawData d row (col + 1) :=
      hG d row (col + 1) _ _ rfl (by ring) hd (by omega) (by omega) (by omega) (by omega)
        (by omega) (by omega) (fun h => by have := (hfc row (col + 1)).1.mp h; omega)
    have eU : m.rgb d (row - top - 1) (col - left) 1 = greenRef rawData d (row - 1) col :=
      hG d (row - 1) col _ _ (by ring) rfl hd (by omega) (by omega) (by omega) (by omega)
        (by omega) (by omega) (fun h => by have := (hfc (row - 1) col).1.mp h; omega)
    have eD : m.rgb d (row - top + 1) (col - left) 1 = greenRef rawData d (row + 1) col :=
      hG d (row + 1) col _ _ (by ring) rfl hd (by omega) (by omega) (by omega) (by omega)
        (by omega) (by omega) (fun h => by have := (hfc (row + 1) col).1.mp h; omega)
    rcases hcng with hk | hk <;> rcases hcases with rfl | rfl | rfl <;>
      simp [hgr, hk, Machine.note, Machine.wrRgb, Machine.wrLab, upd4, eL, eR, eU, eD]
  · have hp : ¬ (row + col) % 2 = g := fun h => hgr ((hfc row col).1.mpr h)
    have e0 : m.rgb d (row - top) (col - left) 1 = greenRef rawData d row col :=
      hG d row col _ _ rfl rfl hd (by omega) (by omega) (by omega) (by omega)
        (by omega) (by omega) hgr
    have e1 : m.rgb d (row - top - 1) (col - left - 1) 1
        = greenRef rawData d (row - 1) (col - 1) :=
      hG d (row - 1) (col - 1) _ _ (by ring) (by ring) hd (by omega) (by omega) (by omega)
        (by omega) (by omega) (by omega)
        (fun h => by have := (hfc (row - 1) (col - 1)).1.mp h; omega)
    have e2 : m.rgb d (row - top - 1) (col - left + 1) 1
        = greenRef rawData d (row - 1) (col + 1) :=
      hG d (row - 1) (col + 1) _ _ (by ring) (by ring) hd (by omega) (by omega) (by omega)
        (by omega) (by omega) (by omega)
        (fun h => by have := (hfc (row - 1) (col + 1)).1.mp h; omega)
    have e3 : m.rgb d (row - top + 1) (col - left - 1) 1
        = greenRef rawData d (row + 1) (col - 1) :=
      hG d (row + 1) (col - 1) _ _ (by ring) (by ring) hd (by omega) (by omega) (by omega)
        (by omega) (by omega) (by omega)
        (fun h => by have := (hfc (row + 1) (col - 1)).1.mp h; omega)
    have e4 : m.rgb d (row - top + 1) (col - left + 1) 1
        = greenRef rawData d (row + 1) (col + 1) :=
      hG d (row + 1) (col + 1) _ _ (by ring) (by ring) hd (by omega) (by omega) (by omega)
        (by omega) (by omega) (by omega)
        (fun h => by have := (hfc (row + 1) (col + 1)).1.mp h; omega)
    rcases hcng with hk | hk <;> rcases hcases with rfl | rfl | rfl <;>
      simp [hgr, hk, Machine.note, Machine.wrRgb, Machine.wrLab, upd4, e0, e1, e2, e3, e4]

theorem redBlueStep_rgb_keep_green (rawData : Int → Int → F) (cfarray : Cfa)
    (hv : validateBayerCfa cfarray = true) (xyzCam : Int → Int → F) (cbrt : F → F)
    (top left d : Int) (m : Machine F) (row col : Int) (hng : fc cfarray row col ≠ 1)
    (d' tr' tc' : Int) :
    (redBlueStep rawData cfarray xyzCam cbrt top left d m row col).rgb d' tr' tc' 1
      = m.rgb d' tr' tc' 1 := by
  have hcng := cngOf_valid cfarray hv row
  unfold redBlueStep
  rcases hcng with hk | hk <;>
    simp [hng, hk, Machine.note, Machine.wrRgb, Machine.wrLab, upd4]

theorem redBlueStep_lab_self (rawData : Int → Int → F) (cfarray : Cfa) (xyzCam : Int → Int → F)
    (cbrt : F → F) (top left d : Int) (m : Machine F) (row col : Int)
    (k : Int) (hk0 : 0 ≤ k) (hk3 : k < 3) :
    (redBlueStep rawData cfarray xyzCam cbrt top left d m row col).lab d (row - top) (col - left) k
      = labOf xyzCam cbrt
          ((redBlueStep rawData cfarray xyzCam cbrt top left d m row col).rgb d (row - top)
            (col - left)) k := by
  have hcases : k = 0 ∨ k = 1 ∨ k = 2 := by omega
  unfold redBlueStep labOf
  by_cases hgr : fc cfarray row col = 1 <;> rcases hcases with rfl | rfl | rfl <;>
    simp [hgr, Machine.note, Machine.wrRgb, Machine.wrLab, upd4]

theorem redBlueStep_greenDone (width height : Int) (rawData : Int → Int → F) (cfarray : Cfa)
    (hv : validateBayerCfa cfarray = true) (xyzCam : Int → Int → F) (cbrt : F → F)
    (top left d : Int) (m : Machine F) (row col : Int)
    (hG : GreenDone width height rawData cfarray top left m) :
    GreenDone width height rawData cfarray top left
      (redBlueStep rawData cfarray xyzCam cbrt top left d m row col) := by
  intro d' row' col' tr tc htr htc hd h1 h2 h3 h4 h5 h6 hng
  by_cases hcell : d' = d ∧ tr = row - top ∧ tc = col - left
  · have hr : row' = row := by omega
    have hc : col' = col := by omega
    subst hr hc
    rw [redBlueStep_rgb_keep_green rawData cfarray hv xyzCam cbrt top left d m row' col' hng]
    exact hG d' row' col' tr tc htr htc hd h1 h2 h3 h4 h5 h6 hng
  · rw [redBlueStep_rgb_other rawData cfarray xyzCam cbrt top left d m row col d' tr tc 1 hcell]
    exact hG d' row' col' tr tc htr htc hd h1 h2 h3 h4 h5 h6 hng

/-- One direction of the red/blue pass: it completes the RGB and Lab volumes of
that direction, keeps the green hypotheses, and leaves the other direction's
volumes alone. -/
theorem redBlueSweep_done (width height : Int) (rawData : Int → Int → F) (cfarray : Cfa)
    (hv : validateBayerCfa cfarray = true) (xyzCam : Int → Int → F) (cbrt : F → F)
    (top left d : Int) (hd : d = 0 ∨ d = 1) (m : Machine F)
    (hG : GreenDone width height rawData cfarray top left m) :
    GreenDone width height rawData cfarray top left
      (sweep (redBlueRows height top) (fun _ => redBlueCols width left)
        (redBlueStep rawData cfarray xyzCam cbrt top left d) m) ∧
    RgbLabDone width height rawData cfarray xyzCam cbrt top left d
      (sweep (redBlueRows height top) (fun _ => redBlueCols width left)
        (redBlueStep rawData cfarray xyzCam cbrt top left d) m) ∧
    (∀ d' tr tc c : Int, d' ≠ d →
      (sweep (redBlueRows height top) (fun _ => redBlueCols width left)
        (redBlueStep rawData cfarray xyzCam cbrt top left d) m).rgb d' tr tc c = m.rgb d' tr tc c ∧
      (sweep (redBlueRows height top) (fun _ => redBlueCols width left)
        (redBlueStep rawData cfarray xyzCam cbrt top left d) m).lab d' tr tc c
          = m.lab d' tr tc c) := by
  have key := sweep_writes (redBlueRows height top) (fun _ => redBlueCols width left)
    (redBlueStep rawData cfarray xyzCam cbrt top left d)
    (fun s : Machine F => GreenDone width height rawData cfarray top left s ∧
      ∀ d' tr tc c : Int, d' ≠ d →
        s.rgb d' tr tc c = m.rgb d' tr tc c ∧ s.lab d' tr tc c = m.lab d' tr tc c)
    (fun row col s => ∀ c : Int, 0 ≤ c → c < 3 →
      s.rgb d (row - top) (col - left) c = rgbRef rawData cfarray d row col c ∧
      s.lab d (row - top) (col - left) c = labRef rawData cfarray xyzCam cbrt d row col c)
    ?_ ?_ ?_ m ⟨hG, fun _ _ _ _ _ => ⟨rfl, rfl⟩⟩
  · refine ⟨key.1.1, ?_, key.1.2⟩
    intro row col tr tc c htr htc h1 h2 h3 h4 h5 h6 hc0 hc3
    subst htr htc
    exact key.2 row ((mem_redBlueRows height top row).mpr ⟨h1, h2, h3⟩) col
      ((mem_redBlueCols width left col).mpr ⟨h4, h5, h6⟩) c hc0 hc3
  · intro s row col _ _ hs
    refine ⟨redBlueStep_greenDone width height rawData cfarray hv xyzCam cbrt top left d s row col
      hs.1, ?_⟩
    intro d' tr tc c hne
    rw [redBlueStep_rgb_other rawData cfarray xyzCam cbrt top left d s row col d' tr tc c
        (fun h => hne h.1),
      redBlueStep_lab_other rawData cfarray xyzCam cbrt top left d s row col d' tr tc c
        (fun h => hne h.1)]
    exact hs.2 d' tr tc c hne
  · intro s row col hrow hcol hs c hc0 hc3
    rw [mem_redBlueRows] at hrow
    rw [mem_redBlueCols] at hcol
    have hrgb : ∀ c : Int, 0 ≤ c → c < 3 →
        (redBlueStep rawData cfarray xyzCam cbrt top left d s row col).rgb d (row - top)
          (col - left) c = rgbRef rawData cfarray d row col c := fun c h0 h3 =>
      redBlueStep_rgb_self width height rawData cfarray hv xyzCam cbrt top left d s row col hd
        hs.1 hrow.1 hrow.2.1 hrow.2.2 hcol.1 hcol.2.1 hcol.2.2 c h0 h3
    refine ⟨hrgb c hc0 hc3, ?_⟩
    rw [redBlueStep_lab_self rawData cfarray xyzCam cbrt top left d s row col c hc0 hc3]
    unfold labRef labOf
    rw [hrgb 0 (by decide) (by decide), hrgb 1 (by decide) (by decide),
      hrgb 2 (by decide) (by decide)]
  · intro s row col row' col' hrow hcol _ _ hs hw c hc0 hc3
    by_cases hcell : row' = row ∧ col' = col
    · obtain ⟨hr, hc⟩ := hcell
      subst hr hc
      rw [mem_redBlueRows] at hrow
      rw [mem_redBlueCols] at hcol
      have hrgb : ∀ c : Int, 0 ≤ c → c < 3 →
          (redBlueStep rawData cfarray xyzCam cbrt top left d s row' col').rgb d (row' - top)
            (col' - left) c = rgbRef rawData cfarray d row' col' c := fun c h0 h3 =>
        redBlueStep_rgb_self width height rawData cfarray hv xyzCam cbrt top left d s row' col' hd
          hs.1 hrow.1 hrow.2.1 hrow.2.2 hcol.1 hcol.2.1 hcol.2.2 c h0 h3
      refine ⟨hrgb c hc0 hc3, ?_⟩
      rw [redBlueStep_lab_self rawData cfarray xyzCam cbrt top left d s row' col' c hc0 hc3]
      unfold labRef labOf
      rw [hrgb 0 (by decide) (by decide), hrgb 1 (by decide) (by decide),
        hrgb 2 (by decide) (by decide)]
    · rw [redBlueStep_rgb_other rawData cfarray xyzCam cbrt top left d s row col d (row' - top)
          (col' - left) c (by omega),
        redBlueStep_lab_other rawData cfarray xyzCam cbrt top left d s row col d (row' - top)
          (col' - left) c (by omega)]
      exact hw c hc0 hc3

/-- After the red/blue pass both directions are complete. -/
theorem redBluePass_done (width height : Int) (rawData : Int → Int → F) (cfarray : Cfa)
    (hv : validateBayerCfa cfarray = true) (xyzCam : Int → Int → F) (cbrt : F → F)
    (top left : Int) (m : Machine F)
    (hG : GreenDone width height rawData cfarray top left m) :
    RgbLabDone width height rawData cfarray xyzCam cbrt top left 0
      (redBluePass width height rawData cfarray xyzCam cbrt top left m) ∧
    RgbLabDone width height rawData cfarray xyzCam cbrt top left 1
      (redBluePass width height rawData cfarray xyzCam cbrt top left m) := by
  unfold redBluePass
  rw [loopFrom_zero_two]
  simp only [List.foldl_cons, List.foldl_nil]
  obtain ⟨g0, r0, _⟩ := redBlueSweep_done width height rawData cfarray hv xyzCam cbrt top left 0
    (Or.inl rfl) m hG
  obtain ⟨_, r1, k1⟩ := redBlueSweep_done width height rawData cfarray hv xyzCam cbrt top left 1
    (Or.inr rfl) _ g0
  refine ⟨?_, r1⟩
  intro row col tr tc c htr htc h1 h2 h3 h4 h5 h6 hc0 hc3
  rw [(k1 0 tr tc c (by decide)).1, (k1 0 tr tc c (by decide)).2]
  exact r0 row col tr tc c htr htc h1 h2 h3 h4 h5 h6 hc0 hc3

/-! ## Pass C: homogeneity scores -/

theorem homoBit_le_one (lab : Int → Int → Int → Int → F) (tr tc d : Int) (i : Nat) :
    homoBit lab tr tc d i ≤ 1 := by
  unfold homoBit
  split_ifs <;> simp

theorem homoStep_rgb (top left : Int) (m : Machine F) (row col : Int) :
    (homoStep top left m row col).rgb = m.rgb := by
  simp [homoStep, Machine.note, Machine.wrHomo]

theorem homoStep_lab (top left : Int) (m : Machine F) (row col : Int) :
    (homoStep top left m row col).lab = m.lab := by
  simp [homoStep, Machine.note, Machine.wrHomo]

theorem homoStep_homo_other (top left : Int) (m : Machine F) (row col : Int) (d' tr' tc' : Int)
    (h : ¬ (tr' = row - top ∧ tc' = col - left)) :
    (homoStep top left m row col).homo d' tr' tc' = m.homo d' tr' tc' := by
  have hne : ∀ d, ¬ (d' = d ∧ tr' = row - top ∧ tc' = col - left) := fun d hc => h hc.2
  simp [homoStep, Machine.note, Machine.wrHomo, upd3_ne _ _ _ _ _ _ _ _ (hne _)]

/-- The score stored for direction `d`: the four increments, none of which
makes the `uint16_t` wrap. -/
theorem homoStep_homo_self (top left : Int) (m : Machine F) (row col : Int) (d : Int)
    (hd : d = 0 ∨ d = 1) :
    (homoStep top left m row col).homo d (row - top) (col - left)
      = homoBit m.lab (row - top) (col - left) d 0 + homoBit m.lab (row - top) (col - left) d 1
        + homoBit m.lab (row - top) (col - left) d 2
        + homoBit m.lab (row - top) (col - left) d 3 := by
  have b0 := homoBit_le_one m.lab (row - top) (col - left) d 0
  have b1 := homoBit_le_one m.lab (row - top) (col - left) d 1
  have b2 := homoBit_le_one m.lab (row - top) (col - left) d 2
  have b3 := homoBit_le_one m.lab (row - top) (col - left) d 3
  rcases hd with rfl | rfl <;>
    simp [homoStep, Machine.note, Machine.wrHomo, upd3] <;> omega

/-- The increment depends only on the Lab values of the pixel and its four
neighbours in the two volumes. -/
theorem homoBit_congr (lab lab' : Int → Int → Int → Int → F) (tr tc tr' tc' : Int)
    (h : ∀ d a b k : Int, (d = 0 ∨ d = 1) → -1 ≤ a → a ≤ 1 → -1 ≤ b → b ≤ 1 → 0 ≤ k → k < 3 →
      lab d (tr + a) (tc + b) k = lab' d (tr' + a) (tc' + b) k)
    (d : Int) (hd : d = 0 ∨ d = 1) (i : Nat) :
    homoBit lab tr tc d i = homoBit lab' tr' tc' d i := by
  have hc : ∀ d k : Int, (d = 0 ∨ d = 1) → 0 ≤ k → k < 3 → lab d tr tc k = lab' d tr' tc' k := by
    intro d k hd h0 h3
    have := h d 0 0 k hd (by decide) (by decide) (by decide) (by decide) h0 h3
    simpa using this
  have hdir : ∀ (d : Int) (j : Nat) (k : Int), (d = 0 ∨ d = 1) → 0 ≤ k → k < 3 →
      lab d (tr + (dir j).1) (tc + (dir j).2) k = lab' d (tr' + (dir j).1) (tc' + (dir j).2) k := by
    intro d j k hd h0 h3
    unfold dir
    split <;> exact h d _ _ k hd (by decide) (by decide) (by decide) (by decide) h0 h3
  have hl : ∀ (d : Int) (j : Nat), (d = 0 ∨ d = 1) →
      ldiffOf lab tr tc d j = ldiffOf lab' tr' tc' d j := by
    intro d j hd
    unfold ldiffOf
    rw [hc d 0 hd (by decide) (by decide), hdir d j 0 hd (by decide) (by decide)]
  have ha : ∀ (d : Int) (j : Nat), (d = 0 ∨ d = 1) →
      abdiffOf lab tr tc d j = abdiffOf lab' tr' tc' d j := by
    intro d j hd
    unfold abdiffOf
    rw [hc d 1 hd (by decide) (by decide), hdir d j 1 hd (by decide) (by decide),
      hc d 2 hd (by decide) (by decide), hdir d j 2 hd (by decide) (by decide)]
  unfold homoBit lepsOf abepsOf
  rw [hl d i hd, ha d i hd, hl 0 0 (Or.inl rfl), hl 0 1 (Or.inl rfl), hl 1 2 (Or.inr rfl),
    hl 1 3 (Or.inr rfl), ha 0 0 (Or.inl rfl), ha 0 1 (Or.inl rfl), ha 1 2 (Or.inr rfl),
    ha 1 3 (Or.inr rfl)]

theorem homoRef_le_four (rawData : Int → Int → F) (cfarray : Cfa) (xyzCam : Int → Int → F)
    (cbrt : F → F) (d row col : Int) : homoRef rawData cfarray xyzCam cbrt d row col ≤ 4 := by
  unfold homoRef
  have b0 := homoBit_le_one (labRef rawData cfarray xyzCam cbrt) row col d 0
  have b1 := homoBit_le_one (labRef rawData cfarray xyzCam cbrt) row col d 1
  have b2 := homoBit_le_one (labRef rawData cfarray xyzCam cbrt) row col d 2
  have b3 := homoBit_le_one (labRef rawData cfarray xyzCam cbrt) row col d 3
  omega

/-- After the homogeneity pass every score of its range is between 0 and 4,
whatever the Lab volumes hold. -/
theorem homoPass_le_four (width height : Int) (top left : Int) (m : Machine F) :
    ∀ row ∈ homoRows height top, ∀ col ∈ homoCols width left, ∀ d : Int, (d = 0 ∨ d = 1) →
      (homoPass width height top left m).homo d (row - top) (col - left) ≤ 4 := by
  unfold homoPass
  refine (sweep_writes (homoRows height top) (fun _ => homoCols width left) (homoStep top left)
    (fun _ => True)
    (fun row col s => ∀ d : Int, (d = 0 ∨ d = 1) → s.homo d (row - top) (col - left) ≤ 4)
    (fun _ _ _ _ _ _ => trivial) ?_ ?_ m trivial).2
  · intro s row col _ _ _ d hd
    rw [homoStep_homo_self top left s row col d hd]
    have b0 := homoBit_le_one s.lab (row - top) (col - left) d 0
    have b1 := homoBit_le_one s.lab (row - top) (col - left) d 1
    have b2 := homoBit_le_one s.lab (row - top) (col - left) d 2
    have b3 := homoBit_le_one s.lab (row - top) (col - left) d 3
    omega
  · intro s row col row' col' _ _ _ _ _ hw d hd
    by_cases hcell : row' = row ∧ col' = col
    · obtain ⟨hr, hc⟩ := hcell
      subst hr hc
      rw [homoStep_homo_self top left s row' col' d hd]
      have b0 := homoBit_le_one s.lab (row' - top) (col' - left) d 0
      have b1 := homoBit_le_one s.lab (row' - top) (col' - left) d 1
      have b2 := homoBit_le_one s.lab (row' - top) (col' - left) d 2
      have b3 := homoBit_le_one s.lab (row' - top) (col' - left) d 3
      omega
    · rw [homoStep_homo_other top left s row col d (row' - top) (col' - left) (by omega)]
      exact hw d hd

theorem homoPass_rgb_lab (width height : Int) (top left : Int) (m : Machine F) :
    (homoPass width height top left m).rgb = m.rgb ∧
    (homoPass width height top left m).lab = m.lab := by
  unfold homoPass
  refine sweep_invariant _ _ _ (fun s : Machine F => s.rgb = m.rgb ∧ s.lab = m.lab) ?_ m
    ⟨rfl, rfl⟩
  intro s row col _ _ hs
  rw [homoStep_rgb, homoStep_lab]
  exact hs

/-- After the homogeneity pass the scores are the reference scores. -/
theorem homoPass_done (width height : Int) (rawData : Int → Int → F) (cfarray : Cfa)
    (xyzCam : Int → Int → F) (cbrt : F → F) (top left : Int) (m : Machine F)
    (h0 : RgbLabDone width height rawData cfarray xyzCam cbrt top left 0 m)
    (h1 : RgbLabDone width height rawData cfarray xyzCam cbrt top left 1 m) :
    HomoDone width height rawData cfarray xyzCam cbrt top left
      (homoPass width height top left m) := by
  have hlab : ∀ s : Machine F, s.lab = m.lab → ∀ row col : Int,
      row ∈ homoRows height top → col ∈ homoCols width left →
      ∀ (d : Int), (d = 0 ∨ d = 1) → ∀ i : Nat,
        homoBit s.lab (row - top) (col - left) d i
          = homoBit (labRef rawData cfarray xyzCam cbrt) row col d i := by
    intro s hs row col hrow hcol d hd i
    rw [mem_homoRows] at hrow
    rw [mem_homoCols] at hcol
    refine homoBit_congr _ _ _ _ _ _ ?_ d hd i
    intro d' a b k hd' ha1 ha2 hb1 hb2 hk0 hk3
    rw [hs]
    rcases hd' with rfl | rfl
    · exact (h0 (row + a) (col + b) _ _ k (by ring) (by ring) (by omega) (by omega) (by omega)
        (by omega) (by omega) (by omega) hk0 hk3).2
    · exact (h1 (row + a) (col + b) _ _ k (by ring) (by ring) (by omega) (by omega) (by omega)
        (by omega) (by omega) (by omega) hk0 hk3).2
  have key := sweep_writes (homoRows height top) (fun _ => homoCols width left) (homoStep top left)
    (fun s : Machine F => s.lab = m.lab)
    (fun row col s => ∀ d : Int, (d = 0 ∨ d = 1) →
      s.homo d (row - top) (col - left) = homoRef rawData cfarray xyzCam cbrt d row col)
    ?_ ?_ ?_ m rfl
  · intro d row col tr tc htr htc hd r1 r2 r3 c1 c2 c3
    subst htr htc
    exact key.2 row ((mem_homoRows height top row).mpr ⟨r1, r2, r3⟩) col
      ((mem_homoCols width left col).mpr ⟨c1, c2, c3⟩) d hd
  · intro s row col _ _ hs
    rw [homoStep_lab]
    exact hs
  · intro s row col hrow hcol hs d hd
    rw [homoStep_homo_self top left s row col d hd, hlab s hs row col hrow hcol d hd 0,
      hlab s hs row col hrow hcol d hd 1, hlab s hs row col hrow hcol d hd 2,
      hlab s hs row col hrow hcol d hd 3]
    rfl
  · intro s row col row' col' hrow hcol _ _ hs hw d hd
    by_cases hcell : row' = row ∧ col' = col
    · obtain ⟨hr, hc⟩ := hcell
      subst hr hc
      rw [homoStep_homo_self top left s row' col' d hd, hlab s hs row' col' hrow hcol d hd 0,
        hlab s hs row' col' hrow hcol d hd 1, hlab s hs row' col' hrow hcol d hd 2,
        hlab s hs row' col' hrow hcol d hd 3]
      rfl
    · rw [homoStep_homo_other top left s row col d (row' - top) (col' - left) (by omega)]
      exact hw d hd

/-! ## Pass D: fusion -/

theorem fuseStep_scratch (top left : Int) (m : Machine F) (row col : Int) :
    (fuseStep top left m row col).rgb = m.rgb ∧ (fuseStep top left m row col).lab = m.lab ∧
    (fuseStep top left m row col).homo = m.homo := by
  unfold fuseStep
  by_cases h : hmOf m.homo 0 (row - top) (col - left) = hmOf m.homo 1 (row - top) (col - left) <;>
    simp [h, Machine.note, Machine.wrRed, Machine.wrGreen, Machine.wrBlue]

theorem fuseStep_planes (top left : Int) (m : Machine F) (row col : Int) :
    (fuseStep top left m row col).red
      = upd2 m.red row col (fuseOf m.rgb m.homo (row - top) (col - left) 0) ∧
    (fuseStep top left m row col).green
      = upd2 m.green row col (fuseOf m.rgb m.homo (row - top) (col - left) 1) ∧
    (fuseStep top left m row col).blue
      = upd2 m.blue row col (fuseOf m.rgb m.homo (row - top) (col - left) 2) := by
  unfold fuseStep fuseOf
  by_cases h : hmOf m.homo 0 (row - top) (col - left) = hmOf m.homo 1 (row - top) (col - left) <;>
    simp [h, Machine.note, Machine.wrRed, Machine.wrGreen, Machine.wrBlue]

theorem fusePass_scratch (width height : Int) (top left : Int) (m : Machine F) :
    (fusePass width height top left m).rgb = m.rgb ∧
    (fusePass width height top left m).lab = m.lab ∧
    (fusePass width height top left m).homo = m.homo := by
  unfold fusePass
  refine sweep_invariant _ _ _
    (fun s : Machine F => s.rgb = m.rgb ∧ s.lab = m.lab ∧ s.homo = m.homo) ?_ m ⟨rfl, rfl, rfl⟩
  intro s row col _ _ hs
  obtain ⟨e1, e2, e3⟩ := fuseStep_scratch top left s row col
  rw [e1, e2, e3]
  exact hs

/-- The fusion pass stores, at every pixel of its range, the fused value of the
scratch contents it started from. -/
theorem fusePass_writes (width height : Int) (top left : Int) (m : Machine F) :
    ∀ row ∈ fuseRows height top, ∀ col ∈ fuseCols width left,
      (fusePass width height top left m).red row col
        = fuseOf m.rgb m.homo (row - top) (col - left) 0 ∧
      (fusePass width height top left m).green row col
        = fuseOf m.rgb m.homo (row - top) (col - left) 1 ∧
      (fusePass width height top left m).blue row col
        = fuseOf m.rgb m.homo (row - top) (col - left) 2 := by
  unfold fusePass
  refine (sweep_writes (fuseRows height top) (fun _ => fuseCols width left) (fuseStep top left)
    (fun s : Machine F => s.rgb = m.rgb ∧ s.homo = m.homo)
    (fun row col s => s.red row col = fuseOf m.rgb m.homo (row - top) (col - left) 0 ∧
      s.green row col = fuseOf m.rgb m.homo (row - top) (col - left) 1 ∧
      s.blue row col = fuseOf m.rgb m.homo (row - top) (col - left) 2)
    ?_ ?_ ?_ m ⟨rfl, rfl⟩).2
  · intro s row col _ _ hs
    obtain ⟨e1, _, e3⟩ := fuseStep_scratch top left s row col
    rw [e1, e3]
    exact hs
  · intro s row col _ _ hs
    obtain ⟨e1, e2, e3⟩ := fuseStep_planes top left s row col
    rw [e1, e2, e3, upd2_eq, upd2_eq, upd2_eq, hs.1, hs.2]
    exact ⟨rfl, rfl, rfl⟩
  · intro s row col row' col' _ _ _ _ hs hw
    obtain ⟨e1, e2, e3⟩ := fuseStep_planes top left s row col
    rw [e1, e2, e3]
    by_cases hcell : row' = row ∧ col' = col
    · obtain ⟨hr, hc⟩ := hcell
      subst hr hc
      rw [upd2_eq, upd2_eq, upd2_eq, hs.1, hs.2]
      exact ⟨rfl, rfl, rfl⟩
    · rw [upd2_ne _ _ _ _ _ _ hcell, upd2_ne _ _ _ _ _ _ hcell, upd2_ne _ _ _ _ _ _ hcell]
      exact hw

/-- The fusion pass leaves every pixel outside its range as it was. -/
theorem fusePass_frame (width height : Int) (top left : Int) (m : Machine F) (r c : Int)
    (hout : ¬ (r ∈ fuseRows height top ∧ c ∈ fuseCols width left)) :
    (fusePass width height top left m).red r c = m.red r c ∧
    (fusePass width height top left m).green r c = m.green r c ∧
    (fusePass width height top left m).blue r c = m.blue r c := by
  unfold fusePass
  refine sweep_invariant _ _ _
    (fun s : Machine F => s.red r c = m.red r c ∧ s.green r c = m.green r c ∧
      s.blue r c = m.blue r c) ?_ m ⟨rfl, rfl, rfl⟩
  intro s row col hrow hcol hs
  obtain ⟨e1, e2, e3⟩ := fuseStep_planes top left s row col
  have hne : ¬ (r = row ∧ c = col) := by
    rintro ⟨rfl, rfl⟩
    exact hout ⟨hrow, hcol⟩
  rw [e1, e2, e3, upd2_ne _ _ _ _ _ _ hne, upd2_ne _ _ _ _ _ _ hne, upd2_ne _ _ _ _ _ _ hne]
  exact hs

/-- The `uint16_t` accumulator equals the true sum when the nine scores are at
most 4. -/
theorem hmOf_eq_homoSum (homo : Int → Int → Int → Nat) (d tr tc : Int)
    (h : ∀ ij ∈ hood tr tc, homo d ij.1 ij.2 ≤ 4) : hmOf homo d tr tc = homoSum homo d tr tc := by
  unfold hmOf homoSum
  rw [hood_eq] at h ⊢
  simp only [List.forall_mem_cons, List.not_mem_nil] at h
  obtain ⟨h1, h2, h3, h4, h5, h6, h7, h8, h9, _⟩ := h
  simp only [List.foldl_cons, List.foldl_nil, List.map_cons, List.map_nil, List.sum_cons,
    List.sum_nil]
  omega

end Values

section Fusion

variable {F : Type} [LinearOrderedField F]

/-! ## C2: the fusion rule -/

/-- The nine scores read by the fusion of a pixel of the fusion range were
stored by the homogeneity pass of the same tile and are at most 4. -/
theorem hood_le_four (width height : Int) (top left : Int) (m : Machine F) (row col : Int)
    (hrow : row ∈ fuseRows height top) (hcol : col ∈ fuseCols width left) (d : Int)
    (hd : d = 0 ∨ d = 1) :
    ∀ ij ∈ hood (row - top) (col - left),
      (homoPass width height top left m).homo d ij.1 ij.2 ≤ 4 := by
  rw [mem_fuseRows] at hrow
  rw [mem_fuseCols] at hcol
  have key : ∀ a b : Int, 0 ≤ a → a ≤ 2 → 0 ≤ b → b ≤ 2 →
      (homoPass width height top left m).homo d (row - top - 1 + a) (col - left - 1 + b) ≤ 4 := by
    intro a b ha0 ha2 hb0 hb2
    have h := homoPass_le_four width height top left m (row - 1 + a)
      ((mem_homoRows height top _).mpr ⟨by omega, by omega, by omega⟩) (col - 1 + b)
      ((mem_homoCols width left _).mpr ⟨by omega, by omega, by omega⟩) d hd
    have e1 : row - 1 + a - top = row - top - 1 + a := by ring
    have e2 : col - 1 + b - left = col - left - 1 + b := by ring
    rw [e1, e2] at h
    exact h
  rw [hood_eq]
  simp only [List.forall_mem_cons, List.not_mem_nil]
  have k00 := key 0 0 (by decide) (by decide) (by decide) (by decide)
  have k01 := key 0 1 (by decide) (by decide) (by decide) (by decide)
  have k02 := key 0 2 (by decide) (by decide) (by decide) (by decide)
  have k10 := key 1 0 (by decide) (by decide) (by decide) (by decide)
  have k11 := key 1 1 (by decide) (by decide) (by decide) (by decide)
  have k12 := key 1 2 (by decide) (by decide) (by decide) (by decide)
  have k20 := key 2 0 (by decide) (by decide) (by decide) (by decide)
  have k21 := key 2 1 (by decide) (by decide) (by decide) (by decide)
  have k22 := key 2 2 (by decide) (by decide) (by decide) (by decide)
  simp only [add_zero] at k00 k01 k02 k10 k20
  exact ⟨k00, k01, k02, k10, k11, k12, k20, k21, k22, fun _ h => h.elim⟩

/-- C2: let `s` be the state after the four passes of a tile (from any state
`m`), `(row, col)` a pixel of the tile's fusion range, and `hm0`, `hm1` the
sums of the direction-0 and direction-1 homogeneity scores over the 3x3
neighbourhood of the pixel.  If `hm0 > hm1` the written red, green and blue are
exactly direction 0's RGB triple; if `hm1 > hm0` they are direction 1's; if
`hm0 = hm1` each is `0.5 * (direction-0 value + direction-1 value)`. -/
theorem fusion_picks_more_homogeneous (width height : Int) (rawData : Int → Int → F)
    (cfarray : Cfa) (xyzCam : Int → Int → F) (cbrt : F → F) (top left : Int) (m : Machine F)
    (row col : Int) (hrow : row ∈ fuseRows height top) (hcol : col ∈ fuseCols width left) :
    (homoSum (tilePasses width height rawData cfarray xyzCam cbrt top left m).homo 0
        (row - top) (col - left)
      > homoSum (tilePasses width height rawData cfarray xyzCam cbrt top left m).homo 1
        (row - top) (col - left) →
      (tilePasses width height rawData cfarray xyzCam cbrt top left m).red row col
        = (tilePasses width height rawData cfarray xyzCam cbrt top left m).rgb 0
            (row - top) (col - left) 0 ∧
      (tilePasses width height rawData cfarray xyzCam cbrt top left m).green row col
        = (tilePasses width height rawData cfarray xyzCam cbrt top left m).rgb 0
            (row - top) (col - left) 1 ∧
      (tilePasses width height rawData cfarray xyzCam cbrt top left m).blue row col
        = (tilePasses width height rawData cfarray xyzCam cbrt top left m).rgb 0
            (row - top) (col - left) 2) ∧
    (homoSum (tilePasses width height rawData cfarray xyzCam cbrt top left m).homo 1
        (row - top) (col - left)
      > homoSum (tilePasses width height rawData cfarray xyzCam cbrt top left m).homo 0
        (row - top) (col - left) →
      (tilePasses width height rawData cfarray xyzCam cbrt top left m).red row col
        = (tilePasses width height rawData cfarray xyzCam cbrt top left m).rgb 1
            (row - top) (col - left) 0 ∧
      (tilePasses width height rawData cfarray xyzCam cbrt top left m).green row col
        = (tilePasses width height rawData cfarray xyzCam cbrt top left m).rgb 1
            (row - top) (col - left) 1 ∧
      (tilePasses width height rawData cfarray xyzCam cbrt top left m).blue row col
        = (tilePasses width height rawData cfarray xyzCam cbrt top left m).rgb 1
            (row - top) (col - left) 2) ∧
    (homoSum (tilePasses width height rawData cfarray xyzCam cbrt top left m).homo 0
        (row - top) (col - left)
      = homoSum (tilePasses width height rawData cfarray xyzCam cbrt top left m).homo 1
        (row - top) (col - left) →
      (tilePasses width height rawData cfarray xyzCam cbrt top left m).red row col
        = (1 / 2) * ((tilePasses width height rawData cfarray xyzCam cbrt top left m).rgb 0
            (row - top) (col - left) 0
          + (tilePasses width height rawData cfarray xyzCam cbrt top left m).rgb 1
            (row - top) (col - left) 0) ∧
      (tilePasses width height rawData cfarray xyzCam cbrt top left m).green row col
        = (1 / 2) * ((tilePasses width height rawData cfarray xyzCam cbrt top left m).rgb 0
            (row - top) (col - left) 1
          + (tilePasses width height rawData cfarray xyzCam cbrt top left m).rgb 1
            (row - top) (col - left) 1) ∧
      (tilePasses width height rawData cfarray xyzCam cbrt top left m).blue row col
        = (1 / 2) * ((tilePasses width height rawData cfarray xyzCam cbrt top left m).rgb 0
            (row - top) (col - left) 2
          + (tilePasses width height rawData cfarray xyzCam cbrt top left m).rgb 1
            (row - top) (col - left) 2)) := by
  unfold tilePasses
  generalize redBluePass width height rawData cfarray xyzCam cbrt top left
    (greenPass width height rawData cfarray top left m) = s2
  obtain ⟨e1, _, e3⟩ := fusePass_scratch width height top left (homoPass width height top left s2)
  obtain ⟨wr, wg, wb⟩ := fusePass_writes width height top left (homoPass width height top left s2)
    row hrow col hcol
  have hs0 := hmOf_eq_homoSum _ 0 _ _
    (hood_le_four width height top left s2 row col hrow hcol 0 (Or.inl rfl))
  have hs1 := hmOf_eq_homoSum _ 1 _ _
    (hood_le_four width height top left s2 row col hrow hcol 1 (Or.inr rfl))
  rw [e1, e3, wr, wg, wb]
  unfold fuseOf
  rw [hs0, hs1]
  refine ⟨?_, ?_, ?_⟩
  · intro h
    have hne : homoSum (homoPass width height top left s2).homo 0 (row - top) (col - left)
        ≠ homoSum (homoPass width height top left s2).homo 1 (row - top) (col - left) := by omega
    have hgt : ¬ (homoSum (homoPass width height top left s2).homo 1 (row - top) (col - left)
        > homoSum (homoPass width height top left s2).homo 0 (row - top) (col - left)) := by omega
    refine ⟨?_, ?_, ?_⟩ <;> simp only [if_pos hne, if_neg hgt]
  · intro h
    have hne : homoSum (homoPass width height top left s2).homo 0 (row - top) (col - left)
        ≠ homoSum (homoPass width height top left s2).homo 1 (row - top) (col - left) := by omega
    refine ⟨?_, ?_, ?_⟩ <;> simp only [if_pos hne, if_pos h]
  · intro h
    have hne : ¬ (homoSum (homoPass width height top left s2).homo 0 (row - top) (col - left)
        ≠ homoSum (homoPass width height top left s2).homo 1 (row - top) (col - left)) :=
      fun hc => hc h
    refine ⟨?_, ?_, ?_⟩ <;> simp only [if_neg hne]

end Fusion

/-- Instance of C4: the write to the red plane at pixel (5, 5) of an 11 x 11 image is made by the run and is in bounds. -/
theorem all_accesses_in_bounds_witness :
    Access.planeWrite 0 5 5 ∈ (ahd_demosaic demoBorder demoCbrt true 11 11 demoRaw
      (Machine.initial (fun _ _ => 0) (fun _ _ => 0) (fun _ _ => 0) (fun _ _ _ _ => 0)
        (fun _ _ _ _ => 0) (fun _ _ _ => 0)) demoCfa demoCam).2.log ∧
    (Access.planeWrite 0 5 5).inBounds 11 11 := by
  have hmem : Access.planeWrite 0 5 5 ∈ (ahd_demosaic demoBorder demoCbrt true 11 11 demoRaw
      (Machine.initial (fun _ _ => 0) (fun _ _ => 0) (fun _ _ => 0) (fun _ _ _ _ => 0)
        (fun _ _ _ _ => 0) (fun _ _ _ => 0)) demoCfa demoCam).2.log := by
    unfold ahd_demosaic
    rw [ahd_run_ran_log demoBorder demoCbrt _ 11 11 demoRaw _ demoCfa demoCam (by decide) rfl]
    have hc := runTiles_planeCount 11 11 demoRaw demoCfa (xyz_cam demoCam) demoCbrt
      (loopEntry demoBorder 11 11 demoRaw
        (Machine.initial (fun _ _ => 0) (fun _ _ => 0) (fun _ _ => 0) (fun _ _ _ _ => 0)
          (fun _ _ _ _ => 0) (fun _ _ _ => 0)) demoCfa) 0 5 5
    have hpos : 0 < (runTiles 11 11 demoRaw demoCfa (xyz_cam demoCam) demoCbrt (tileList 11 11)
        (loopEntry demoBorder 11 11 demoRaw
          (Machine.initial (fun _ _ => 0) (fun _ _ => 0) (fun _ _ => 0) (fun _ _ _ _ => 0)
            (fun _ _ _ _ => 0) (fun _ _ _ => 0)) demoCfa)).log.count (Access.planeWrite 0 5 5) := by
      have h1 : (if (5 : Int) ≤ 5 ∧ (5 : Int) < 11 - 5 ∧ (5 : Int) ≤ 5 ∧ (5 : Int) < 11 - 5
          then 1 else 0) = 1 := by decide
      rw [h1] at hc
      have h2 : ((0 : Fin 3) : Nat) = 0 := rfl
      rw [h2] at hc
      omega
    exact List.count_pos_iff.mp hpos
  exact ⟨hmem, all_accesses_in_bounds demoBorder demoCbrt true 11 11 demoRaw (fun _ _ => 0)
    (fun _ _ => 0) (fun _ _ => 0) (fun _ _ _ _ => 0) (fun _ _ _ _ => 0) (fun _ _ _ => 0)
    demoCfa demoCam _ hmem⟩

/-- Instance of C2: pixel (7, 6) of the single tile of a 14 x 13 image, the case of equal sums. -/
theorem fusion_picks_more_homogeneous_witness :
    (7 : Int) ∈ fuseRows 13 2 ∧ (6 : Int) ∈ fuseCols 14 2 ∧
    (homoSum (tilePasses 14 13 demoRaw demoCfa (xyz_cam demoCam) demoCbrt 2 2 demoMachine).homo 0
        (7 - 2) (6 - 2)
      = homoSum (tilePasses 14 13 demoRaw demoCfa (xyz_cam demoCam) demoCbrt 2 2 demoMachine).homo
        1 (7 - 2) (6 - 2) →
      (tilePasses 14 13 demoRaw demoCfa (xyz_cam demoCam) demoCbrt 2 2 demoMachine).red 7 6
        = (1 / 2) * ((tilePasses 14 13 demoRaw demoCfa (xyz_cam demoCam) demoCbrt 2 2
            demoMachine).rgb 0 (7 - 2) (6 - 2) 0
          + (tilePasses 14 13 demoRaw demoCfa (xyz_cam demoCam) demoCbrt 2 2 demoMachine).rgb 1
            (7 - 2) (6 - 2) 0) ∧
      (tilePasses 14 13 demoRaw demoCfa (xyz_cam demoCam) demoCbrt 2 2 demoMachine).green 7 6
        = (1 / 2) * ((tilePasses 14 13 demoRaw demoCfa (xyz_cam demoCam) demoCbrt 2 2
            demoMachine).rgb 0 (7 - 2) (6 - 2) 1
          + (tilePasses 14 13 demoRaw demoCfa (xyz_cam demoCam) demoCbrt 2 2 demoMachine).rgb 1
            (7 - 2) (6 - 2) 1) ∧
      (tilePasses 14 13 demoRaw demoCfa (xyz_cam demoCam) demoCbrt 2 2 demoMachine).blue 7 6
        = (1 / 2) * ((tilePasses 14 13 demoRaw demoCfa (xyz_cam demoCam) demoCbrt 2 2
            demoMachine).rgb 0 (7 - 2) (6 - 2) 2
          + (tilePasses 14 13 demoRaw demoCfa (xyz_cam demoCam) demoCbrt 2 2 demoMachine).rgb 1
            (7 - 2) (6 - 2) 2)) :=
  ⟨by decide, by decide,
   (fusion_picks_more_homogeneous 14 13 demoRaw demoCfa (xyz_cam demoCam) demoCbrt 2 2 demoMachine
      7 6 (by decide) (by decide)).2.2⟩

section Determinism

variable {F : Type} [LinearOrderedField F]

/-! ## The output planes as a function of the inputs -/

theorem samePlanes_refl {F : Type} (m : Machine F) : SamePlanes m m := ⟨rfl, rfl, rfl⟩

theorem samePlanes_trans {F : Type} {a b c : Machine F} (h1 : SamePlanes a b)
    (h2 : SamePlanes b c) : SamePlanes a c :=
  ⟨h2.1.trans h1.1, h2.2.1.trans h1.2.1, h2.2.2.trans h1.2.2⟩

theorem greenStep_samePlanes (rawData : Int → Int → F) (top left : Int) (m : Machine F)
    (row col : Int) : SamePlanes m (greenStep rawData top left m row col) :=
  ⟨rfl, rfl, rfl⟩

theorem redBlueStep_samePlanes (rawData : Int → Int → F) (cfarray : Cfa)
    (xyzCam : Int → Int → F) (cbrt : F → F) (top left d : Int) (m : Machine F) (row col : Int) :
    SamePlanes m (redBlueStep rawData cfarray xyzCam cbrt top left d m row col) := by
  unfold redBlueStep SamePlanes
  by_cases h : fc cfarray row col = 1 <;> simp [h, Machine.note, Machine.wrRgb, Machine.wrLab]

theorem homoStep_samePlanes (top left : Int) (m : Machine F) (row col : Int) :
    SamePlanes m (homoStep top left m row col) := by
  simp [SamePlanes, homoStep, Machine.note, Machine.wrHomo]

/-- The first three passes do not touch the output planes. -/
theorem scratchPasses_samePlanes (width height : Int) (rawData : Int → Int → F) (cfarray : Cfa)
    (xyzCam : Int → Int → F) (cbrt : F → F) (top left : Int) (m : Machine F) :
    SamePlanes m (homoPass width height top left
      (redBluePass width height rawData cfarray xyzCam cbrt top left
        (greenPass width height rawData cfarray top left m))) := by
  have hA : SamePlanes m (greenPass width height rawData cfarray top left m) :=
    sweep_invariant _ _ _ (SamePlanes m)
      (fun s row col _ _ hs => samePlanes_trans hs (greenStep_samePlanes rawData top left s row col)) m
      (samePlanes_refl m)
  have hB : ∀ s : Machine F, SamePlanes s
      (redBluePass width height rawData cfarray xyzCam cbrt top left s) := fun s =>
    foldl_invariant _ (SamePlanes s) _
      (fun s1 d _ h1 => sweep_invariant _ _ _ (SamePlanes s)
        (fun s2 row col _ _ h2 =>
          samePlanes_trans h2 (redBlueStep_samePlanes rawData cfarray xyzCam cbrt top left d s2 row col))
        s1 h1) s (samePlanes_refl s)
  have hC : ∀ s : Machine F, SamePlanes s (homoPass width height top left s) := fun s =>
    sweep_invariant _ _ _ (SamePlanes s)
      (fun s1 row col _ _ hs => samePlanes_trans hs (homoStep_samePlanes top left s1 row col)) s
      (samePlanes_refl s)
  exact samePlanes_trans (samePlanes_trans hA (hB _)) (hC _)

theorem progressStep_planes (width height : Int) (m : Machine F) :
    SamePlanes m (progressStep width height m) := by
  simp only [progressStep, SamePlanes]
  split <;> exact ⟨rfl, rfl, rfl⟩

/-- The fused value depends only on the nine scores around the cell and on the
two RGB triples of the cell. -/
theorem fuseOf_congr (rgb rgb' : Int → Int → Int → Int → F) (homo homo' : Int → Int → Int → Nat)
    (tr tc tr' tc' c : Int)
    (hh : ∀ d a b : Int, (d = 0 ∨ d = 1) → 0 ≤ a → a ≤ 2 → 0 ≤ b → b ≤ 2 →
      homo d (tr - 1 + a) (tc - 1 + b) = homo' d (tr' - 1 + a) (tc' - 1 + b))
    (hr : ∀ d : Int, (d = 0 ∨ d = 1) → rgb d tr tc c = rgb' d tr' tc' c) :
    fuseOf rgb homo tr tc c = fuseOf rgb' homo' tr' tc' c := by
  have hm : ∀ d : Int, (d = 0 ∨ d = 1) → hmOf homo d tr tc = hmOf homo' d tr' tc' := by
    intro d hd
    unfold hmOf
    rw [hood_eq, hood_eq]
    have k00 := hh d 0 0 hd (by decide) (by decide) (by decide) (by decide)
    have k01 := hh d 0 1 hd (by decide) (by decide) (by decide) (by decide)
    have k02 := hh d 0 2 hd (by decide) (by decide) (by decide) (by decide)
    have k10 := hh d 1 0 hd (by decide) (by decide) (by decide) (by decide)
    have k11 := hh d 1 1 hd (by decide) (by decide) (by decide) (by decide)
    have k12 := hh d 1 2 hd (by decide) (by decide) (by decide) (by decide)
    have k20 := hh d 2 0 hd (by decide) (by decide) (by decide) (by decide)
    have k21 := hh d 2 1 hd (by decide) (by decide) (by decide) (by decide)
    have k22 := hh d 2 2 hd (by decide) (by decide) (by decide) (by decide)
    simp only [add_zero] at k00 k01 k02 k10 k20
    simp only [List.foldl_cons, List.foldl_nil, k00, k01, k02, k10, k11, k12, k20, k21, k22]
  unfold fuseOf
  rw [hm 0 (Or.inl rfl), hm 1 (Or.inr rfl), hr 0 (Or.inl rfl), hr 1 (Or.inr rfl)]
  split
  · split
    · exact hr 1 (Or.inr rfl)
    · exact hr 0 (Or.inl rfl)
  · rfl

/-- The output planes after the four passes of a tile: the reference value at
every pixel of the tile's fusion range, the old value elsewhere, whatever the
scratch buffer held at the start of the tile. -/
theorem tilePasses_planes (width height : Int) (rawData : Int → Int → F) (cfarray : Cfa)
    (hv : validateBayerCfa cfarray = true) (xyzCam : Int → Int → F) (cbrt : F → F)
    (top left : Int) (m : Machine F) (row col : Int) :
    (tilePasses width height rawData cfarray xyzCam cbrt top left m).red row col
      = (if row ∈ fuseRows height top ∧ col ∈ fuseCols width left
          then fusedRef rawData cfarray xyzCam cbrt row col 0 else m.red row col) ∧
    (tilePasses width height rawData cfarray xyzCam cbrt top left m).green row col
      = (if row ∈ fuseRows height top ∧ col ∈ fuseCols width left
          then fusedRef rawData cfarray xyzCam cbrt row col 1 else m.green row col) ∧
    (tilePasses width height rawData cfarray xyzCam cbrt top left m).blue row col
      = (if row ∈ fuseRows height top ∧ col ∈ fuseCols width left
          then fusedRef rawData cfarray xyzCam cbrt row col 2 else m.blue row col) := by
  have hG := greenPass_greenDone width height rawData cfarray hv top left m
  obtain ⟨hR0, hR1⟩ := redBluePass_done width height rawData cfarray hv xyzCam cbrt top left _ hG
  obtain ⟨p1, p2, p3⟩ := scratchPasses_samePlanes width height rawData cfarray xyzCam cbrt
    top left m
  unfold tilePasses
  generalize redBluePass width height rawData cfarray xyzCam cbrt top left
    (greenPass width height rawData cfarray top left m) = s2 at hR0 hR1 p1 p2 p3
  have hH := homoPass_done width height rawData cfarray xyzCam cbrt top left s2 hR0 hR1
  obtain ⟨q1, q2⟩ := homoPass_rgb_lab width height top left s2
  generalize homoPass width height top left s2 = s3 at hH q1 q2 p1 p2 p3
  by_cases hin : row ∈ fuseRows height top ∧ col ∈ fuseCols width left
  · obtain ⟨wr, wg, wb⟩ := fusePass_writes width height top left s3 row hin.1 col hin.2
    have hrow := (mem_fuseRows height top row).mp hin.1
    have hcol := (mem_fuseCols width left col).mp hin.2
    have hfuse : ∀ c : Int, 0 ≤ c → c < 3 →
        fuseOf s3.rgb s3.homo (row - top) (col - left) c
          = fusedRef rawData cfarray xyzCam cbrt row col c := by
      intro c hc0 hc3
      unfold fusedRef
      refine fuseOf_congr _ _ _ _ _ _ _ _ c ?_ ?_
      · intro d a b hd ha0 ha2 hb0 hb2
        have e1 : row - top - 1 + a = (row - 1 + a) - top := by ring
        have e2 : col - left - 1 + b = (col - 1 + b) - left := by ring
        exact hH d (row - 1 + a) (col - 1 + b) _ _ e1 e2 hd (by omega) (by omega) (by omega)
          (by omega) (by omega) (by omega)
      · intro d hd
        rw [q1]
        rcases hd with rfl | rfl
        · exact (hR0 row col _ _ c rfl rfl (by omega) (by omega) (by omega) (by omega)
            (by omega) (by omega) hc0 hc3).1
        · exact (hR1 row col _ _ c rfl rfl (by omega) (by omega) (by omega) (by omega)
            (by omega) (by omega) hc0 hc3).1
    rw [if_pos hin, if_pos hin, if_pos hin, wr, wg, wb]
    exact ⟨hfuse 0 (by decide) (by decide), hfuse 1 (by decide) (by decide),
      hfuse 2 (by decide) (by decide)⟩
  · obtain ⟨f1, f2, f3⟩ := fusePass_frame width height top left s3 row col hin
    rw [if_neg hin, if_neg hin, if_neg hin, f1, f2, f3, p1, p2, p3]
    exact ⟨rfl, rfl, rfl⟩

/-- The output planes after the tile loop over any list of tiles: the
reference value at every pixel that lies in the fusion range of one of the
tiles, the old value elsewhere. -/
theorem runTiles_planes (width height : Int) (rawData : Int → Int → F) (cfarray : Cfa)
    (hv : validateBayerCfa cfarray = true) (xyzCam : Int → Int → F) (cbrt : F → F)
    (order : List (Int × Int)) (row col : Int) : ∀ m : Machine F,
    (runTiles width height rawData cfarray xyzCam cbrt order m).red row col
      = (if ∃ t ∈ order, row ∈ fuseRows height t.1 ∧ col ∈ fuseCols width t.2
          then fusedRef rawData cfarray xyzCam cbrt row col 0 else m.red row col) ∧
    (runTiles width height rawData cfarray xyzCam cbrt order m).green row col
      = (if ∃ t ∈ order, row ∈ fuseRows height t.1 ∧ col ∈ fuseCols width t.2
          then fusedRef rawData cfarray xyzCam cbrt row col 1 else m.green row col) ∧
    (runTiles width height rawData cfarray xyzCam cbrt order m).blue row col
      = (if ∃ t ∈ order, row ∈ fuseRows height t.1 ∧ col ∈ fuseCols width t.2
          then fusedRef rawData cfarray xyzCam cbrt row col 2 else m.blue row col) := by
  induction order with
  | nil => intro m; simp [runTiles]
  | cons t rest ih =>
    intro m
    have hrun : runTiles width height rawData cfarray xyzCam cbrt (t :: rest) m
        = runTiles width height rawData cfarray xyzCam cbrt rest
            (tileStep width height rawData cfarray xyzCam cbrt m t) := rfl
    rw [hrun]
    obtain ⟨i1, i2, i3⟩ := ih (tileStep width height rawData cfarray xyzCam cbrt m t)
    obtain ⟨s1, s2, s3⟩ := progressStep_planes width height
      (tilePasses width height rawData cfarray xyzCam cbrt t.1 t.2 m)
    obtain ⟨t1, t2, t3⟩ := tilePasses_planes width height rawData cfarray hv xyzCam cbrt
      t.1 t.2 m row col
    have e1 : (tileStep width height rawData cfarray xyzCam cbrt m t).red row col
        = (tilePasses width height rawData cfarray xyzCam cbrt t.1 t.2 m).red row col := by
      unfold tileStep; rw [s1]
    have e2 : (tileStep width height rawData cfarray xyzCam cbrt m t).green row col
        = (tilePasses width height rawData cfarray xyzCam cbrt t.1 t.2 m).green row col := by
      unfold tileStep; rw [s2]
    have e3 : (tileStep width height rawData cfarray xyzCam cbrt m t).blue row col
        = (tilePasses width height rawData cfarray xyzCam cbrt t.1 t.2 m).blue row col := by
      unfold tileStep; rw [s3]
    rw [i1, i2, i3, e1, e2, e3, t1, t2, t3]
    simp only [List.exists_mem_cons_iff]
    by_cases h1 : ∃ t' ∈ rest, row ∈ fuseRows height t'.1 ∧ col ∈ fuseCols width t'.2 <;>
      by_cases h2 : row ∈ fuseRows height t.1 ∧ col ∈ fuseCols width t.2 <;>
      simp [h1, h2]

end Determinism

/-! ## Every scratch read follows a write of the same tile -/

theorem readsDefinedFrom_append (l L : List Access) : ∀ seen : List Access,
    readsDefinedFrom seen (l ++ L)
      = (readsDefinedFrom seen l && readsDefinedFrom (l.reverse ++ seen) L) := by
  induction l with
  | nil => intro seen; simp [readsDefinedFrom]
  | cons a t ih =>
    intro seen
    have e : (a :: t).reverse ++ seen = t.reverse ++ a :: seen := by simp
    rw [List.cons_append, e]
    simp only [readsDefinedFrom]
    rw [ih (a :: seen), Bool.and_assoc]

theorem readsDefinedFrom_mono (L : List Access) : ∀ seen seen' : List Access,
    (∀ a ∈ seen, a ∈ seen') → readsDefinedFrom seen L = true → readsDefinedFrom seen' L = true := by
  induction L with
  | nil => intro _ _ _ _; rfl
  | cons a t ih =>
    intro seen seen' hsub h
    simp only [readsDefinedFrom, Bool.and_eq_true] at h ⊢
    refine ⟨?_, ih (a :: seen) (a :: seen') ?_ h.2⟩
    · cases hsrc : a.source with
      | none => rfl
      | some w =>
        have h1 := h.1
        rw [hsrc] at h1
        simp only [decide_eq_true_eq] at h1 ⊢
        exact hsub w h1
    · intro x hx
      rcases List.mem_cons.mp hx with rfl | hx
      · exact List.mem_cons_self _ _
      · exact List.mem_cons_of_mem _ (hsub x hx)

/-- Appending the accesses of one statement keeps the log well-formed when
they are well-formed on top of any history that contains the log so far. -/
theorem readsDefinedFrom_step (l L : List Access) (hl : readsDefinedFrom [] l = true)
    (hL : ∀ seen : List Access, (∀ a ∈ l, a ∈ seen) → readsDefinedFrom seen L = true) :
    readsDefinedFrom [] (l ++ L) = true := by
  rw [readsDefinedFrom_append, hl, Bool.true_and]
  exact hL _ (fun a ha => List.mem_append_left _ (List.mem_reverse.mpr ha))

/-- A list of accesses is well-formed on top of a history that already holds
the write every one of its reads depends on. -/
theorem readsDefinedFrom_of_sources (L : List Access) : ∀ seen : List Access,
    (∀ a ∈ L, ∀ w, a.source = some w → w ∈ seen) → readsDefinedFrom seen L = true := by
  induction L with
  | nil => intro _ _; rfl
  | cons a t ih =>
    intro seen h
    simp only [readsDefinedFrom, Bool.and_eq_true]
    refine ⟨?_, ih (a :: seen) (fun b hb w hw =>
      List.mem_cons_of_mem _ (h b (List.mem_cons_of_mem _ hb) w hw))⟩
    cases hsrc : a.source with
    | none => rfl
    | some w =>
      simp only [decide_eq_true_eq]
      exact h a (List.mem_cons_self _ _) w hsrc

theorem greenLogged_mono {F : Type} {width height : Int} {cfarray : Cfa} {top left : Int}
    {m s : Machine F} (h : GreenLogged width height cfarray top left m)
    (hsub : ∀ a ∈ m.log, a ∈ s.log) : GreenLogged width height cfarray top left s :=
  fun d row col tr tc htr htc hd h1 h2 h3 h4 h5 h6 hng =>
    hsub _ (h d row col tr tc htr htc hd h1 h2 h3 h4 h5 h6 hng)

theorem rgbLabLogged_mono {F : Type} {width height : Int} {top left d : Int}
    {m s : Machine F} (h : RgbLabLogged width height top left d m)
    (hsub : ∀ a ∈ m.log, a ∈ s.log) : RgbLabLogged width height top left d s :=
  fun row col tr tc c htr htc h1 h2 h3 h4 h5 h6 hc0 hc3 =>
    ⟨hsub _ (h row col tr tc c htr htc h1 h2 h3 h4 h5 h6 hc0 hc3).1,
     hsub _ (h row col tr tc c htr htc h1 h2 h3 h4 h5 h6 hc0 hc3).2⟩

theorem homoLogged_mono {F : Type} {width height : Int} {top left : Int}
    {m s : Machine F} (h : HomoLogged width height top left m)
    (hsub : ∀ a ∈ m.log, a ∈ s.log) : HomoLogged width height top left s :=
  fun d row col tr tc htr htc hd h1 h2 h3 h4 h5 h6 =>
    hsub _ (h d row col tr tc htr htc hd h1 h2 h3 h4 h5 h6)

section ReadsDefined

variable {F : Type} [LinearOrderedField F]

theorem greenStep_log_sub (rawData : Int → Int → F) (top left : Int) (m : Machine F)
    (row col : Int) : ∀ a ∈ m.log, a ∈ (greenStep rawData top left m row col).log := by
  intro a ha
  rw [greenStep_log]
  exact List.mem_append_left _ ha

theorem redBlueStep_log_sub (rawData : Int → Int → F) (cfarray : Cfa) (xyzCam : Int → Int → F)
    (cbrt : F → F) (top left d : Int) (m : Machine F) (row col : Int) :
    ∀ a ∈ m.log, a ∈ (redBlueStep rawData cfarray xyzCam cbrt top left d m row col).log := by
  intro a ha
  rw [redBlueStep_log]
  exact List.mem_append_left _ ha

theorem homoStep_log_sub (top left : Int) (m : Machine F) (row col : Int) :
    ∀ a ∈ m.log, a ∈ (homoStep top left m row col).log := by
  intro a ha
  rw [homoStep_log]
  exact List.mem_append_left _ ha

theorem fuseStep_log_sub (top left : Int) (m : Machine F) (row col : Int) :
    ∀ a ∈ m.log, a ∈ (fuseStep top left m row col).log := by
  intro a ha
  rw [fuseStep_log]
  exact List.mem_append_left _ ha

/-! ### Pass A -/

theorem greenPass_logged (width height : Int) (rawData : Int → Int → F) (cfarray : Cfa)
    (hv : validateBayerCfa cfarray = true) (top left : Int) (m : Machine F)
    (hm : readsDefinedFrom [] m.log = true) :
    readsDefinedFrom [] (greenPass width height rawData cfarray top left m).log = true ∧
    GreenLogged width height cfarray top left
      (greenPass width height rawData cfarray top left m) := by
  unfold greenPass
  have key := sweep_writes (greenRows height top) (greenCols width cfarray left)
    (greenStep rawData top left)
    (fun s : Machine F => readsDefinedFrom [] s.log = true)
    (fun row col s => Access.rgbWrite 0 (row - top) (col - left) 1 ∈ s.log ∧
      Access.rgbWrite 1 (row - top) (col - left) 1 ∈ s.log) ?_ ?_ ?_ m hm
  · refine ⟨key.1, ?_⟩
    intro d row col tr tc htr htc hd h1 h2 h3 h4 h5 h6 hng
    subst htr htc
    have h := key.2 row ((mem_greenRows height top row).mpr ⟨h1, h2, h3⟩) col
      (nongreen_mem_greenCols width cfarray hv left row col hng h4 h5 h6)
    rcases hd with rfl | rfl
    · exact h.1
    · exact h.2
  · intro s row col _ _ hs
    rw [greenStep_log]
    refine readsDefinedFrom_step _ _ hs (fun seen _ => ?_)
    simp [readsDefinedFrom, Access.source]
  · intro s row col _ _ _
    rw [greenStep_log]
    simp
  · intro s row col row' col' _ _ _ _ _ hw
    exact ⟨greenStep_log_sub rawData top left s row col _ hw.1,
      greenStep_log_sub rawData top left s row col _ hw.2⟩

/-! ### Pass B -/

theorem redBlueStep_readsDefined (width height : Int) (rawData : Int → Int → F) (cfarray : Cfa)
    (hv : validateBayerCfa cfarray = true) (xyzCam : Int → Int → F) (cbrt : F → F)
    (top left d : Int) (m : Machine F) (row col : Int) (hd : d = 0 ∨ d = 1)
    (hK : readsDefinedFrom [] m.log = true)
    (hG : GreenLogged width height cfarray top left m)
    (h1 : top + 1 ≤ row) (h2 : row < top + 143) (h3 : row < height - 3)
    (h4 : left + 1 ≤ col) (h5 : col < left + 143) (h6 : col < width - 3) :
    readsDefinedFrom []
      (redBlueStep rawData cfarray xyzCam cbrt top left d m row col).log = true ∧
    ∀ c : Int, 0 ≤ c → c < 3 →
      Access.rgbWrite d (row - top) (col - left) c
        ∈ (redBlueStep rawData cfarray xyzCam cbrt top left d m row col).log ∧
      Access.labWrite d (row - top) (col - left) c
        ∈ (redBlueStep rawData cfarray xyzCam cbrt top left d m row col).log := by
  obtain ⟨g, hg, hfc⟩ := fc_valid cfarray hv
  have hcng := cngOf_valid cfarray hv row
  rw [redBlueStep_log]
  by_cases hgr : fc cfarray row col = 1
  · have hp : (row + col) % 2 = g := (hfc row col).1.mp hgr
    have eL : Access.rgbWrite d (row - top) (col - left - 1) 1 ∈ m.log :=
      hG d row (col - 1) _ _ rfl (by ring) hd (by omega) (by omega) (by omega) (by omega)
        (by omega) (by omega) (fun h => by have := (hfc row (col - 1)).1.mp h; omega)
    have eR : Access.rgbWrite d (row - top) (col - left + 1) 1 ∈ m.log :=
      hG d row (col + 1) _ _ rfl (by ring) hd (by omega) (by omega) (by omega) (by omega)
        (by omega) (by omega) (fun h => by have := (hfc row (col + 1)).1.mp h; omega)
    have eU : Access.rgbWrite d (row - top - 1) (col - left) 1 ∈ m.log :=
      hG d (row - 1) col _ _ (by ring) rfl hd (by omega) (by omega) (by omega) (by omega)
        (by omega) (by omega) (fun h => by have := (hfc (row - 1) col).1.mp h; omega)
    have eD : Access.rgbWrite d (row - top + 1) (col - left) 1 ∈ m.log :=
      hG d (row + 1) col _ _ (by ring) rfl hd (by omega) (by omega) (by omega) (by omega)
        (by omega) (by omega) (fun h => by have := (hfc (row + 1) col).1.mp h; omega)
    constructor
    · refine readsDefinedFrom_step _ _ hK (fun seen hsub => ?_)
      have sL := hsub _ eL
      have sR := hsub _ eR
      have sU := hsub _ eU
      have sD := hsub _ eD
      rcases hcng with hk | hk <;>
        simp [hgr, hk, readsDefinedFrom, Access.source, sL, sR, sU, sD]
    · intro c hc0 hc3
      have hcases : c = 0 ∨ c = 1 ∨ c = 2 := by omega
      rcases hcng with hk | hk <;> rcases hcases with rfl | rfl | rfl <;> simp [hgr, hk]
  · have hp : ¬ (row + col) % 2 = g := fun h => hgr ((hfc row col).1.mpr h)
    have e0 : Access.rgbWrite d (row - top) (col - left) 1 ∈ m.log :=
      hG d row col _ _ rfl rfl hd (by omega) (by omega) (by omega) (by omega)
        (by omega) (by omega) hgr
    have e1 : Access.rgbWrite d (row - top - 1) (col - left - 1) 1 ∈ m.log :=
      hG d (row - 1) (col - 1) _ _ (by ring) (by ring) hd (by omega) (by omega) (by omega)
        (by omega) (by omega) (by omega)
        (fun h => by have := (hfc (row - 1) (col - 1)).1.mp h; omega)
    have e2 : Access.rgbWrite d (row - top - 1) (col - left + 1) 1 ∈ m.log :=
      hG d (row - 1) (col + 1) _ _ (by ring) (by ring) hd (by omega) (by omega) (by omega)
        (by omega) (by omega) (by omega)
        (fun h => by have := (hfc (row - 1) (col + 1)).1.mp h; omega)
    have e3 : Access.rgbWrite d (row - top + 1) (col - left - 1) 1 ∈ m.log :=
      hG d (row + 1) (col - 1) _ _ (by ring) (by ring) hd (by omega) (by omega) (by omega)
        (by omega) (by omega) (by omega)
        (fun h => by have := (hfc (row + 1) (col - 1)).1.mp h; omega)
    have e4 : Access.rgbWrite d (row - top + 1) (col - left + 1) 1 ∈ m.log :=
      hG d (row + 1) (col + 1) _ _ (by ring) (by ring) hd (by omega) (by omega) (by omega)
        (by omega) (by omega) (by omega)
        (fun h => by have := (hfc (row + 1) (col + 1)).1.mp h; omega)
    constructor
    · refine readsDefinedFrom_step _ _ hK (fun seen hsub => ?_)
      have s0 := hsub _ e0
      have s1 := hsub _ e1
      have s2 := hsub _ e2
      have s3 := hsub _ e3
      have s4 := hsub _ e4
      rcases hcng with hk | hk <;>
        simp [hgr, hk, readsDefinedFrom, Access.source, s0, s1, s2, s3, s4]
    · intro c hc0 hc3
      have hcases : c = 0 ∨ c = 1 ∨ c = 2 := by omega
      rcases hcng with hk | hk <;> rcases hcases with rfl | rfl | rfl <;> simp [hgr, hk, e0]

/-- One direction of the red/blue pass keeps the log well-formed, logs the
writes of that direction and keeps everything logged before. -/
theorem redBlueSweep_logged (width height : Int) (rawData : Int → Int → F) (cfarray : Cfa)
    (hv : validateBayerCfa cfarray = true) (xyzCam : Int → Int → F) (cbrt : F → F)
    (top left d : Int) (hd : d = 0 ∨ d = 1) (m : Machine F)
    (hK : readsDefinedFrom [] m.log = true)
    (hG : GreenLogged width height cfarray top left m) :
    readsDefinedFrom [] (sweep (redBlueRows height top) (fun _ => redBlueCols width left)
        (redBlueStep rawData cfarray xyzCam cbrt top left d) m).log = true ∧
    (∀ a ∈ m.log, a ∈ (sweep (redBlueRows height top) (fun _ => redBlueCols width left)
        (redBlueStep rawData cfarray xyzCam cbrt top left d) m).log) ∧
    RgbLabLogged width height top left d
      (sweep (redBlueRows height top) (fun _ => redBlueCols width left)
        (redBlueStep rawData cfarray xyzCam cbrt top left d) m) := by
  have key := sweep_writes (redBlueRows height top) (fun _ => redBlueCols width left)
    (redBlueStep rawData cfarray xyzCam cbrt top left d)
    (fun s : Machine F => readsDefinedFrom [] s.log = true ∧ (∀ a ∈ m.log, a ∈ s.log))
    (fun row col s => ∀ c : Int, 0 ≤ c → c < 3 →
      Access.rgbWrite d (row - top) (col - left) c ∈ s.log ∧
      Access.labWrite d (row - top) (col - left) c ∈ s.log)
    ?_ ?_ ?_ m ⟨hK, fun _ h => h⟩
  · refine ⟨key.1.1, key.1.2, ?_⟩
    intro row col tr tc c htr htc h1 h2 h3 h4 h5 h6 hc0 hc3
    subst htr htc
    exact key.2 row ((mem_redBlueRows height top row).mpr ⟨h1, h2, h3⟩) col
      ((mem_redBlueCols width left col).mpr ⟨h4, h5, h6⟩) c hc0 hc3
  · intro s row col hrow hcol hs
    rw [mem_redBlueRows] at hrow
    rw [mem_redBlueCols] at hcol
    exact ⟨(redBlueStep_readsDefined width height rawData cfarray hv xyzCam cbrt top left d s
        row col hd hs.1 (greenLogged_mono hG hs.2) hrow.1 hrow.2.1 hrow.2.2 hcol.1 hcol.2.1 hcol.2.2).1,
      fun a ha => redBlueStep_log_sub rawData cfarray xyzCam cbrt top left d s row col a
        (hs.2 a ha)⟩
  · intro s row col hrow hcol hs
    rw [mem_redBlueRows] at hrow
    rw [mem_redBlueCols] at hcol
    exact (redBlueStep_readsDefined width height rawData cfarray hv xyzCam cbrt top left d s
      row col hd hs.1 (greenLogged_mono hG hs.2) hrow.1 hrow.2.1 hrow.2.2 hcol.1 hcol.2.1 hcol.2.2).2
  · intro s row col row' col' _ _ _ _ _ hw c hc0 hc3
    exact ⟨redBlueStep_log_sub rawData cfarray xyzCam cbrt top left d s row col _ (hw c hc0 hc3).1,
      redBlueStep_log_sub rawData cfarray xyzCam cbrt top left d s row col _ (hw c hc0 hc3).2⟩

theorem redBluePass_logged (width height : Int) (rawData : Int → Int → F) (cfarray : Cfa)
    (hv : validateBayerCfa cfarray = true) (xyzCam : Int → Int → F) (cbrt : F → F)
    (top left : Int) (m : Machine F) (hK : readsDefinedFrom [] m.log = true)
    (hG : GreenLogged width height cfarray top left m) :
    readsDefinedFrom []
      (redBluePass width height rawData cfarray xyzCam cbrt top left m).log = true ∧
    RgbLabLogged width height top left 0
      (redBluePass width height rawData cfarray xyzCam cbrt top left m) ∧
    RgbLabLogged width height top left 1
      (redBluePass width height rawData cfarray xyzCam cbrt top left m) := by
  unfold redBluePass
  rw [loopFrom_zero_two]
  simp only [List.foldl_cons, List.foldl_nil]
  obtain ⟨k0, s0, r0⟩ := redBlueSweep_logged width height rawData cfarray hv xyzCam cbrt top left 0
    (Or.inl rfl) m hK hG
  obtain ⟨k1, s1, r1⟩ := redBlueSweep_logged width height rawData cfarray hv xyzCam cbrt top left 1
    (Or.inr rfl) _ k0 (greenLogged_mono hG s0)
  exact ⟨k1, rgbLabLogged_mono r0 s1, r1⟩

/-! ### Pass C -/

theorem homoStep_readsDefined (width height : Int) (top left : Int) (m : Machine F)
    (row col : Int) (hK : readsDefinedFrom [] m.log = true)
    (h0 : RgbLabLogged width height top left 0 m) (h1 : RgbLabLogged width height top left 1 m)
    (hrow : row ∈ homoRows height top) (hcol : col ∈ homoCols width left) :
    readsDefinedFrom [] (homoStep top left m row col).log = true ∧
    Access.homoWrite 0 (row - top) (col - left) ∈ (homoStep top left m row col).log ∧
    Access.homoWrite 1 (row - top) (col - left) ∈ (homoStep top left m row col).log := by
  rw [mem_homoRows] at hrow
  rw [mem_homoCols] at hcol
  have hl : ∀ d a b k : Int, (d = 0 ∨ d = 1) → -1 ≤ a → a ≤ 1 → -1 ≤ b → b ≤ 1 → 0 ≤ k → k < 3 →
      Access.labWrite d (row - top + a) (col - left + b) k ∈ m.log := by
    intro d a b k hd ha1 ha2 hb1 hb2 hk0 hk3
    rcases hd with rfl | rfl
    · exact (h0 (row + a) (col + b) _ _ k (by ring) (by ring) (by omega) (by omega) (by omega)
        (by omega) (by omega) (by omega) hk0 hk3).2
    · exact (h1 (row + a) (col + b) _ _ k (by ring) (by ring) (by omega) (by omega) (by omega)
        (by omega) (by omega) (by omega) hk0 hk3).2
  have hc : ∀ d k : Int, (d = 0 ∨ d = 1) → 0 ≤ k → k < 3 →
      Access.labWrite d (row - top) (col - left) k ∈ m.log := by
    intro d k hd hk0 hk3
    have := hl d 0 0 k hd (by decide) (by decide) (by decide) (by decide) hk0 hk3
    simpa using this
  rw [homoStep_log]
  refine ⟨readsDefinedFrom_step _ _ hK (fun seen hsub => ?_), ?_, ?_⟩
  · rw [readsDefinedFrom_append, Bool.and_eq_true]
    constructor
    · refine readsDefinedFrom_of_sources _ _ ?_
      intro a ha w hw
      simp only [List.mem_flatMap, List.mem_cons, List.not_mem_nil, or_false] at ha
      obtain ⟨d, hd, i, hi, ha⟩ := ha
      have hdir : -1 ≤ (dir i).1 ∧ (dir i).1 ≤ 1 ∧ -1 ≤ (dir i).2 ∧ (dir i).2 ≤ 1 := by
        rcases hi with rfl | rfl | rfl | rfl <;> decide
      rcases ha with rfl | rfl | rfl | rfl | rfl | rfl <;>
        simp only [Access.source, Option.some.injEq] at hw <;> subst hw
      · exact hsub _ (hc d 0 hd (by decide) (by decide))
      · exact hsub _ (hl d _ _ 0 hd hdir.1 hdir.2.1 hdir.2.2.1 hdir.2.2.2 (by decide) (by decide))
      · exact hsub _ (hc d 1 hd (by decide) (by decide))
      · exact hsub _ (hl d _ _ 1 hd hdir.1 hdir.2.1 hdir.2.2.1 hdir.2.2.2 (by decide) (by decide))
      · exact hsub _ (hc d 2 hd (by decide) (by decide))
      · exact hsub _ (hl d _ _ 2 hd hdir.1 hdir.2.1 hdir.2.2.1 hdir.2.2.2 (by decide) (by decide))
    · simp [readsDefinedFrom, Access.source]
  · simp
  · simp

theorem homoPass_logged (width height : Int) (top left : Int) (m : Machine F)
    (hK : readsDefinedFrom [] m.log = true)
    (h0 : RgbLabLogged width height top left 0 m) (h1 : RgbLabLogged width height top left 1 m) :
    readsDefinedFrom [] (homoPass width height top left m).log = true ∧
    (∀ a ∈ m.log, a ∈ (homoPass width height top left m).log) ∧
    HomoLogged width height top left (homoPass width height top left m) := by
  unfold homoPass
  have key := sweep_writes (homoRows height top) (fun _ => homoCols width left)
    (homoStep top left)
    (fun s : Machine F => readsDefinedFrom [] s.log = true ∧ (∀ a ∈ m.log, a ∈ s.log))
    (fun row col s => Access.homoWrite 0 (row - top) (col - left) ∈ s.log ∧
      Access.homoWrite 1 (row - top) (col - left) ∈ s.log)
    ?_ ?_ ?_ m ⟨hK, fun _ h => h⟩
  · refine ⟨key.1.1, key.1.2, ?_⟩
    intro d row col tr tc htr htc hd r1 r2 r3 c1 c2 c3
    subst htr htc
    have h := key.2 row ((mem_homoRows height top row).mpr ⟨r1, r2, r3⟩) col
      ((mem_homoCols width left col).mpr ⟨c1, c2, c3⟩)
    rcases hd with rfl | rfl
    · exact h.1
    · exact h.2
  · intro s row col hrow hcol hs
    exact ⟨(homoStep_readsDefined width height top left s row col hs.1 (rgbLabLogged_mono h0 hs.2)
        (rgbLabLogged_mono h1 hs.2) hrow hcol).1,
      fun a ha => homoStep_log_sub top left s row col a (hs.2 a ha)⟩
  · intro s row col hrow hcol hs
    exact (homoStep_readsDefined width height top left s row col hs.1 (rgbLabLogged_mono h0 hs.2)
      (rgbLabLogged_mono h1 hs.2) hrow hcol).2
  · intro s row col row' col' _ _ _ _ _ hw
    exact ⟨homoStep_log_sub top left s row col _ hw.1, homoStep_log_sub top left s row col _ hw.2⟩

/-! ### Pass D -/

theorem fuseStep_readsDefined (width height : Int) (top left : Int) (m : Machine F)
    (row col : Int) (hK : readsDefinedFrom [] m.log = true)
    (h0 : RgbLabLogged width height top left 0 m) (h1 : RgbLabLogged width height top left 1 m)
    (hH : HomoLogged width height top left m)
    (hrow : row ∈ fuseRows height top) (hcol : col ∈ fuseCols width left) :
    readsDefinedFrom [] (fuseStep top left m row col).log = true := by
  rw [mem_fuseRows] at hrow
  rw [mem_fuseCols] at hcol
  have hr : ∀ d c : Int, (d = 0 ∨ d = 1) → 0 ≤ c → c < 3 →
      Access.rgbWrite d (row - top) (col - left) c ∈ m.log := by
    intro d c hd hc0 hc3
    rcases hd with rfl | rfl
    · exact (h0 row col _ _ c rfl rfl (by omega) (by omega) (by omega) (by omega) (by omega)
        (by omega) hc0 hc3).1
    · exact (h1 row col _ _ c rfl rfl (by omega) (by omega) (by omega) (by omega) (by omega)
        (by omega) hc0 hc3).1
  have hh : ∀ d a b : Int, (d = 0 ∨ d = 1) → 0 ≤ a → a ≤ 2 → 0 ≤ b → b ≤ 2 →
      Access.homoWrite d (row - top - 1 + a) (col - left - 1 + b) ∈ m.log := by
    intro d a b hd ha0 ha2 hb0 hb2
    exact hH d (row - 1 + a) (col - 1 + b) _ _ (by ring) (by ring) hd (by omega) (by omega)
      (by omega) (by omega) (by omega) (by omega)
  have hh0 : ∀ d a : Int, (d = 0 ∨ d = 1) → 0 ≤ a → a ≤ 2 →
      Access.homoWrite d (row - top - 1 + a) (col - left - 1) ∈ m.log := by
    intro d a hd ha0 ha2
    have := hh d a 0 hd ha0 ha2 (by decide) (by decide)
    simpa using this
  have hh1 : ∀ d b : Int, (d = 0 ∨ d = 1) → 0 ≤ b → b ≤ 2 →
      Access.homoWrite d (row - top - 1) (col - left - 1 + b) ∈ m.log := by
    intro d b hd hb0 hb2
    have := hh d 0 b hd (by decide) (by decide) hb0 hb2
    simpa using this
  have hh00 : ∀ d : Int, (d = 0 ∨ d = 1) →
      Access.homoWrite d (row - top - 1) (col - left - 1) ∈ m.log := by
    intro d hd
    have := hh d 0 0 hd (by decide) (by decide) (by decide) (by decide)
    simpa using this
  rw [fuseStep_log, hood_eq]
  refine readsDefinedFrom_step _ _ hK (fun seen hsub => ?_)
  refine readsDefinedFrom_of_sources _ _ ?_
  intro a ha w hw
  rw [List.mem_append] at ha
  rcases ha with ha | ha
  · simp only [List.flatMap_cons, List.flatMap_nil, List.append_nil, List.cons_append,
      List.nil_append, List.mem_cons, List.not_mem_nil, or_false] at ha
    rcases ha with rfl | rfl | rfl | rfl | rfl | rfl | rfl | rfl | rfl | rfl | rfl | rfl | rfl
      | rfl | rfl | rfl | rfl | rfl <;>
      simp only [Access.source, Option.some.injEq] at hw <;> subst hw <;>
      first
        | exact hsub _ (hh00 _ (by decide))
        | exact hsub _ (hh0 _ _ (by decide) (by decide) (by decide))
        | exact hsub _ (hh1 _ _ (by decide) (by decide) (by decide))
        | exact hsub _ (hh _ _ _ (by decide) (by decide) (by decide) (by decide) (by decide))
  · split at ha
    · have hld : ∀ x : Int, x = (if hmOf m.homo 1 (row - top) (col - left)
          > hmOf m.homo 0 (row - top) (col - left) then (1 : Int) else 0) → (x = 0 ∨ x = 1) := by
        intro x hx
        split at hx
        · exact Or.inr hx
        · exact Or.inl hx
      simp only [List.mem_cons, List.not_mem_nil, or_false] at ha
      rcases ha with rfl | rfl | rfl | rfl | rfl | rfl <;>
        first
          | (simp only [Access.source, Option.some.injEq] at hw
             subst hw
             exact hsub _ (hr _ _ (hld _ rfl) (by decide) (by decide)))
          | (simp [Access.source] at hw)
    · simp only [List.mem_cons, List.not_mem_nil, or_false] at ha
      rcases ha with rfl | rfl | rfl | rfl | rfl | rfl | rfl | rfl | rfl <;>
        first
          | (simp only [Access.source, Option.some.injEq] at hw
             subst hw
             exact hsub _ (hr _ _ (by decide) (by decide) (by decide)))
          | (simp [Access.source] at hw)

theorem fusePass_logged (width height : Int) (top left : Int) (m : Machine F)
    (hK : readsDefinedFrom [] m.log = true)
    (h0 : RgbLabLogged width height top left 0 m) (h1 : RgbLabLogged width height top left 1 m)
    (hH : HomoLogged width height top left m) :
    readsDefinedFrom [] (fusePass width height top left m).log = true := by
  unfold fusePass
  have key := sweep_invariant (fuseRows height top) (fun _ => fuseCols width left)
    (fuseStep top left)
    (fun s : Machine F => readsDefinedFrom [] s.log = true ∧ (∀ a ∈ m.log, a ∈ s.log))
    ?_ m ⟨hK, fun _ h => h⟩
  · exact key.1
  · intro s row col hrow hcol hs
    exact ⟨fuseStep_readsDefined width height top left s row col hs.1 (rgbLabLogged_mono h0 hs.2)
        (rgbLabLogged_mono h1 hs.2) (homoLogged_mono hH hs.2) hrow hcol,
      fun a ha => fuseStep_log_sub top left s row col a (hs.2 a ha)⟩

/-- Within the four passes of one tile, started with an empty log, every
scratch read comes after a write to the same cell. -/
theorem tilePasses_readsDefined (width height : Int) (rawData : Int → Int → F) (cfarray : Cfa)
    (hv : validateBayerCfa cfarray = true) (xyzCam : Int → Int → F) (cbrt : F → F)
    (top left : Int) (m : Machine F) (hm : m.log = []) :
    readsDefinedFrom []
      (tilePasses width height rawData cfarray xyzCam cbrt top left m).log = true := by
  unfold tilePasses
  obtain ⟨kA, gA⟩ := greenPass_logged width height rawData cfarray hv top left m
    (by rw [hm]; rfl)
  obtain ⟨kB, b0, b1⟩ := redBluePass_logged width height rawData cfarray hv xyzCam cbrt top left
    _ kA gA
  obtain ⟨kC, sC, hC⟩ := homoPass_logged width height top left _ kB b0 b1
  exact fusePass_logged width height top left _ kC (rgbLabLogged_mono b0 sC) (rgbLabLogged_mono b1 sC) hC

/-- C3: for a valid Bayer CFA the return code and the red, green and blue
planes produced by a run are the same for every processing order of the tiles
(any permutation `order` of the tile list) and every initial content of the
scratch buffer (`rgb0, lab0, homo0` against `rgb0', lab0', homo0'`); and within
the processing of any one tile, started from any scratch contents, every
scratch cell that is read (green or RGB hypothesis, Lab value, homogeneity
score) was written earlier in the processing of that same tile. -/
theorem output_independent_of_order_and_scratch (border : BorderPass F) (cbrt : F → F)
    (allocOk : Bool) (width height : Int) (rawData : Int → Int → F)
    (red green blue : Int → Int → F) (rgb0 lab0 rgb0' lab0' : Int → Int → Int → Int → F)
    (homo0 homo0' : Int → Int → Int → Nat) (cfarray : Cfa) (rgb_cam : Int → Int → F)
    (hv : validateBayerCfa cfarray = true) (order : List (Int × Int))
    (hperm : order.Perm (tileList width height)) :
    ((ahd_run border cbrt allocOk order width height rawData
        (Machine.initial red green blue rgb0 lab0 homo0) cfarray rgb_cam).1
      = (ahd_demosaic border cbrt allocOk width height rawData
        (Machine.initial red green blue rgb0' lab0' homo0') cfarray rgb_cam).1 ∧
    (ahd_run border cbrt allocOk order width height rawData
        (Machine.initial red green blue rgb0 lab0 homo0) cfarray rgb_cam).2.red
      = (ahd_demosaic border cbrt allocOk width height rawData
        (Machine.initial red green blue rgb0' lab0' homo0') cfarray rgb_cam).2.red ∧
    (ahd_run border cbrt allocOk order width height rawData
        (Machine.initial red green blue rgb0 lab0 homo0) cfarray rgb_cam).2.green
      = (ahd_demosaic border cbrt allocOk width height rawData
        (Machine.initial red green blue rgb0' lab0' homo0') cfarray rgb_cam).2.green ∧
    (ahd_run border cbrt allocOk order width height rawData
        (Machine.initial red green blue rgb0 lab0 homo0) cfarray rgb_cam).2.blue
      = (ahd_demosaic border cbrt allocOk width height rawData
        (Machine.initial red green blue rgb0' lab0' homo0') cfarray rgb_cam).2.blue) ∧
    (∀ t ∈ order, ∀ m : Machine F,
      readsDefinedFrom []
        (tilePasses width height rawData cfarray (xyz_cam rgb_cam) cbrt t.1 t.2
          { m with log := [] }).log = true) := by
  refine ⟨?_, fun t _ m => tilePasses_readsDefined width height rawData cfarray hv _ cbrt t.1 t.2
    _ rfl⟩
  unfold ahd_demosaic
  rcases run_trichotomy (validateBayerCfa cfarray) allocOk
    (border width height 5 rawData red green blue cfarray).rc with h | ⟨_, hs⟩ | ⟨_, ha, hb⟩
  · rw [hv] at h
    exact absurd h (by decide)
  · rw [ahd_run_skipped border cbrt allocOk order width height rawData _ cfarray rgb_cam hv hs,
      ahd_run_skipped border cbrt allocOk (tileList width height) width height rawData _ cfarray
        rgb_cam hv hs]
    exact ⟨rfl, rfl, rfl, rfl⟩
  · subst ha
    rw [ahd_run_ran border cbrt order width height rawData _ cfarray rgb_cam hv hb,
      ahd_run_ran border cbrt (tileList width height) width height rawData _ cfarray rgb_cam hv hb]
    have hiff : ∀ row col : Int,
        (∃ t ∈ order, row ∈ fuseRows height t.1 ∧ col ∈ fuseCols width t.2) ↔
        (∃ t ∈ tileList width height, row ∈ fuseRows height t.1 ∧ col ∈ fuseCols width t.2) := by
      intro row col
      constructor
      · rintro ⟨t, ht, h⟩
        exact ⟨t, hperm.mem_iff.mp ht, h⟩
      · rintro ⟨t, ht, h⟩
        exact ⟨t, hperm.mem_iff.mpr ht, h⟩
    have key : ∀ row col : Int,
        (runTiles width height rawData cfarray (xyz_cam rgb_cam) cbrt order
          (loopEntry border width height rawData
            (Machine.initial red green blue rgb0 lab0 homo0) cfarray)).red row col
        = (runTiles width height rawData cfarray (xyz_cam rgb_cam) cbrt (tileList width height)
          (loopEntry border width height rawData
            (Machine.initial red green blue rgb0' lab0' homo0') cfarray)).red row col ∧
        (runTiles width height rawData cfarray (xyz_cam rgb_cam) cbrt order
          (loopEntry border width height rawData
            (Machine.initial red green blue rgb0 lab0 homo0) cfarray)).green row col
        = (runTiles width height rawData cfarray (xyz_cam rgb_cam) cbrt (tileList width height)
          (loopEntry border width height rawData
            (Machine.initial red green blue rgb0' lab0' homo0') cfarray)).green row col ∧
        (runTiles width height rawData cfarray (xyz_cam rgb_cam) cbrt order
          (loopEntry border width height rawData
            (Machine.initial red green blue rgb0 lab0 homo0) cfarray)).blue row col
        = (runTiles width height rawData cfarray (xyz_cam rgb_cam) cbrt (tileList width height)
          (loopEntry border width height rawData
            (Machine.initial red green blue rgb0' lab0' homo0') cfarray)).blue row col := by
      intro row col
      obtain ⟨a1, a2, a3⟩ := runTiles_planes width height rawData cfarray hv (xyz_cam rgb_cam) cbrt
        order row col (loopEntry border width height rawData
          (Machine.initial red green blue rgb0 lab0 homo0) cfarray)
      obtain ⟨b1, b2, b3⟩ := runTiles_planes width height rawData cfarray hv (xyz_cam rgb_cam) cbrt
        (tileList width height) row col (loopEntry border width height rawData
          (Machine.initial red green blue rgb0' lab0' homo0') cfarray)
      rw [a1, a2, a3, b1, b2, b3]
      simp only [hiff row col]
      exact ⟨rfl, rfl, rfl⟩
    refine ⟨rfl, ?_, ?_, ?_⟩
    · funext row col
      exact (key row col).1
    · funext row col
      exact (key row col).2.1
    · funext row col
      exact (key row col).2.2

end ReadsDefined

/-- Instance of C3: a 300 x 150 image (six tiles) processed in reverse tile order from different scratch contents. -/
theorem output_independent_of_order_and_scratch_witness :
    validateBayerCfa demoCfa = true ∧ (tileList 300 150).reverse.Perm (tileList 300 150) ∧
    (ahd_run demoBorder demoCbrt true (tileList 300 150).reverse 300 150 demoRaw
        (Machine.initial (fun _ _ => 0) (fun _ _ => 0) (fun _ _ => 0) (fun _ _ _ _ => 1)
          (fun _ _ _ _ => 2) (fun _ _ _ => 3)) demoCfa demoCam).2.red
      = (ahd_demosaic demoBorder demoCbrt true 300 150 demoRaw
        (Machine.initial (fun _ _ => 0) (fun _ _ => 0) (fun _ _ => 0) (fun _ _ _ _ => 4)
          (fun _ _ _ _ => 5) (fun _ _ _ => 6)) demoCfa demoCam).2.red :=
  ⟨by decide, List.reverse_perm _,
   (output_independent_of_order_and_scratch demoBorder demoCbrt true 300 150 demoRaw
      (fun _ _ => 0) (fun _ _ => 0) (fun _ _ => 0) (fun _ _ _ _ => 1) (fun _ _ _ _ => 2)
      (fun _ _ _ _ => 4) (fun _ _ _ _ => 5) (fun _ _ _ => 3) (fun _ _ _ => 6) demoCfa demoCam
      (by decide) (tileList 300 150).reverse (List.reverse_perm _)).1.2.1⟩

/-! ## Progress reports when `height * width` fits the `int` range -/

theorem wrap32_of_range (x : Int) (h1 : -2147483648 ≤ x) (h2 : x < 2147483648) : wrap32 x = x := by
  unfold wrap32
  omega

section NoOverflow

variable {F : Type} [LinearOrderedField F]

theorem reportValue_of_range (width height : Int) (hpos : 0 < height * width)
    (hlt : height * width < 2147483648) (k : Nat) :
    (reportValue width height k : F)
      = min 1 ((k : F) * 32 * (138 : F) ^ 2 / ((height * width : Int) : F)) := by
  have hw : wrap32 (height * width) = height * width :=
    wrap32_of_range _ (by omega) hlt
  unfold reportValue progressIncrement
  rw [hw, if_neg (by omega), min_comm]
  congr 1
  simp only [TS]
  push_cast
  ring

theorem reportValue_nonneg_of_range (width height : Int) (hpos : 0 < height * width)
    (hlt : height * width < 2147483648) (k : Nat) : (0 : F) ≤ reportValue width height k := by
  rw [reportValue_of_range width height hpos hlt]
  have hden : (0 : F) < ((height * width : Int) : F) := by exact_mod_cast hpos
  have hk : (0 : F) ≤ (k : F) := Nat.cast_nonneg k
  apply le_min zero_le_one
  positivity

theorem reportValue_mono_of_range (width height : Int) (hpos : 0 < height * width)
    (hlt : height * width < 2147483648) (j k : Nat) (hjk : j ≤ k) :
    (reportValue width height j : F) ≤ reportValue width height k := by
  rw [reportValue_of_range width height hpos hlt, reportValue_of_range width height hpos hlt]
  have hden : (0 : F) < ((height * width : Int) : F) := by exact_mod_cast hpos
  have hjk' : (j : F) ≤ (k : F) := by exact_mod_cast hjk
  apply min_le_min le_rfl
  apply div_le_div_of_nonneg_right _ (le_of_lt hden)
  nlinarith

theorem inLoopReports_sorted_of_range (width height : Int) (hpos : 0 < height * width)
    (hlt : height * width < 2147483648) (n : Nat) :
    (inLoopReports width height n : List F).Pairwise (· ≤ ·) := by
  unfold inLoopReports
  rw [List.pairwise_map]
  refine List.Pairwise.imp ?_ (List.pairwise_lt_range (n / 32))
  intro a b hab
  exact reportValue_mono_of_range width height hpos hlt (a + 1) (b + 1) (by omega)

/-- For an image whose area `height * width` is positive and fits the `int`
range, every run that passes CFA validation reports a non-decreasing sequence
of values in `[0, 1]` that ends with `1`. -/
theorem progress_monotone_without_overflow (border : BorderPass F) (cbrt : F → F)
    (allocOk : Bool) (width height : Int) (rawData : Int → Int → F)
    (red green blue : Int → Int → F) (rgb0 lab0 : Int → Int → Int → Int → F)
    (homo0 : Int → Int → Int → Nat) (cfarray : Cfa) (rgb_cam : Int → Int → F)
    (hv : validateBayerCfa cfarray = true) (hpos : 0 < height * width)
    (hlt : height * width < 2147483648) :
    (ahd_demosaic border cbrt allocOk width height rawData
      (Machine.initial red green blue rgb0 lab0 homo0) cfarray rgb_cam).2.reported.Pairwise
        (· ≤ ·) ∧
    (∀ v ∈ (ahd_demosaic border cbrt allocOk width height rawData
      (Machine.initial red green blue rgb0 lab0 homo0) cfarray rgb_cam).2.reported,
        0 ≤ v ∧ v ≤ 1) ∧
    (ahd_demosaic border cbrt allocOk width height rawData
      (Machine.initial red green blue rgb0 lab0 homo0) cfarray rgb_cam).2.reported.getLast?
        = some 1 := by
  unfold ahd_demosaic
  rcases run_trichotomy (validateBayerCfa cfarray) allocOk
    (border width height 5 rawData red green blue cfarray).rc with h | ⟨_, hs⟩ | ⟨_, ha, hb⟩
  · rw [hv] at h
    exact absurd h (by decide)
  · rw [ahd_run_skipped border cbrt allocOk _ width height rawData _ cfarray rgb_cam hv hs]
    simp [Machine.initial]
  · subst ha
    obtain ⟨_, h2⟩ := ahd_run_ok border cbrt (tileList width height) width height rawData
      (Machine.initial red green blue rgb0 lab0 homo0) cfarray rgb_cam hv hb
    rw [h2]
    have hmem : ∀ v ∈ (inLoopReports width height (tileList width height).length : List F),
        0 ≤ v ∧ v ≤ 1 := by
      intro v hvm
      unfold inLoopReports at hvm
      rw [List.mem_map] at hvm
      obtain ⟨j, _, rfl⟩ := hvm
      exact ⟨reportValue_nonneg_of_range width height hpos hlt (j + 1),
        reportValue_le_one width height (j + 1)⟩
    have hsorted := inLoopReports_sorted_of_range (F := F) width height hpos hlt
      (tileList width height).length
    refine ⟨?_, ?_, ?_⟩
    · simp only [Machine.initial, List.nil_append, List.singleton_append, List.cons_append]
      rw [List.pairwise_cons]
      refine ⟨?_, ?_⟩
      · intro v hvm
        rcases List.mem_append.mp hvm with h | h
        · exact (hmem v h).1
        · rw [List.mem_singleton] at h
          rw [h]
          exact zero_le_one
      · rw [List.pairwise_append]
        refine ⟨hsorted, List.pairwise_singleton _ _, ?_⟩
        intro a ha b hb
        rw [List.mem_singleton] at hb
        rw [hb]
        exact (hmem a ha).2
    · intro v hvm
      simp only [Machine.initial, List.nil_append, List.singleton_append, List.cons_append,
        List.mem_cons, List.mem_append, List.mem_singleton, List.not_mem_nil, or_false] at hvm
      rcases hvm with rfl | h | rfl
      · exact ⟨le_rfl, zero_le_one⟩
      · exact hmem v h
      · exact ⟨zero_le_one, le_rfl⟩
    · rw [List.getLast?_append]
      rfl

/-- For an image whose area `height * width` is positive and fits the `int`
range, a successful run makes one report inside the tile loop per 32 completed
tiles, and the `k`-th of them carries `min(1, k * 32 * 138^2 / (height * width))`. -/
theorem in_loop_reports_without_overflow (border : BorderPass F) (cbrt : F → F)
    (width height : Int) (rawData : Int → Int → F)
    (red green blue : Int → Int → F) (rgb0 lab0 : Int → Int → Int → Int → F)
    (homo0 : Int → Int → Int → Nat) (cfarray : Cfa) (rgb_cam : Int → Int → F)
    (hv : validateBayerCfa cfarray = true)
    (hb : (border width height 5 rawData red green blue cfarray).rc = rpError.RP_NO_ERROR)
    (hpos : 0 < height * width) (hlt : height * width < 2147483648) :
    (ahd_demosaic border cbrt true width height rawData
      (Machine.initial red green blue rgb0 lab0 homo0) cfarray rgb_cam).2.reported
      = 0 :: ((List.range ((tileList width height).length / 32)).map fun j =>
          min 1 (((j + 1 : Nat) : F) * 32 * (138 : F) ^ 2 / ((height * width : Int) : F)))
        ++ [1] ∧
    (ahd_demosaic border cbrt true width height rawData
      (Machine.initial red green blue rgb0 lab0 homo0) cfarray rgb_cam).2.progresscounter
      = (tileList width height).length := by
  unfold ahd_demosaic
  obtain ⟨_, h2⟩ := ahd_run_ok border cbrt (tileList width height) width height rawData
    (Machine.initial red green blue rgb0 lab0 homo0) cfarray rgb_cam hv hb
  refine ⟨?_, ?_⟩
  · rw [h2]
    unfold inLoopReports
    simp only [Machine.initial, List.nil_append, List.singleton_append, List.cons_append]
    congr 2
    apply List.map_congr_left
    intro j _
    exact reportValue_of_range width height hpos hlt (j + 1)
  · rw [ahd_run_ran border cbrt _ width height rawData _ cfarray rgb_cam hv hb]
    exact (runTiles_progress width height rawData cfarray (xyz_cam rgb_cam) cbrt
      (loopEntry border width height rawData (Machine.initial red green blue rgb0 lab0 homo0)
        cfarray) rfl rfl (tileList width height)).1

end NoOverflow

/-- Instance of `progress_monotone_without_overflow` for a 2078 x 146 image. -/
theorem progress_monotone_without_overflow_witness :
    validateBayerCfa demoCfa = true ∧ (0 : Int) < 146 * 2078 ∧ (146 : Int) * 2078 < 2147483648 ∧
    (ahd_demosaic demoBorder demoCbrt true 2078 146 demoRaw
      (Machine.initial (fun _ _ => 0) (fun _ _ => 0) (fun _ _ => 0) (fun _ _ _ _ => 0)
        (fun _ _ _ _ => 0) (fun _ _ _ => 0)) demoCfa demoCam).2.reported.getLast? = some 1 :=
  ⟨by decide, by decide, by decide,
   (progress_monotone_without_overflow demoBorder demoCbrt true 2078 146 demoRaw (fun _ _ => 0)
      (fun _ _ => 0) (fun _ _ => 0) (fun _ _ _ _ => 0) (fun _ _ _ _ => 0) (fun _ _ _ => 0)
      demoCfa demoCam (by decide) (by decide) (by decide)).2.2⟩

/-- Instance of `in_loop_reports_without_overflow` for a 2078 x 146 image. -/
theorem in_loop_reports_without_overflow_witness :
    validateBayerCfa demoCfa = true ∧ (0 : Int) < 146 * 2078 ∧ (146 : Int) * 2078 < 2147483648 ∧
    (ahd_demosaic demoBorder demoCbrt true 2078 146 demoRaw
      (Machine.initial (fun _ _ => 0) (fun _ _ => 0) (fun _ _ => 0) (fun _ _ _ _ => 0)
        (fun _ _ _ _ => 0) (fun _ _ _ => 0)) demoCfa demoCam).2.progresscounter
      = (tileList 2078 146).length :=
  ⟨by decide, by decide, by decide,
   (in_loop_reports_without_overflow demoBorder demoCbrt 2078 146 demoRaw (fun _ _ => 0)
      (fun _ _ => 0) (fun _ _ => 0) (fun _ _ _ _ => 0) (fun _ _ _ _ => 0) (fun _ _ _ => 0)
      demoCfa demoCam (by decide) rfl (by decide) (by decide)).2⟩

/-! ## The cube-root table (lines 65-68) -/

section Tables
variable {F : Type} [LinearOrderedField F]

/-- A loop that assigns `f i` to cell `i` for every `i` of a list. -/
theorem foldl_upd1 {α : Type} (f : Int → α) (l : List Int) :
    ∀ (t : Int → α) (x : Int),
      (l.foldl (fun t i => upd1 t i (f i)) t) x = if x ∈ l then f x else t x := by
  induction l with
  | nil => intro t x; simp
  | cons a rest ih =>
    intro t x
    rw [List.foldl_cons, ih]
    by_cases hx : x ∈ rest
    · simp [hx]
    · by_cases hxa : x = a
      · subst hxa
        simp [hx, upd1]
      · simp [hx, hxa, upd1]

theorem cbrtTable_entry (cbrtFn : F → F) (t0 : Int → F) (i : Int) (h0 : 0 ≤ i) (h1 : i ≤ 65535) :
    cbrtTable cbrtFn t0 i = cbrtEntry cbrtFn i := by
  unfold cbrtTable
  rw [foldl_upd1 (cbrtEntry cbrtFn), if_pos ((mem_loopFrom_one 0 65536 i).mpr ⟨h0, by omega⟩)]

/-- Indices up to 580 take the linear branch (`580 / 65535 ≤ 0.008856`). -/
theorem cbrtEntry_linear (cbrtFn : F → F) (i : Int) (h : i ≤ 580) :
    cbrtEntry cbrtFn i = 7787 / 1000 * ((i : F) / 65535) + 16 / 116 := by
  unfold cbrtEntry
  have hi : (i : F) ≤ 580 := by exact_mod_cast h
  have : ¬ ((i : F) / 65535 > 8856 / 1000000) := by
    rw [gt_iff_lt, not_lt, div_le_div_iff₀ (by norm_num) (by norm_num)]
    linarith
  simp only [this, if_false]

/-- Indices from 581 on take the cube-root branch (`581 / 65535 > 0.008856`). -/
theorem cbrtEntry_cbrt (cbrtFn : F → F) (i : Int) (h : 581 ≤ i) :
    cbrtEntry cbrtFn i = cbrtFn ((i : F) / 65535) := by
  unfold cbrtEntry
  have hi : (581 : F) ≤ (i : F) := by exact_mod_cast h
  have : (i : F) / 65535 > 8856 / 1000000 := by
    rw [gt_iff_lt, div_lt_div_iff₀ (by norm_num) (by norm_num)]
    linarith
  simp only [this, if_true]

theorem cube_root_mono (cbrtFn : F → F)
    (hcube : ∀ r : F, 0 ≤ r → 0 ≤ cbrtFn r ∧ cbrtFn r ^ 3 = r) (a b : F) (ha : 0 ≤ a)
    (hab : a ≤ b) : cbrtFn a ≤ cbrtFn b := by
  by_contra hlt
  rw [not_le] at hlt
  have hb := hcube b (le_trans ha hab)
  have h3 : cbrtFn b ^ 3 < cbrtFn a ^ 3 := pow_lt_pow_left₀ hlt hb.1 (by decide)
  rw [(hcube a ha).2, hb.2] at h3
  exact absurd hab (not_le.mpr h3)

theorem cbrtEntry_mono (cbrtFn : F → F)
    (hcube : ∀ r : F, 0 ≤ r → 0 ≤ cbrtFn r ∧ cbrtFn r ^ 3 = r) (i j : Int) (hi : 0 ≤ i)
    (hij : i ≤ j) : cbrtEntry cbrtFn i ≤ cbrtEntry cbrtFn j := by
  have hiF : (0 : F) ≤ (i : F) := by exact_mod_cast hi
  have hijF : (i : F) ≤ (j : F) := by exact_mod_cast hij
  by_cases hj : j ≤ 580
  · rw [cbrtEntry_linear cbrtFn i (by omega), cbrtEntry_linear cbrtFn j hj]
    have : (i : F) / 65535 ≤ (j : F) / 65535 := div_le_div_of_nonneg_right hijF (by norm_num)
    linarith
  · have hj' : 581 ≤ j := by omega
    have hjF : (581 : F) ≤ (j : F) := by exact_mod_cast hj'
    by_cases hi5 : i ≤ 580
    · rw [cbrtEntry_linear cbrtFn i hi5, cbrtEntry_cbrt cbrtFn j hj']
      have hi5F : (i : F) ≤ 580 := by exact_mod_cast hi5
      have hrj : (0 : F) ≤ (j : F) / 65535 := div_nonneg (by linarith) (by norm_num)
      obtain ⟨hc0, hc3⟩ := hcube _ hrj
      have hv0 : (0 : F) ≤ 7787 / 1000 * ((i : F) / 65535) + 16 / 116 := by positivity
      have hv : 7787 / 1000 * ((i : F) / 65535) + 16 / 116
          ≤ 7787 / 1000 * ((580 : F) / 65535) + 16 / 116 := by
        have : (i : F) / 65535 ≤ (580 : F) / 65535 :=
          div_le_div_of_nonneg_right hi5F (by norm_num)
        linarith
      have h580 : (7787 / 1000 * ((580 : F) / 65535) + 16 / 116) ^ 3 ≤ (581 : F) / 65535 := by
        norm_num
      have h581 : (581 : F) / 65535 ≤ (j : F) / 65535 :=
        div_le_div_of_nonneg_right hjF (by norm_num)
      by_contra hlt
      rw [not_le] at hlt
      have h3 : cbrtFn ((j : F) / 65535) ^ 3
          < (7787 / 1000 * ((i : F) / 65535) + 16 / 116) ^ 3 :=
        pow_lt_pow_left₀ hlt hc0 (by decide)
      have h4 : (7787 / 1000 * ((i : F) / 65535) + 16 / 116) ^ 3
          ≤ (7787 / 1000 * ((580 : F) / 65535) + 16 / 116) ^ 3 :=
        pow_le_pow_left₀ hv0 hv 3
      rw [hc3] at h3
      linarith
    · rw [cbrtEntry_cbrt cbrtFn i (by omega), cbrtEntry_cbrt cbrtFn j hj']
      exact cube_root_mono cbrtFn hcube _ _ (div_nonneg hiF (by norm_num))
        (div_le_div_of_nonneg_right hijF (by norm_num))

/-- C11: the cube-root table is monotonically non-decreasing.  With `cbrtFn`
the cube root (non-negative on non-negative arguments, its cube is the
argument), the table filled by the loop of lines 65-68 satisfies
`table[i] ≤ table[j]` for all indices `0 ≤ i < j ≤ 65535`, also across the
switch from the linear branch (indices up to 580) to the cube-root branch; and
entry `i` is `cbrtFn (i / 65535)` when `i / 65535 > 0.008856` and
`7.787 * (i / 65535) + 16 / 116` otherwise. -/
theorem cbrt_table_monotone (cbrtFn : F → F)
    (hcube : ∀ r : F, 0 ≤ r → 0 ≤ cbrtFn r ∧ cbrtFn r ^ 3 = r) (t0 : Int → F) (i j : Int)
    (hi : 0 ≤ i) (hij : i < j) (hj : j ≤ 65535) :
    cbrtTable cbrtFn t0 i ≤ cbrtTable cbrtFn t0 j ∧
    cbrtTable cbrtFn t0 i
      = (if (i : F) / 65535 > 8856 / 1000000 then cbrtFn ((i : F) / 65535)
          else 7787 / 1000 * ((i : F) / 65535) + 16 / 116) := by
  rw [cbrtTable_entry cbrtFn t0 i hi (by omega), cbrtTable_entry cbrtFn t0 j (by omega) hj]
  exact ⟨cbrtEntry_mono cbrtFn hcube i j hi (le_of_lt hij), rfl⟩

end Tables

/-- The real cube root satisfies the two properties asked of `std::cbrt`. -/
theorem real_cube_root (r : ℝ) (hr : 0 ≤ r) :
    0 ≤ r ^ ((1 : ℝ) / 3) ∧ (r ^ ((1 : ℝ) / 3)) ^ 3 = r := by
  refine ⟨Real.rpow_nonneg hr _, ?_⟩
  rw [← Real.rpow_natCast, ← Real.rpow_mul hr]
  norm_num

/-- Instance of C11: the real cube root, at the last index of the linear branch
and the first index of the cube-root branch. -/
theorem cbrt_table_monotone_witness :
    (∀ r : ℝ, 0 ≤ r → 0 ≤ r ^ ((1 : ℝ) / 3) ∧ (r ^ ((1 : ℝ) / 3)) ^ 3 = r) ∧
    cbrtTable (fun r : ℝ => r ^ ((1 : ℝ) / 3)) (fun _ => 0) 580
      ≤ cbrtTable (fun r : ℝ => r ^ ((1 : ℝ) / 3)) (fun _ => 0) 581 :=
  ⟨real_cube_root,
   (cbrt_table_monotone (fun r : ℝ => r ^ ((1 : ℝ) / 3)) real_cube_root (fun _ => 0) 580 581
      (by decide) (by decide) (by decide)).1⟩

/-! ## The matrix `xyz_cam` (lines 70-76) -/

section Matrix
variable {F : Type} [LinearOrderedField F]

theorem loopFrom_zero_three : loopFrom 0 3 1 = [0, 1, 2] := by decide

theorem xyzCamLoop_eq (rgb_cam : Int → Int → F) (a0 : Int → Int → F) (i j : Int)
    (hi0 : 0 ≤ i) (hi3 : i < 3) (hj0 : 0 ≤ j) (hj3 : j < 3) :
    xyzCamLoop rgb_cam a0 i j = xyz_cam rgb_cam i j := by
  have hi : i = 0 ∨ i = 1 ∨ i = 2 := by omega
  have hj : j = 0 ∨ j = 1 ∨ j = 2 := by omega
  unfold xyzCamLoop xyz_cam
  rw [loopFrom_zero_three]
  rcases hi with rfl | rfl | rfl <;> rcases hj with rfl | rfl | rfl <;>
    simp [upd2]

theorem xyz_rgb_row_sum (i : Int) :
    (xyz_rgb i 0 + xyz_rgb i 1 + xyz_rgb i 2 : F) = d65_white i := by
  by_cases h0 : i = 0
  · subst h0
    norm_num [xyz_rgb, d65_white]
  · by_cases h1 : i = 1
    · subst h1
      norm_num [xyz_rgb, d65_white]
    · simp only [xyz_rgb, d65_white, h0, h1, if_false]
      norm_num

theorem d65_white_pos (i : Int) : (0 : F) < d65_white i := by
  unfold d65_white
  split_ifs <;> norm_num

/-- C12: for every camera matrix and all `i, j` in `{0, 1, 2}` the array cell
`xyz_cam[i][j]` left by the loops of lines 70-76 (whatever the array held
before) is the value the tile loop uses, and equals
`(xyz_rgb[i][0] * rgb_cam[0][j] + xyz_rgb[i][1] * rgb_cam[1][j]
  + xyz_rgb[i][2] * rgb_cam[2][j]) / d65_white[i]`, i.e. row `i` of the matrix
product scaled by the reciprocal of the `i`-th white-point component; it does
not depend on the fourth column of `rgb_cam`. -/
theorem xyz_cam_is_scaled_product (rgb_cam : Int → Int → F) (a0 : Int → Int → F) (i j : Int)
    (hi0 : 0 ≤ i) (hi3 : i < 3) (hj0 : 0 ≤ j) (hj3 : j < 3) :
    xyzCamLoop rgb_cam a0 i j = xyz_cam rgb_cam i j ∧
    xyz_cam rgb_cam i j
      = (xyz_rgb i 0 * rgb_cam 0 j + xyz_rgb i 1 * rgb_cam 1 j + xyz_rgb i 2 * rgb_cam 2 j)
          / d65_white i ∧
    xyz_cam rgb_cam i j
      = (1 / d65_white i)
          * (xyz_rgb i 0 * rgb_cam 0 j + xyz_rgb i 1 * rgb_cam 1 j + xyz_rgb i 2 * rgb_cam 2 j) ∧
    (∀ rgb_cam' : Int → Int → F, (∀ k c : Int, 0 ≤ c → c < 3 → rgb_cam' k c = rgb_cam k c) →
      xyz_cam rgb_cam' i j = xyz_cam rgb_cam i j) := by
  refine ⟨xyzCamLoop_eq rgb_cam a0 i j hi0 hi3 hj0 hj3, ?_, ?_, ?_⟩
  · unfold xyz_cam
    ring
  · unfold xyz_cam
    ring
  · intro rgb_cam' h
    unfold xyz_cam
    rw [h 0 j hj0 hj3, h 1 j hj0 hj3, h 2 j hj0 hj3]

theorem xyz_cam_identity_row (rgb_cam : Int → Int → F)
    (hid : ∀ k c : Int, 0 ≤ k → k < 3 → 0 ≤ c → c < 3 → rgb_cam k c = if k = c then 1 else 0)
    (i : Int) :
    xyz_cam rgb_cam i 0 + xyz_cam rgb_cam i 1 + xyz_cam rgb_cam i 2 = 1 := by
  have hw : (d65_white i : F) ≠ 0 := ne_of_gt (d65_white_pos i)
  have hs := xyz_rgb_row_sum (F := F) i
  unfold xyz_cam
  rw [hid 0 0 (by decide) (by decide) (by decide) (by decide),
    hid 1 0 (by decide) (by decide) (by decide) (by decide),
    hid 2 0 (by decide) (by decide) (by decide) (by decide),
    hid 0 1 (by decide) (by decide) (by decide) (by decide),
    hid 1 1 (by decide) (by decide) (by decide) (by decide),
    hid 2 1 (by decide) (by decide) (by decide) (by decide),
    hid 0 2 (by decide) (by decide) (by decide) (by decide),
    hid 1 2 (by decide) (by decide) (by decide) (by decide),
    hid 2 2 (by decide) (by decide) (by decide) (by decide)]
  simp only [if_true, if_false, show ¬ ((0 : Int) = 1) by decide, show ¬ ((0 : Int) = 2) by decide,
    show ¬ ((1 : Int) = 0) by decide, show ¬ ((1 : Int) = 2) by decide,
    show ¬ ((2 : Int) = 0) by decide, show ¬ ((2 : Int) = 1) by decide]
  field_simp
  linear_combination hs

/-- C20: when the first three columns of `rgb_cam` form the identity matrix,
each row of `xyz_rgb` sums to the matching `d65_white` component, every row of
`xyz_cam` sums to exactly 1, an RGB triple with three equal channels `v` has
the three XYZ components `v`, and its Lab chroma terms `500 * (fx - fy)` and
`200 * (fy - fz)` are 0, for every table lookup `cbrt`; in particular a step of
the red/blue loop that leaves three equal channels in a cell stores zero chroma
terms for that cell. -/
theorem identity_camera_gray_has_zero_chroma (rgb_cam : Int → Int → F)
    (hid : ∀ k c : Int, 0 ≤ k → k < 3 → 0 ≤ c → c < 3 → rgb_cam k c = if k = c then 1 else 0) :
    (∀ i : Int, (xyz_rgb i 0 + xyz_rgb i 1 + xyz_rgb i 2 : F) = d65_white i) ∧
    (∀ i : Int, xyz_cam rgb_cam i 0 + xyz_cam rgb_cam i 1 + xyz_cam rgb_cam i 2 = 1) ∧
    (∀ (i : Int) (v : F),
      ((0 + xyz_cam rgb_cam i 0 * v) + xyz_cam rgb_cam i 1 * v) + xyz_cam rgb_cam i 2 * v = v) ∧
    (∀ (cbrt : F → F) (r : Int → F), r 0 = r 1 → r 1 = r 2 →
      labOf (xyz_cam rgb_cam) cbrt r 1 = 0 ∧ labOf (xyz_cam rgb_cam) cbrt r 2 = 0) ∧
    (∀ (rawData : Int → Int → F) (cfarray : Cfa) (cbrt : F → F) (top left d : Int)
      (m : Machine F) (row col : Int),
      (redBlueStep rawData cfarray (xyz_cam rgb_cam) cbrt top left d m row col).rgb d (row - top)
          (col - left) 0
        = (redBlueStep rawData cfarray (xyz_cam rgb_cam) cbrt top left d m row col).rgb d
          (row - top) (col - left) 1 →
      (redBlueStep rawData cfarray (xyz_cam rgb_cam) cbrt top left d m row col).rgb d (row - top)
          (col - left) 1
        = (redBlueStep rawData cfarray (xyz_cam rgb_cam) cbrt top left d m row col).rgb d
          (row - top) (col - left) 2 →
      (redBlueStep rawData cfarray (xyz_cam rgb_cam) cbrt top left d m row col).lab d (row - top)
          (col - left) 1 = 0 ∧
      (redBlueStep rawData cfarray (xyz_cam rgb_cam) cbrt top left d m row col).lab d (row - top)
          (col - left) 2 = 0) := by
  have hrow := xyz_cam_identity_row rgb_cam hid
  have hx : ∀ (i : Int) (v : F),
      ((0 + xyz_cam rgb_cam i 0 * v) + xyz_cam rgb_cam i 1 * v) + xyz_cam rgb_cam i 2 * v = v := by
    intro i v
    linear_combination v * hrow i
  have hlab : ∀ (cbrt : F → F) (r : Int → F), r 0 = r 1 → r 1 = r 2 →
      labOf (xyz_cam rgb_cam) cbrt r 1 = 0 ∧ labOf (xyz_cam rgb_cam) cbrt r 2 = 0 := by
    intro cbrt r h01 h12
    unfold labOf
    rw [h01, h12, hx 0, hx 1, hx 2]
    simp
  refine ⟨xyz_rgb_row_sum, hrow, hx, hlab, ?_⟩
  intro rawData cfarray cbrt top left d m row col h01 h12
  rw [redBlueStep_lab_self rawData cfarray _ cbrt top left d m row col 1 (by decide) (by decide),
    redBlueStep_lab_self rawData cfarray _ cbrt top left d m row col 2 (by decide) (by decide)]
  exact hlab cbrt _ h01 h12

end Matrix

/-- Instance of C12: row 2, column 1 for the camera matrix with entries
`4 k + c + 1`. -/
theorem xyz_cam_is_scaled_product_witness :
    (0 : Int) ≤ 2 ∧ (2 : Int) < 3 ∧ (0 : Int) ≤ 1 ∧ (1 : Int) < 3 ∧
    xyz_cam (fun k c : Int => ((k * 4 + c + 1 : Int) : ℚ)) 2 1
      = (xyz_rgb 2 0 * ((0 * 4 + 1 + 1 : Int) : ℚ) + xyz_rgb 2 1 * ((1 * 4 + 1 + 1 : Int) : ℚ)
          + xyz_rgb 2 2 * ((2 * 4 + 1 + 1 : Int) : ℚ)) / d65_white 2 :=
  ⟨by decide, by decide, by decide, by decide,
   (xyz_cam_is_scaled_product (fun k c : Int => ((k * 4 + c + 1 : Int) : ℚ)) (fun _ _ => 0) 2 1
      (by decide) (by decide) (by decide) (by decide)).2.1⟩

/-- Instance of C20: the identity camera matrix and the gray triple
`(1000, 1000, 1000)`. -/
theorem identity_camera_gray_has_zero_chroma_witness :
    (∀ k c : Int, 0 ≤ k → k < 3 → 0 ≤ c → c < 3 → demoCam k c = if k = c then 1 else 0) ∧
    labOf (xyz_cam demoCam) demoCbrt (fun _ => 1000) 1 = 0 ∧
    labOf (xyz_cam demoCam) demoCbrt (fun _ => 1000) 2 = 0 :=
  ⟨fun _ _ _ _ _ _ => rfl,
   ((identity_camera_gray_has_zero_chroma demoCam (fun _ _ _ _ _ _ => rfl)).2.2.2.1 demoCbrt
      (fun _ => 1000) rfl rfl).1,
   ((identity_camera_gray_has_zero_chroma demoCam (fun _ _ _ _ _ _ => rfl)).2.2.2.1 demoCbrt
      (fun _ => 1000) rfl rfl).2⟩

/-! ## The homogeneity scores, from the Lab volumes -/

section Homogeneity
variable {F : Type} [LinearOrderedField F]

/-- After the homogeneity pass the score of every cell of its range is the sum
of the four increments computed from the Lab volumes the pass started with. -/
theorem homoPass_scores (width height : Int) (top left : Int) (m : Machine F) :
    ∀ row ∈ homoRows height top, ∀ col ∈ homoCols width left, ∀ d : Int, (d = 0 ∨ d = 1) →
      (homoPass width height top left m).homo d (row - top) (col - left)
        = homoBit m.lab (row - top) (col - left) d 0 + homoBit m.lab (row - top) (col - left) d 1
          + homoBit m.lab (row - top) (col - left) d 2
          + homoBit m.lab (row - top) (col - left) d 3 := by
  unfold homoPass
  refine (sweep_writes (homoRows height top) (fun _ => homoCols width left) (homoStep top left)
    (fun s : Machine F => s.lab = m.lab)
    (fun row col s => ∀ d : Int, (d = 0 ∨ d = 1) →
      s.homo d (row - top) (col - left)
        = homoBit m.lab (row - top) (col - left) d 0 + homoBit m.lab (row - top) (col - left) d 1
          + homoBit m.lab (row - top) (col - left) d 2
          + homoBit m.lab (row - top) (col - left) d 3)
    ?_ ?_ ?_ m rfl).2
  · intro s row col _ _ hs
    rw [homoStep_lab]
    exact hs
  · intro s row col _ _ hs d hd
    rw [homoStep_homo_self top left s row col d hd, hs]
  · intro s row col row' col' _ _ _ _ hs hw d hd
    by_cases hcell : row' = row ∧ col' = col
    · obtain ⟨hr, hc⟩ := hcell
      subst hr hc
      rw [homoStep_homo_self top left s row' col' d hd, hs]
    · rw [homoStep_homo_other top left s row col d (row' - top) (col' - left) (by omega)]
      exact hw d hd

theorem homoBit_sum_eq_count (lab : Int → Int → Int → Int → F) (tr tc d : Int) :
    homoBit lab tr tc d 0 + homoBit lab tr tc d 1 + homoBit lab tr tc d 2 + homoBit lab tr tc d 3
      = ((List.range 4).filter fun i =>
          decide (ldiffOf lab tr tc d i ≤ lepsOf lab tr tc ∧
            abdiffOf lab tr tc d i ≤ abepsOf lab tr tc)).length := by
  have hb : ∀ i : Nat, homoBit lab tr tc d i
      = if (decide (ldiffOf lab tr tc d i ≤ lepsOf lab tr tc ∧
            abdiffOf lab tr tc d i ≤ abepsOf lab tr tc)) = true then 1 else 0 := by
    intro i
    unfold homoBit
    by_cases h1 : ldiffOf lab tr tc d i ≤ lepsOf lab tr tc <;>
      by_cases h2 : abdiffOf lab tr tc d i ≤ abepsOf lab tr tc <;> simp [h1, h2]
  rw [length_filter_eq_sum, hb 0, hb 1, hb 2, hb 3]
  simp [List.range_succ]
  ring

/-- C13: for every pixel of a tile's homogeneity range and each direction `d`,
with `ldiff[d][i]` the absolute lightness difference and `abdiff[d][i]` the
squared chroma distance between the pixel and its left, right, upper and lower
neighbour (`i = 0, 1, 2, 3`) in the Lab volume of direction `d`: the lightness
threshold is `min(max(ldiff[0][0], ldiff[0][1]), max(ldiff[1][2], ldiff[1][3]))`,
the chroma threshold is the same expression in `abdiff`, and the score stored in
`homo[d]` is the number of the four neighbours that pass both thresholds, hence
at most 4.  The pass leaves the Lab volumes unchanged. -/
theorem homogeneity_score_counts_neighbours (width height : Int) (top left : Int)
    (m : Machine F) (row col d : Int) (hrow : row ∈ homoRows height top)
    (hcol : col ∈ homoCols width left) (hd : d = 0 ∨ d = 1) :
    (homoPass width height top left m).lab = m.lab ∧
    (ldiffOf m.lab (row - top) (col - left) d 0
        = |m.lab d (row - top) (col - left) 0 - m.lab d (row - top) (col - left - 1) 0| ∧
      ldiffOf m.lab (row - top) (col - left) d 1
        = |m.lab d (row - top) (col - left) 0 - m.lab d (row - top) (col - left + 1) 0| ∧
      ldiffOf m.lab (row - top) (col - left) d 2
        = |m.lab d (row - top) (col - left) 0 - m.lab d (row - top - 1) (col - left) 0| ∧
      ldiffOf m.lab (row - top) (col - left) d 3
        = |m.lab d (row - top) (col - left) 0 - m.lab d (row - top + 1) (col - left) 0|) ∧
    (abdiffOf m.lab (row - top) (col - left) d 0
        = (m.lab d (row - top) (col - left) 1 - m.lab d (row - top) (col - left - 1) 1) ^ 2
          + (m.lab d (row - top) (col - left) 2 - m.lab d (row - top) (col - left - 1) 2) ^ 2 ∧
      abdiffOf m.lab (row - top) (col - left) d 1
        = (m.lab d (row - top) (col - left) 1 - m.lab d (row - top) (col - left + 1) 1) ^ 2
          + (m.lab d (row - top) (col - left) 2 - m.lab d (row - top) (col - left + 1) 2) ^ 2 ∧
      abdiffOf m.lab (row - top) (col - left) d 2
        = (m.lab d (row - top) (col - left) 1 - m.lab d (row - top - 1) (col - left) 1) ^ 2
          + (m.lab d (row - top) (col - left) 2 - m.lab d (row - top - 1) (col - left) 2) ^ 2 ∧
      abdiffOf m.lab (row - top) (col - left) d 3
        = (m.lab d (row - top) (col - left) 1 - m.lab d (row - top + 1) (col - left) 1) ^ 2
          + (m.lab d (row - top) (col - left) 2 - m.lab d (row - top + 1) (col - left) 2) ^ 2) ∧
    lepsOf m.lab (row - top) (col - left)
      = min (max (ldiffOf m.lab (row - top) (col - left) 0 0)
              (ldiffOf m.lab (row - top) (col - left) 0 1))
          (max (ldiffOf m.lab (row - top) (col - left) 1 2)
              (ldiffOf m.lab (row - top) (col - left) 1 3)) ∧
    abepsOf m.lab (row - top) (col - left)
      = min (max (abdiffOf m.lab (row - top) (col - left) 0 0)
              (abdiffOf m.lab (row - top) (col - left) 0 1))
          (max (abdiffOf m.lab (row - top) (col - left) 1 2)
              (abdiffOf m.lab (row - top) (col - left) 1 3)) ∧
    (homoPass width height top left m).homo d (row - top) (col - left)
      = ((List.range 4).filter fun i =>
          decide (ldiffOf m.lab (row - top) (col - left) d i ≤ lepsOf m.lab (row - top) (col - left)
            ∧ abdiffOf m.lab (row - top) (col - left) d i
              ≤ abepsOf m.lab (row - top) (col - left))).length ∧
    (homoPass width height top left m).homo d (row - top) (col - left) ≤ 4 := by
  refine ⟨(homoPass_rgb_lab width height top left m).2, ?_, ?_, rfl, rfl, ?_, ?_⟩
  · refine ⟨?_, ?_, ?_, ?_⟩ <;> simp [ldiffOf, dir, sub_eq_add_neg]
  · refine ⟨?_, ?_, ?_, ?_⟩ <;> simp [abdiffOf, SQR, dir, sub_eq_add_neg, pow_two]
  · rw [homoPass_scores width height top left m row hrow col hcol d hd, homoBit_sum_eq_count]
  · exact homoPass_le_four width height top left m row hrow col hcol d hd

end Homogeneity

/-- Instance of C13: the cell of pixel `(4, 5)` in the tile at `(2, 2)` of an
11 x 11 image, direction 1. -/
theorem homogeneity_score_counts_neighbours_witness :
    (4 : Int) ∈ homoRows 11 2 ∧ (5 : Int) ∈ homoCols 11 2 ∧
    (homoPass 11 11 2 2 demoMachine).homo 1 (4 - 2) (5 - 2) ≤ 4 :=
  ⟨by decide, by decide,
   (homogeneity_score_counts_neighbours 11 11 2 2 demoMachine 4 5 1 (by decide) (by decide)
      (Or.inr rfl)).2.2.2.2.2.2⟩

/-! ## The green hypotheses -/

/-- The columns visited by the green loop in a row are exactly the non-green
pixels of the column range. -/
theorem mem_greenCols_iff (width : Int) (cfarray : Cfa) (hv : validateBayerCfa cfarray = true)
    (left row col : Int) :
    col ∈ greenCols width cfarray left row ↔
      left ≤ col ∧ col < left + 144 ∧ col < width - 2 ∧ fc cfarray row col ≠ 1 := by
  constructor
  · intro h
    obtain ⟨g, hg, hfc⟩ := fc_valid cfarray hv
    rw [mem_greenCols] at h
    have hl := hfc row left
    have hc := hfc row col
    obtain ⟨h1, h2, h3, h4⟩ := h
    refine ⟨by omega, h2, h3, ?_⟩
    intro hgr
    have hpc : (row + col) % 2 = g := hc.1.mp hgr
    rcases hl.2 with h | h | h
    · have : ¬ (row + left) % 2 = g := fun hh => by
        rw [hl.1.mpr hh] at h; exact absurd h (by decide)
      rw [h] at h4
      norm_num at h4
      omega
    · have : (row + left) % 2 = g := hl.1.mp h
      rw [h] at h4
      norm_num at h4
      omega
    · have : ¬ (row + left) % 2 = g := fun hh => by
        rw [hl.1.mpr hh] at h; exact absurd h (by decide)
      rw [h] at h4
      norm_num at h4
      omega
  · rintro ⟨h1, h2, h3, h4⟩
    exact nongreen_mem_greenCols width cfarray hv left row col h4 h1 h2 h3

section GreenPass
variable {F : Type} [LinearOrderedField F]

/-- The median of three values lies between the other two. -/
theorem median_between (a b c : F) : min b c ≤ median a b c ∧ median a b c ≤ max b c := by
  unfold median
  constructor
  · rcases le_total a b with h | h
    · rw [min_eq_left h, max_eq_right h]
      exact le_trans (by rw [min_comm]) (le_max_right _ _)
    · rw [min_eq_right h]
      exact le_trans (min_le_left _ _) (le_max_left _ _)
  · exact max_le (le_trans (min_le_right _ _) (le_max_left _ _))
      (le_trans (min_le_left _ _) (le_max_right _ _))

/-- The green pass leaves the cells of green pixels as they were. -/
theorem greenPass_green_cells (width height : Int) (rawData : Int → Int → F) (cfarray : Cfa)
    (hv : validateBayerCfa cfarray = true) (top left : Int) (m : Machine F) :
    ∀ d tr tc c : Int, fc cfarray (tr + top) (tc + left) = 1 →
      (greenPass width height rawData cfarray top left m).rgb d tr tc c = m.rgb d tr tc c := by
  unfold greenPass
  refine sweep_invariant (greenRows height top) (greenCols width cfarray left)
    (greenStep rawData top left)
    (fun s : Machine F => ∀ d tr tc c : Int, fc cfarray (tr + top) (tc + left) = 1 →
      s.rgb d tr tc c = m.rgb d tr tc c) ?_ m (fun _ _ _ _ _ => rfl)
  intro s row col _ hcol hs d tr tc c hg
  have hng := ((mem_greenCols_iff width cfarray hv left row col).mp hcol).2.2.2
  have hcell : ¬ (tr = row - top ∧ tc = col - left) := by
    rintro ⟨h1, h2⟩
    apply hng
    have e1 : tr + top = row := by omega
    have e2 : tc + left = col := by omega
    rw [e1, e2] at hg
    exact hg
  rw [greenStep_rgb, upd4_ne _ _ _ _ _ _ _ _ _ _ (fun h => hcell ⟨h.2.1, h.2.2.1⟩),
    upd4_ne _ _ _ _ _ _ _ _ _ _ (fun h => hcell ⟨h.2.1, h.2.2.1⟩)]
  exact hs d tr tc c hg

/-- C15: in every row of the green pass the loop visits exactly the non-green
pixels of its column range (for a valid Bayer CFA); at a visited pixel the
direction-0 green hypothesis is `median(0.25 * (2 * (L + C + R) - LL - RR), L, R)`
and the direction-1 hypothesis is `median(0.25 * (2 * (U + C + D) - UU - DD), U, D)`,
so the former lies between `min(L, R)` and `max(L, R)` and the latter between
`min(U, D)` and `max(U, D)`; the cells of green pixels are left as they were. -/
theorem green_pass_median_of_neighbours (width height : Int) (rawData : Int → Int → F)
    (cfarray : Cfa) (hv : validateBayerCfa cfarray = true) (top left : Int) (m : Machine F)
    (row col : Int) (hrow : row ∈ greenRows height top) :
    (col ∈ greenCols width cfarray left row ↔
      left ≤ col ∧ col < min (left + TS) (width - 2) ∧ fc cfarray row col ≠ 1) ∧
    (col ∈ greenCols width cfarray left row →
      (greenPass width height rawData cfarray top left m).rgb 0 (row - top) (col - left) 1
        = median ((1 / 4) * (2 * (rawData row (col - 1) + rawData row col + rawData row (col + 1))
            - rawData row (col - 2) - rawData row (col + 2)))
          (rawData row (col - 1)) (rawData row (col + 1)) ∧
      (greenPass width height rawData cfarray top left m).rgb 1 (row - top) (col - left) 1
        = median ((1 / 4) * (2 * (rawData (row - 1) col + rawData row col + rawData (row + 1) col)
            - rawData (row - 2) col - rawData (row + 2) col))
          (rawData (row - 1) col) (rawData (row + 1) col) ∧
      min (rawData row (col - 1)) (rawData row (col + 1))
        ≤ (greenPass width height rawData cfarray top left m).rgb 0 (row - top) (col - left) 1 ∧
      (greenPass width height rawData cfarray top left m).rgb 0 (row - top) (col - left) 1
        ≤ max (rawData row (col - 1)) (rawData row (col + 1)) ∧
      min (rawData (row - 1) col) (rawData (row + 1) col)
        ≤ (greenPass width height rawData cfarray top left m).rgb 1 (row - top) (col - left) 1 ∧
      (greenPass width height rawData cfarray top left m).rgb 1 (row - top) (col - left) 1
        ≤ max (rawData (row - 1) col) (rawData (row + 1) col)) ∧
    (fc cfarray row col = 1 → ∀ d c : Int,
      (greenPass width height rawData cfarray top left m).rgb d (row - top) (col - left) c
        = m.rgb d (row - top) (col - left) c) := by
  refine ⟨?_, ?_, ?_⟩
  · rw [mem_greenCols_iff width cfarray hv left row col]
    simp only [TS, lt_min_iff]
    tauto
  · intro hcol
    obtain ⟨e0, e1⟩ := greenPass_values width height rawData cfarray top left m row hrow col hcol
    have f0 : greenRef rawData 0 row col
        = median ((1 / 4) * (2 * (rawData row (col - 1) + rawData row col + rawData row (col + 1))
            - rawData row (col - 2) - rawData row (col + 2)))
          (rawData row (col - 1)) (rawData row (col + 1)) := by
      simp only [greenRef, if_true]
      congr 1
      ring
    have f1 : greenRef rawData 1 row col
        = median ((1 / 4) * (2 * (rawData (row - 1) col + rawData row col + rawData (row + 1) col)
            - rawData (row - 2) col - rawData (row + 2) col))
          (rawData (row - 1) col) (rawData (row + 1) col) := by
      simp only [greenRef, show ¬ ((1 : Int) = 0) by decide, if_false]
      congr 1
      ring
    rw [e0, e1, f0, f1]
    exact ⟨rfl, rfl, (median_between _ _ _).1, (median_between _ _ _).2,
      (median_between _ _ _).1, (median_between _ _ _).2⟩
  · intro hg d c
    have h := greenPass_green_cells width height rawData cfarray hv top left m d (row - top)
      (col - left) c (by
        have e1 : row - top + top = row := by omega
        have e2 : col - left + left = col := by omega
        rw [e1, e2]
        exact hg)
    exact h

end GreenPass

/-- Instance of C15: the red pixel `(4, 4)` of the RGGB pattern in the tile at
`(2, 2)` of an 11 x 11 image. -/
theorem green_pass_median_of_neighbours_witness :
    validateBayerCfa demoCfa = true ∧ (4 : Int) ∈ greenRows 11 2 ∧
    (4 : Int) ∈ greenCols 11 demoCfa 2 4 ∧
    min (demoRaw 4 (4 - 1)) (demoRaw 4 (4 + 1))
      ≤ (greenPass 11 11 demoRaw demoCfa 2 2 demoMachine).rgb 0 (4 - 2) (4 - 2) 1 :=
  ⟨by decide, by decide, by decide,
   ((green_pass_median_of_neighbours 11 11 demoRaw demoCfa (by decide) 2 2 demoMachine 4 4
      (by decide)).2.1 (by decide)).2.2.1⟩

/-! ## The red and blue estimates -/

/-- The colours around a row of a valid Bayer pattern: `cng` is the colour of
the non-green pixels of the two adjacent rows, `2 - cng` that of the non-green
pixels of the row itself. -/
theorem cngOf_colours (cfarray : Cfa) (hv : validateBayerCfa cfarray = true) (row : Int) :
    (∀ k : Int, fc cfarray (row + 1) k ≠ 1 → ((fc cfarray (row + 1) k : Nat) : Int)
      = cngOf cfarray row) ∧
    (∀ k : Int, fc cfarray (row - 1) k ≠ 1 → ((fc cfarray (row - 1) k : Nat) : Int)
      = cngOf cfarray row) ∧
    (∀ k : Int, fc cfarray row k ≠ 1 → ((fc cfarray row k : Nat) : Int)
      = 2 - cngOf cfarray row) := by
  obtain ⟨a, b, c, d⟩ := cfarray
  simp only [validateBayerCfa, Bool.or_eq_true, Bool.and_eq_true, beq_iff_eq] at hv
  unfold cngOf fc
  rcases hv with ⟨⟨rfl, rfl⟩, (⟨rfl, rfl⟩ | ⟨rfl, rfl⟩)⟩ | ⟨⟨rfl, rfl⟩, (⟨rfl, rfl⟩ | ⟨rfl, rfl⟩)⟩ <;>
    refine ⟨?_, ?_, ?_⟩ <;> intro k <;> simp <;> split_ifs <;> simp <;> omega

section RedBlue
variable {F : Type} [LinearOrderedField F]

theorem CLIP_range (a : F) : 0 ≤ CLIP a ∧ CLIP a ≤ 65535 := by
  unfold CLIP
  exact ⟨le_max_left _ _, max_le (by norm_num) (min_le_left _ _)⟩

/-- The red/blue pass keeps the green hypotheses of the non-green pixels. -/
theorem redBluePass_greenDone (width height : Int) (rawData : Int → Int → F) (cfarray : Cfa)
    (hv : validateBayerCfa cfarray = true) (xyzCam : Int → Int → F) (cbrt : F → F)
    (top left : Int) (m : Machine F)
    (hG : GreenDone width height rawData cfarray top left m) :
    GreenDone width height rawData cfarray top left
      (redBluePass width height rawData cfarray xyzCam cbrt top left m) := by
  unfold redBluePass
  rw [loopFrom_zero_two]
  simp only [List.foldl_cons, List.foldl_nil]
  obtain ⟨g0, _, _⟩ := redBlueSweep_done width height rawData cfarray hv xyzCam cbrt top left 0
    (Or.inl rfl) m hG
  exact (redBlueSweep_done width height rawData cfarray hv xyzCam cbrt top left 1
    (Or.inr rfl) _ g0).1

/-- After the first two passes of a tile the RGB hypotheses hold the reference
values and the green hypotheses of the non-green pixels are still in place. -/
theorem greenRedBlue_done (width height : Int) (rawData : Int → Int → F) (cfarray : Cfa)
    (hv : validateBayerCfa cfarray = true) (xyzCam : Int → Int → F) (cbrt : F → F)
    (top left : Int) (m : Machine F) :
    GreenDone width height rawData cfarray top left
      (greenRedBlue width height rawData cfarray xyzCam cbrt top left m) ∧
    ∀ d : Int, (d = 0 ∨ d = 1) →
      RgbLabDone width height rawData cfarray xyzCam cbrt top left d
        (greenRedBlue width height rawData cfarray xyzCam cbrt top left m) := by
  unfold greenRedBlue
  have hG := greenPass_greenDone width height rawData cfarray hv top left m
  obtain ⟨r0, r1⟩ := redBluePass_done width height rawData cfarray hv xyzCam cbrt top left _ hG
  refine ⟨redBluePass_greenDone width height rawData cfarray hv xyzCam cbrt top left _ hG, ?_⟩
  rintro d (rfl | rfl)
  · exact r0
  · exact r1

/-- The RGB triple of a green pixel in terms of the green hypotheses. -/
theorem rgbRef_green_site (rawData : Int → Int → F) (cfarray : Cfa)
    (hv : validateBayerCfa cfarray = true) (d row col : Int) (hg : fc cfarray row col = 1) :
    rgbRef rawData cfarray d row col 1 = rawData row col ∧
    rgbRef rawData cfarray d row col (2 - cngOf cfarray row)
      = CLIP (rawData row col + (1 / 2) * (rawData row (col - 1) + rawData row (col + 1)
          - greenRef rawData d row (col - 1) - greenRef rawData d row (col + 1))) ∧
    rgbRef rawData cfarray d row col (cngOf cfarray row)
      = CLIP (rawData row col + (1 / 2) * (rawData (row - 1) col + rawData (row + 1) col
          - greenRef rawData d (row - 1) col - greenRef rawData d (row + 1) col)) := by
  unfold rgbRef
  rcases cngOf_valid cfarray hv row with hk | hk <;> simp [hg, hk]

/-- The RGB triple of a red or blue pixel in terms of the green hypotheses. -/
theorem rgbRef_other_site (rawData : Int → Int → F) (cfarray : Cfa)
    (hv : validateBayerCfa cfarray = true) (d row col : Int) (hg : fc cfarray row col ≠ 1) :
    rgbRef rawData cfarray d row col 1 = greenRef rawData d row col ∧
    rgbRef rawData cfarray d row col (2 - cngOf cfarray row) = rawData row col ∧
    rgbRef rawData cfarray d row col (cngOf cfarray row)
      = CLIP (greenRef rawData d row col + (1 / 4) * (rawData (row - 1) (col - 1)
          + rawData (row - 1) (col + 1) + rawData (row + 1) (col - 1)
          + rawData (row + 1) (col + 1)
          - greenRef rawData d (row - 1) (col - 1) - greenRef rawData d (row - 1) (col + 1)
          - greenRef rawData d (row + 1) (col - 1) - greenRef rawData d (row + 1) (col + 1))) := by
  unfold rgbRef
  rcases cngOf_valid cfarray hv row with hk | hk <;> simp [hg, hk]

end RedBlue

section RedBlueSites
variable {F : Type} [LinearOrderedField F]

/-- C14 (as amended): after the green and the red/blue pass of a tile, for each
direction and every pixel of the red/blue range: at a green pixel the channel of
the non-green pixels of the same row (`2 - cng`) is the clipped estimate from the
left and right raw neighbours corrected by the green there, the channel of the
non-green pixels of the adjacent rows (`cng`) is the clipped estimate from the
upper and lower raw neighbours corrected by the green there, and the green
channel is the raw sample; at a red or blue pixel the opposite channel (`cng`)
is the clipped value of the local green plus a quarter of (the four diagonal raw
neighbours minus the green at the four diagonal cells), and the native channel
(`2 - cng`, the pixel's own colour) is the raw sample.  The green values used
are the green hypotheses of the green pass. -/
theorem red_blue_estimates_by_site (width height : Int) (rawData : Int → Int → F)
    (cfarray : Cfa) (hv : validateBayerCfa cfarray = true) (xyzCam : Int → Int → F)
    (cbrt : F → F) (top left : Int) (m : Machine F) (d row col : Int) (hd : d = 0 ∨ d = 1)
    (hrow : row ∈ redBlueRows height top) (hcol : col ∈ redBlueCols width left) :
    (fc cfarray row col = 1 →
      (greenRedBlue width height rawData cfarray xyzCam cbrt top left m).rgb d (row - top)
          (col - left) (2 - cngOf cfarray row)
        = rowEstimate rawData
            (greenRedBlue width height rawData cfarray xyzCam cbrt top left m).rgb
            top left d row col ∧
      (greenRedBlue width height rawData cfarray xyzCam cbrt top left m).rgb d (row - top)
          (col - left) (cngOf cfarray row)
        = columnEstimate rawData
            (greenRedBlue width height rawData cfarray xyzCam cbrt top left m).rgb
            top left d row col ∧
      (greenRedBlue width height rawData cfarray xyzCam cbrt top left m).rgb d (row - top)
          (col - left) 1 = rawData row col) ∧
    (fc cfarray row col ≠ 1 →
      (greenRedBlue width height rawData cfarray xyzCam cbrt top left m).rgb d (row - top)
          (col - left) (cngOf cfarray row)
        = diagonalEstimate rawData
            (greenRedBlue width height rawData cfarray xyzCam cbrt top left m).rgb
            top left d row col ∧
      (greenRedBlue width height rawData cfarray xyzCam cbrt top left m).rgb d (row - top)
          (col - left) (2 - cngOf cfarray row) = rawData row col ∧
      ((fc cfarray row col : Nat) : Int) = 2 - cngOf cfarray row) ∧
    (∀ a b : Int, -1 ≤ a → a ≤ 1 → -1 ≤ b → b ≤ 1 → fc cfarray (row + a) (col + b) ≠ 1 →
      (greenRedBlue width height rawData cfarray xyzCam cbrt top left m).rgb d (row + a - top)
          (col + b - left) 1 = greenRef rawData d (row + a) (col + b)) := by
  obtain ⟨hG, hR⟩ := greenRedBlue_done width height rawData cfarray hv xyzCam cbrt top left m
  obtain ⟨g, hg, hfc⟩ := fc_valid cfarray hv
  have hcng := cngOf_valid cfarray hv row
  rw [mem_redBlueRows] at hrow
  rw [mem_redBlueCols] at hcol
  obtain ⟨r1, r2, r3⟩ := hrow
  obtain ⟨c1, c2, c3⟩ := hcol
  have hcell : ∀ c : Int, 0 ≤ c → c < 3 →
      (greenRedBlue width height rawData cfarray xyzCam cbrt top left m).rgb d (row - top)
        (col - left) c = rgbRef rawData cfarray d row col c := fun c h0 h3 =>
    (hR d hd row col _ _ c rfl rfl r1 r2 r3 c1 c2 c3 h0 h3).1
  have hgreen : ∀ a b : Int, -1 ≤ a → a ≤ 1 → -1 ≤ b → b ≤ 1 →
      fc cfarray (row + a) (col + b) ≠ 1 →
      (greenRedBlue width height rawData cfarray xyzCam cbrt top left m).rgb d (row + a - top)
        (col + b - left) 1 = greenRef rawData d (row + a) (col + b) := by
    intro a b ha1 ha2 hb1 hb2 hng
    exact hG d (row + a) (col + b) _ _ rfl rfl hd (by omega) (by omega) (by omega) (by omega)
      (by omega) (by omega) hng
  have hnb : ∀ a b : Int, -1 ≤ a → a ≤ 1 → -1 ≤ b → b ≤ 1 →
      ¬ (row + a + (col + b)) % 2 = g →
      (greenRedBlue width height rawData cfarray xyzCam cbrt top left m).rgb d (row - top + a)
        (col - left + b) 1 = greenRef rawData d (row + a) (col + b) := by
    intro a b ha1 ha2 hb1 hb2 hp
    have := hgreen a b ha1 ha2 hb1 hb2 (fun h => hp ((hfc (row + a) (col + b)).1.mp h))
    have e1 : row - top + a = row + a - top := by ring
    have e2 : col - left + b = col + b - left := by ring
    rw [e1, e2]
    exact this
  refine ⟨?_, ?_, hgreen⟩
  · intro hgr
    have hp : (row + col) % 2 = g := (hfc row col).1.mp hgr
    obtain ⟨v1, v2, v3⟩ := rgbRef_green_site rawData cfarray hv d row col hgr
    have eL := hnb 0 (-1) (by decide) (by decide) (by decide) (by decide) (by omega)
    have eR := hnb 0 1 (by decide) (by decide) (by decide) (by decide) (by omega)
    have eU := hnb (-1) 0 (by decide) (by decide) (by decide) (by decide) (by omega)
    have eD := hnb 1 0 (by decide) (by decide) (by decide) (by decide) (by omega)
    simp only [add_zero, ← sub_eq_add_neg] at eL eR eU eD
    refine ⟨?_, ?_, ?_⟩
    · rw [hcell _ (by omega) (by omega), v2]
      unfold rowEstimate
      rw [eL, eR]
    · rw [hcell _ (by omega) (by omega), v3]
      unfold columnEstimate
      rw [eU, eD]
    · rw [hcell 1 (by decide) (by decide), v1]
  · intro hng
    have hp : ¬ (row + col) % 2 = g := fun h => hng ((hfc row col).1.mpr h)
    obtain ⟨v1, v2, v3⟩ := rgbRef_other_site rawData cfarray hv d row col hng
    have e0 := hnb 0 0 (by decide) (by decide) (by decide) (by decide) (by omega)
    have e1 := hnb (-1) (-1) (by decide) (by decide) (by decide) (by decide) (by omega)
    have e2 := hnb (-1) 1 (by decide) (by decide) (by decide) (by decide) (by omega)
    have e3 := hnb 1 (-1) (by decide) (by decide) (by decide) (by decide) (by omega)
    have e4 := hnb 1 1 (by decide) (by decide) (by decide) (by decide) (by omega)
    simp only [add_zero, ← sub_eq_add_neg] at e0 e1 e2 e3 e4
    refine ⟨?_, ?_, (cngOf_colours cfarray hv row).2.2 col hng⟩
    · rw [hcell _ (by omega) (by omega), v3]
      unfold diagonalEstimate
      rw [e0, e1, e2, e3, e4]
    · rw [hcell _ (by omega) (by omega), v2]

end RedBlueSites

/-- Instance of C14 (as amended): the green pixel `(4, 5)` of the RGGB pattern
in the tile at `(2, 2)` of an 11 x 11 image. -/
theorem red_blue_estimates_by_site_witness :
    validateBayerCfa demoCfa = true ∧ (4 : Int) ∈ redBlueRows 11 2 ∧
    (5 : Int) ∈ redBlueCols 11 2 ∧ fc demoCfa 4 5 = 1 ∧
    (greenRedBlue 11 11 demoRaw demoCfa (xyz_cam demoCam) demoCbrt 2 2 demoMachine).rgb 0
      (4 - 2) (5 - 2) 1 = demoRaw 4 5 :=
  ⟨by decide, by decide, by decide, by decide,
   ((red_blue_estimates_by_site 11 11 demoRaw demoCfa (by decide) (xyz_cam demoCam) demoCbrt 2 2
      demoMachine 0 4 5 (Or.inl rfl) (by decide) (by decide)).1 (by decide)).2.2⟩

theorem greenRef_zero {F : Type} [LinearOrderedField F] (rawData : Int → Int → F)
    (row col : Int) :
    greenRef rawData 0 row col
      = median ((1 / 4) * ((rawData row (col - 1) + rawData row col + rawData row (col + 1)) * 2
          - rawData row (col - 2) - rawData row (col + 2)))
        (rawData row (col - 1)) (rawData row (col + 1)) := by
  simp only [greenRef, if_true]

/-- C14 (counterexample): RGGB pattern, 11 x 11 image, direction 0.  At the
green pixel `(4, 5)` the stored red is 6 and the stored blue is 49/4, two
different values, neither of which is the diagonal estimate (8) the claim
describes for a green pixel; at the red pixel `(4, 4)` the stored blue is
147/16, not the estimate from the axis-adjacent neighbours (1 along the row, 1
along the column) the claim describes for a red pixel. -/
theorem red_blue_sites_are_swapped :
    fc demoCfa 4 5 = 1 ∧
    (greenRedBlue 11 11 demoRaw demoCfa (xyz_cam demoCam) demoCbrt 2 2 demoMachine).rgb 0
      (4 - 2) (5 - 2) 0 = 6 ∧
    (greenRedBlue 11 11 demoRaw demoCfa (xyz_cam demoCam) demoCbrt 2 2 demoMachine).rgb 0
      (4 - 2) (5 - 2) 2 = 49 / 4 ∧
    diagonalEstimate demoRaw
      (greenRedBlue 11 11 demoRaw demoCfa (xyz_cam demoCam) demoCbrt 2 2 demoMachine).rgb
      2 2 0 4 5 = 8 ∧
    fc demoCfa 4 4 = 0 ∧
    (greenRedBlue 11 11 demoRaw demoCfa (xyz_cam demoCam) demoCbrt 2 2 demoMachine).rgb 0
      (4 - 2) (4 - 2) 2 = 147 / 16 ∧
    rowEstimate demoRaw
      (greenRedBlue 11 11 demoRaw demoCfa (xyz_cam demoCam) demoCbrt 2 2 demoMachine).rgb
      2 2 0 4 4 = 1 ∧
    columnEstimate demoRaw
      (greenRedBlue 11 11 demoRaw demoCfa (xyz_cam demoCam) demoCbrt 2 2 demoMachine).rgb
      2 2 0 4 4 = 1 := by
  obtain ⟨_, hR⟩ := greenRedBlue_done 11 11 demoRaw demoCfa (by decide) (xyz_cam demoCam)
    demoCbrt 2 2 demoMachine
  have hcell : ∀ row col tr tc c : Int, tr = row - 2 → tc = col - 2 → 3 ≤ row → row < 8 →
      3 ≤ col → col < 8 → 0 ≤ c → c < 3 →
      (greenRedBlue 11 11 demoRaw demoCfa (xyz_cam demoCam) demoCbrt 2 2 demoMachine).rgb 0
        tr tc c = rgbRef demoRaw demoCfa 0 row col c := by
    intro row col tr tc c e1 e2 h1 h2 h3 h4 h5 h6
    exact (hR 0 (Or.inl rfl) row col tr tc c e1 e2 (by omega) (by omega) (by omega) (by omega)
      (by omega) (by omega) h5 h6).1
  have hc : cngOf demoCfa 4 = 2 := by decide
  have g45 := rgbRef_green_site demoRaw demoCfa (by decide) 0 4 5 (by decide)
  have g34 := (rgbRef_green_site demoRaw demoCfa (by decide) 0 3 4 (by decide)).1
  have g36 := (rgbRef_green_site demoRaw demoCfa (by decide) 0 3 6 (by decide)).1
  have g54 := (rgbRef_green_site demoRaw demoCfa (by decide) 0 5 4 (by decide)).1
  have g56 := (rgbRef_green_site demoRaw demoCfa (by decide) 0 5 6 (by decide)).1
  have g43 := (rgbRef_green_site demoRaw demoCfa (by decide) 0 4 3 (by decide)).1
  have n44 := (rgbRef_other_site demoRaw demoCfa (by decide) 0 4 4 (by decide)).2.2
  rw [hc] at g45 n44
  norm_num only at g45 n44
  obtain ⟨g45g, g45r, g45b⟩ := g45
  refine ⟨by decide, ?_, ?_, ?_, by decide, ?_, ?_, ?_⟩
  · rw [hcell 4 5 _ _ 0 rfl rfl (by decide) (by decide) (by decide) (by decide) (by decide)
      (by decide), g45r, greenRef_zero, greenRef_zero]
    norm_num [demoRaw, median, CLIP]
  · rw [hcell 4 5 _ _ 2 rfl rfl (by decide) (by decide) (by decide) (by decide) (by decide)
      (by decide), g45b, greenRef_zero, greenRef_zero]
    norm_num [demoRaw, median, CLIP]
  · unfold diagonalEstimate
    rw [hcell 4 5 _ _ 1 rfl rfl (by decide) (by decide) (by decide) (by decide) (by decide)
        (by decide),
      hcell 3 4 _ _ 1 (by decide) (by decide) (by decide) (by decide) (by decide) (by decide)
        (by decide) (by decide),
      hcell 3 6 _ _ 1 (by decide) (by decide) (by decide) (by decide) (by decide) (by decide)
        (by decide) (by decide),
      hcell 5 4 _ _ 1 (by decide) (by decide) (by decide) (by decide) (by decide) (by decide)
        (by decide) (by decide),
      hcell 5 6 _ _ 1 (by decide) (by decide) (by decide) (by decide) (by decide) (by decide)
        (by decide) (by decide), g45g, g34, g36, g54, g56]
    norm_num [demoRaw, CLIP]
  · rw [hcell 4 4 _ _ 2 rfl rfl (by decide) (by decide) (by decide) (by decide) (by decide)
      (by decide), n44, greenRef_zero, greenRef_zero, greenRef_zero, greenRef_zero,
      greenRef_zero]
    norm_num [demoRaw, median, CLIP]
  · unfold rowEstimate
    rw [hcell 4 3 _ _ 1 (by decide) (by decide) (by decide) (by decide) (by decide) (by decide)
        (by decide) (by decide),
      hcell 4 5 _ _ 1 (by decide) (by decide) (by decide) (by decide) (by decide) (by decide)
        (by decide) (by decide), g43, g45g]
    norm_num [demoRaw, CLIP]
  · unfold columnEstimate
    rw [hcell 3 4 _ _ 1 (by decide) (by decide) (by decide) (by decide) (by decide) (by decide)
        (by decide) (by decide),
      hcell 5 4 _ _ 1 (by decide) (by decide) (by decide) (by decide) (by decide) (by decide)
        (by decide) (by decide), g34, g54]
    norm_num [demoRaw, CLIP]

section SampleRange
variable {F : Type} [LinearOrderedField F]

/-- C16 (as amended): after the green and the red/blue pass of a tile, for each
direction, every pixel of the red/blue range and `c` red (0) or blue (2): when
`c` is not the pixel's own colour the stored value is an interpolated one and
lies in `[0, 65535]` for every raw plane; when `c` is the pixel's own colour the
stored value is the raw sample itself, unclipped; so the stored value lies in
`[0, 65535]` whenever the raw sample of the pixel does. -/
theorem interpolated_red_blue_in_sample_range (width height : Int) (rawData : Int → Int → F)
    (cfarray : Cfa) (hv : validateBayerCfa cfarray = true) (xyzCam : Int → Int → F)
    (cbrt : F → F) (top left : Int) (m : Machine F) (d row col c : Int) (hd : d = 0 ∨ d = 1)
    (hrow : row ∈ redBlueRows height top) (hcol : col ∈ redBlueCols width left)
    (hc : c = 0 ∨ c = 2) :
    (((fc cfarray row col : Nat) : Int) ≠ c →
      0 ≤ (greenRedBlue width height rawData cfarray xyzCam cbrt top left m).rgb d (row - top)
          (col - left) c ∧
      (greenRedBlue width height rawData cfarray xyzCam cbrt top left m).rgb d (row - top)
          (col - left) c ≤ 65535) ∧
    (((fc cfarray row col : Nat) : Int) = c →
      (greenRedBlue width height rawData cfarray xyzCam cbrt top left m).rgb d (row - top)
          (col - left) c = rawData row col) ∧
    (0 ≤ rawData row col → rawData row col ≤ 65535 →
      0 ≤ (greenRedBlue width height rawData cfarray xyzCam cbrt top left m).rgb d (row - top)
          (col - left) c ∧
      (greenRedBlue width height rawData cfarray xyzCam cbrt top left m).rgb d (row - top)
          (col - left) c ≤ 65535) := by
  obtain ⟨_, hR⟩ := greenRedBlue_done width height rawData cfarray hv xyzCam cbrt top left m
  have hcng := cngOf_valid cfarray hv row
  rw [mem_redBlueRows] at hrow
  rw [mem_redBlueCols] at hcol
  have hcell : (greenRedBlue width height rawData cfarray xyzCam cbrt top left m).rgb d
      (row - top) (col - left) c = rgbRef rawData cfarray d row col c :=
    (hR d hd row col _ _ c rfl rfl hrow.1 hrow.2.1 hrow.2.2 hcol.1 hcol.2.1 hcol.2.2
      (by omega) (by omega)).1
  rw [hcell]
  by_cases hgr : fc cfarray row col = 1
  · obtain ⟨_, v2, v3⟩ := rgbRef_green_site rawData cfarray hv d row col hgr
    have hclip : 0 ≤ rgbRef rawData cfarray d row col c ∧
        rgbRef rawData cfarray d row col c ≤ 65535 := by
      have hcc : c = 2 - cngOf cfarray row ∨ c = cngOf cfarray row := by omega
      rcases hcc with rfl | rfl
      · rw [v2]
        exact CLIP_range _
      · rw [v3]
        exact CLIP_range _
    refine ⟨fun _ => hclip, ?_, fun _ _ => hclip⟩
    intro h
    rw [hgr] at h
    omega
  · obtain ⟨_, v2, v3⟩ := rgbRef_other_site rawData cfarray hv d row col hgr
    have hnat := (cngOf_colours cfarray hv row).2.2 col hgr
    refine ⟨?_, ?_, ?_⟩
    · intro hne
      have hcc : c = cngOf cfarray row := by omega
      rw [hcc, v3]
      exact CLIP_range _
    · intro he
      have hcc : c = 2 - cngOf cfarray row := by omega
      rw [hcc, v2]
    · intro h0 h1
      have hcc : c = 2 - cngOf cfarray row ∨ c = cngOf cfarray row := by omega
      rcases hcc with rfl | rfl
      · rw [v2]
        exact ⟨h0, h1⟩
      · rw [v3]
        exact CLIP_range _

/-- The cell written by a step of the red/blue loop at a green pixel. -/
theorem redBlueStep_green_site (rawData : Int → Int → F) (cfarray : Cfa)
    (hv : validateBayerCfa cfarray = true) (xyzCam : Int → Int → F) (cbrt : F → F)
    (top left d : Int) (m : Machine F) (row col : Int) (hgr : fc cfarray row col = 1) :
    (redBlueStep rawData cfarray xyzCam cbrt top left d m row col).rgb d (row - top)
        (col - left) 1 = rawData row col ∧
    (redBlueStep rawData cfarray xyzCam cbrt top left d m row col).rgb d (row - top)
        (col - left) (2 - cngOf cfarray row) = rowEstimate rawData m.rgb top left d row col ∧
    (redBlueStep rawData cfarray xyzCam cbrt top left d m row col).rgb d (row - top)
        (col - left) (cngOf cfarray row) = columnEstimate rawData m.rgb top left d row col := by
  unfold redBlueStep rowEstimate columnEstimate
  rcases cngOf_valid cfarray hv row with hk | hk <;>
    simp [hgr, hk, Machine.note, Machine.wrRgb, Machine.wrLab, upd4]

/-- The cell written by a step of the red/blue loop at a red or blue pixel. -/
theorem redBlueStep_other_site (rawData : Int → Int → F) (cfarray : Cfa)
    (hv : validateBayerCfa cfarray = true) (xyzCam : Int → Int → F) (cbrt : F → F)
    (top left d : Int) (m : Machine F) (row col : Int) (hng : fc cfarray row col ≠ 1) :
    (redBlueStep rawData cfarray xyzCam cbrt top left d m row col).rgb d (row - top)
        (col - left) 1 = m.rgb d (row - top) (col - left) 1 ∧
    (redBlueStep rawData cfarray xyzCam cbrt top left d m row col).rgb d (row - top)
        (col - left) (2 - cngOf cfarray row) = rawData row col ∧
    (redBlueStep rawData cfarray xyzCam cbrt top left d m row col).rgb d (row - top)
        (col - left) (cngOf cfarray row) = diagonalEstimate rawData m.rgb top left d row col := by
  unfold redBlueStep diagonalEstimate
  rcases cngOf_valid cfarray hv row with hk | hk <;>
    simp [hng, hk, Machine.note, Machine.wrRgb, Machine.wrLab, upd4]

end SampleRange

/-- Instance of C16 (as amended): the blue value interpolated at the red pixel
`(4, 4)` from a raw plane of samples 70000. -/
theorem interpolated_red_blue_in_sample_range_witness :
    validateBayerCfa demoCfa = true ∧ (4 : Int) ∈ redBlueRows 11 2 ∧
    (4 : Int) ∈ redBlueCols 11 2 ∧ ((fc demoCfa 4 4 : Nat) : Int) ≠ 2 ∧
    (greenRedBlue 11 11 brightRaw demoCfa (xyz_cam demoCam) demoCbrt 2 2 demoMachine).rgb 0
      (4 - 2) (4 - 2) 2 ≤ 65535 :=
  ⟨by decide, by decide, by decide, by decide,
   ((interpolated_red_blue_in_sample_range 11 11 brightRaw demoCfa (by decide) (xyz_cam demoCam)
      demoCbrt 2 2 demoMachine 0 4 4 2 (Or.inl rfl) (by decide) (by decide) (Or.inr rfl)).1
      (by decide)).2⟩

/-- C16 (counterexample): with all raw samples equal to 70000 the red value
stored at the red pixel `(4, 4)` of the red/blue range is 70000, outside
`[0, 65535]`. -/
theorem native_sample_stored_unclipped :
    fc demoCfa 4 4 = 0 ∧ (4 : Int) ∈ redBlueRows 11 2 ∧ (4 : Int) ∈ redBlueCols 11 2 ∧
    (greenRedBlue 11 11 brightRaw demoCfa (xyz_cam demoCam) demoCbrt 2 2 demoMachine).rgb 0
      (4 - 2) (4 - 2) 0 = 70000 ∧
    ¬ ((greenRedBlue 11 11 brightRaw demoCfa (xyz_cam demoCam) demoCbrt 2 2 demoMachine).rgb 0
      (4 - 2) (4 - 2) 0 ≤ 65535) := by
  obtain ⟨_, hR⟩ := greenRedBlue_done 11 11 brightRaw demoCfa (by decide) (xyz_cam demoCam)
    demoCbrt 2 2 demoMachine
  have hcell := (hR 0 (Or.inl rfl) 4 4 (4 - 2) (4 - 2) 0 rfl rfl (by decide) (by decide)
    (by decide) (by decide) (by decide) (by decide) (by decide) (by decide)).1
  have hv := (rgbRef_other_site brightRaw demoCfa (by decide) 0 4 4 (by decide)).2.1
  have hc : cngOf demoCfa 4 = 2 := by decide
  rw [hc] at hv
  norm_num only at hv
  rw [hv] at hcell
  have hb : brightRaw 4 4 = 70000 := rfl
  rw [hb] at hcell
  refine ⟨by decide, by decide, by decide, hcell, ?_⟩
  rw [hcell]
  norm_num

section Sources
variable {F : Type} [LinearOrderedField F]

/-- After the first two passes of a tile, started with an empty log, the log
holds a write to every channel of both RGB hypotheses at every pixel of the
red/blue range. -/
theorem greenRedBlue_logged (width height : Int) (rawData : Int → Int → F) (cfarray : Cfa)
    (hv : validateBayerCfa cfarray = true) (xyzCam : Int → Int → F) (cbrt : F → F)
    (top left : Int) (m : Machine F) (hm : m.log = []) :
    RgbLabLogged width height top left 0
      (greenRedBlue width height rawData cfarray xyzCam cbrt top left m) ∧
    RgbLabLogged width height top left 1
      (greenRedBlue width height rawData cfarray xyzCam cbrt top left m) := by
  unfold greenRedBlue
  obtain ⟨kA, gA⟩ := greenPass_logged width height rawData cfarray hv top left m
    (by rw [hm]; rfl)
  exact (redBluePass_logged width height rawData cfarray hv xyzCam cbrt top left _ kA gA).2

/-- C17 (as amended): for a valid Bayer CFA and every pixel of the red/blue
range, `cng` is 0 or 2 and is the colour of the non-green pixels of the two
adjacent rows, `2 - cng` is the colour of the non-green pixels of the row
itself; the value a step of the red/blue loop leaves in channel `c` of its cell
is the same for any two raw planes and scratch states that agree on the raw
samples of colour `c`, on the green hypotheses of the non-green pixels and, at a
green pixel, on the pixel's own raw sample; and all three channels of both
hypotheses are written at the pixel (the log holds the write) and hold a value
fixed by the raw plane. -/
theorem red_blue_channel_sources (width height : Int) (cfarray : Cfa)
    (hv : validateBayerCfa cfarray = true) (xyzCam : Int → Int → F) (cbrt : F → F)
    (top left d : Int) (rawData rawData' : Int → Int → F) (m m' : Machine F)
    (row col c : Int) (hc : c = 0 ∨ c = 1 ∨ c = 2) (hd : d = 0 ∨ d = 1)
    (hrow : row ∈ redBlueRows height top) (hcol : col ∈ redBlueCols width left)
    (hraw : ∀ r k : Int, ((fc cfarray r k : Nat) : Int) = c → rawData r k = rawData' r k)
    (hgreen : ∀ r k : Int, fc cfarray r k ≠ 1 →
      m.rgb d (r - top) (k - left) 1 = m'.rgb d (r - top) (k - left) 1)
    (hown : fc cfarray row col = 1 → rawData row col = rawData' row col) :
    (cngOf cfarray row = 0 ∨ cngOf cfarray row = 2) ∧
    (∀ k : Int, fc cfarray (row + 1) k ≠ 1 →
      ((fc cfarray (row + 1) k : Nat) : Int) = cngOf cfarray row) ∧
    (∀ k : Int, fc cfarray (row - 1) k ≠ 1 →
      ((fc cfarray (row - 1) k : Nat) : Int) = cngOf cfarray row) ∧
    (∀ k : Int, fc cfarray row k ≠ 1 →
      ((fc cfarray row k : Nat) : Int) = 2 - cngOf cfarray row) ∧
    (redBlueStep rawData cfarray xyzCam cbrt top left d m row col).rgb d (row - top)
        (col - left) c
      = (redBlueStep rawData' cfarray xyzCam cbrt top left d m' row col).rgb d (row - top)
        (col - left) c ∧
    (Access.rgbWrite d (row - top) (col - left) c
      ∈ (greenRedBlue width height rawData cfarray xyzCam cbrt top left
          { m with log := [] }).log) ∧
    (greenRedBlue width height rawData cfarray xyzCam cbrt top left m).rgb d (row - top)
        (col - left) c = rgbRef rawData cfarray d row col c := by
  obtain ⟨k1, k2, k3⟩ := cngOf_colours cfarray hv row
  have hcng := cngOf_valid cfarray hv row
  obtain ⟨g, hg, hfc⟩ := fc_valid cfarray hv
  have hrow' := (mem_redBlueRows height top row).mp hrow
  have hcol' := (mem_redBlueCols width left col).mp hcol
  refine ⟨hcng, k1, k2, k3, ?_, ?_, ?_⟩
  · -- where the written value comes from
    have hnb : ∀ a b : Int, ¬ (row + a + (col + b)) % 2 = g →
        m.rgb d (row - top + a) (col - left + b) 1
          = m'.rgb d (row - top + a) (col - left + b) 1 := by
      intro a b hp
      have := hgreen (row + a) (col + b) (fun h => hp ((hfc (row + a) (col + b)).1.mp h))
      have e1 : row - top + a = row + a - top := by ring
      have e2 : col - left + b = col + b - left := by ring
      rw [e1, e2]
      exact this
    by_cases hgr : fc cfarray row col = 1
    · have hp : (row + col) % 2 = g := (hfc row col).1.mp hgr
      obtain ⟨a1, a2, a3⟩ := redBlueStep_green_site rawData cfarray hv xyzCam cbrt top left d m
        row col hgr
      obtain ⟨b1, b2, b3⟩ := redBlueStep_green_site rawData' cfarray hv xyzCam cbrt top left d m'
        row col hgr
      have hcc : c = 1 ∨ c = 2 - cngOf cfarray row ∨ c = cngOf cfarray row := by omega
      rcases hcc with rfl | rfl | hcc
      · rw [a1, b1]
        exact hown hgr
      · rw [a2, b2]
        unfold rowEstimate
        have eL := hnb 0 (-1) (by omega)
        have eR := hnb 0 1 (by omega)
        simp only [add_zero, ← sub_eq_add_neg] at eL eR
        have hL : ¬ fc cfarray row (col - 1) = 1 := fun h => by
          have := (hfc row (col - 1)).1.mp h
          omega
        have hR : ¬ fc cfarray row (col + 1) = 1 := fun h => by
          have := (hfc row (col + 1)).1.mp h
          omega
        rw [eL, eR, hown hgr, hraw row (col - 1) (k3 _ hL), hraw row (col + 1) (k3 _ hR)]
      · subst hcc
        rw [a3, b3]
        unfold columnEstimate
        have eU := hnb (-1) 0 (by omega)
        have eD := hnb 1 0 (by omega)
        simp only [add_zero, ← sub_eq_add_neg] at eU eD
        have hU : ¬ fc cfarray (row - 1) col = 1 := fun h => by
          have := (hfc (row - 1) col).1.mp h
          omega
        have hD : ¬ fc cfarray (row + 1) col = 1 := fun h => by
          have := (hfc (row + 1) col).1.mp h
          omega
        rw [eU, eD, hown hgr, hraw (row - 1) col (k2 _ hU), hraw (row + 1) col (k1 _ hD)]
    · have hp : ¬ (row + col) % 2 = g := fun h => hgr ((hfc row col).1.mpr h)
      obtain ⟨a1, a2, a3⟩ := redBlueStep_other_site rawData cfarray hv xyzCam cbrt top left d m
        row col hgr
      obtain ⟨b1, b2, b3⟩ := redBlueStep_other_site rawData' cfarray hv xyzCam cbrt top left d m'
        row col hgr
      have e0 := hnb 0 0 (by omega)
      simp only [add_zero] at e0
      have hcc : c = 1 ∨ c = 2 - cngOf cfarray row ∨ c = cngOf cfarray row := by omega
      rcases hcc with rfl | rfl | hcc
      · rw [a1, b1, e0]
      · rw [a2, b2]
        exact hraw row col (k3 _ hgr)
      · subst hcc
        rw [a3, b3]
        unfold diagonalEstimate
        have e1 := hnb (-1) (-1) (by omega)
        have e2 := hnb (-1) 1 (by omega)
        have e3 := hnb 1 (-1) (by omega)
        have e4 := hnb 1 1 (by omega)
        simp only [← sub_eq_add_neg] at e1 e2 e3 e4
        have h1 : ¬ fc cfarray (row - 1) (col - 1) = 1 := fun h => by
          have := (hfc (row - 1) (col - 1)).1.mp h
          omega
        have h2 : ¬ fc cfarray (row - 1) (col + 1) = 1 := fun h => by
          have := (hfc (row - 1) (col + 1)).1.mp h
          omega
        have h3 : ¬ fc cfarray (row + 1) (col - 1) = 1 := fun h => by
          have := (hfc (row + 1) (col - 1)).1.mp h
          omega
        have h4 : ¬ fc cfarray (row + 1) (col + 1) = 1 := fun h => by
          have := (hfc (row + 1) (col + 1)).1.mp h
          omega
        rw [e0, e1, e2, e3, e4, hraw (row - 1) (col - 1) (k2 _ h1),
          hraw (row - 1) (col + 1) (k2 _ h2), hraw (row + 1) (col - 1) (k1 _ h3),
          hraw (row + 1) (col + 1) (k1 _ h4)]
  · obtain ⟨l0, l1⟩ := greenRedBlue_logged width height rawData cfarray hv xyzCam cbrt top left
      { m with log := [] } rfl
    rcases hd with rfl | rfl
    · exact (l0 row col _ _ c rfl rfl hrow'.1 hrow'.2.1 hrow'.2.2 hcol'.1 hcol'.2.1 hcol'.2.2
        (by omega) (by omega)).1
    · exact (l1 row col _ _ c rfl rfl hrow'.1 hrow'.2.1 hrow'.2.2 hcol'.1 hcol'.2.1 hcol'.2.2
        (by omega) (by omega)).1
  · obtain ⟨_, hR⟩ := greenRedBlue_done width height rawData cfarray hv xyzCam cbrt top left m
    exact (hR d hd row col _ _ c rfl rfl hrow'.1 hrow'.2.1 hrow'.2.2 hcol'.1 hcol'.2.1 hcol'.2.2
      (by omega) (by omega)).1

end Sources

/-- Instance of C17 (as amended): raising the blue sample at `(5, 5)` does not
change the red value the step writes at the green pixel `(4, 5)`. -/
theorem red_blue_channel_sources_witness :
    validateBayerCfa demoCfa = true ∧ (4 : Int) ∈ redBlueRows 11 2 ∧
    (5 : Int) ∈ redBlueCols 11 2 ∧
    (∀ r k : Int, ((fc demoCfa r k : Nat) : Int) = 0 → demoRaw r k = blueShiftRaw r k) ∧
    (fc demoCfa 4 5 = 1 → demoRaw 4 5 = blueShiftRaw 4 5) ∧
    (redBlueStep demoRaw demoCfa (xyz_cam demoCam) demoCbrt 2 2 0 demoMachine 4 5).rgb 0 (4 - 2)
        (5 - 2) 0
      = (redBlueStep blueShiftRaw demoCfa (xyz_cam demoCam) demoCbrt 2 2 0 demoMachine 4 5).rgb 0
        (4 - 2) (5 - 2) 0 :=
  have hraw : ∀ r k : Int, ((fc demoCfa r k : Nat) : Int) = 0 → demoRaw r k = blueShiftRaw r k := by
    intro r k h
    unfold blueShiftRaw
    split_ifs with hh
    · obtain ⟨rfl, rfl⟩ := hh
      exact absurd h (by decide)
    · rfl
  have hown : fc demoCfa 4 5 = 1 → demoRaw 4 5 = blueShiftRaw 4 5 := fun _ => by
    unfold blueShiftRaw
    rw [if_neg (by decide)]
  ⟨by decide, by decide, by decide, hraw, hown,
   (red_blue_channel_sources 11 11 demoCfa (by decide) (xyz_cam demoCam) demoCbrt 2 2 0 demoRaw
      blueShiftRaw demoMachine demoMachine 4 5 0 (Or.inl rfl) (Or.inl rfl) (by decide)
      (by decide) hraw (fun _ _ _ => rfl) hown).2.2.2.2.1⟩

/-- C17 (counterexample): two raw planes that agree on every red and blue
sample and differ only in the sample of the green pixel `(4, 5)`, processed from
the same scratch state (so with the same green hypotheses), give different red
values in the cell of `(4, 5)`: 0 and 67/2. -/
theorem red_at_green_site_uses_green_sample :
    fc demoCfa 4 5 = 1 ∧ (4 : Int) ∈ redBlueRows 11 2 ∧ (5 : Int) ∈ redBlueCols 11 2 ∧
    (∀ r k : Int, fc demoCfa r k ≠ 1 → demoRaw r k = greenShiftRaw r k) ∧
    (redBlueStep demoRaw demoCfa (xyz_cam demoCam) demoCbrt 2 2 0 demoMachine 4 5).rgb 0 (4 - 2)
        (5 - 2) 0 = 0 ∧
    (redBlueStep greenShiftRaw demoCfa (xyz_cam demoCam) demoCbrt 2 2 0 demoMachine 4 5).rgb 0
        (4 - 2) (5 - 2) 0 = 67 / 2 := by
  have hc : cngOf demoCfa 4 = 2 := by decide
  have hA := (redBlueStep_green_site demoRaw demoCfa (by decide) (xyz_cam demoCam) demoCbrt 2 2 0
    demoMachine 4 5 (by decide)).2.1
  have hB := (redBlueStep_green_site greenShiftRaw demoCfa (by decide) (xyz_cam demoCam) demoCbrt
    2 2 0 demoMachine 4 5 (by decide)).2.1
  rw [hc] at hA hB
  refine ⟨by decide, by decide, by decide, ?_, ?_, ?_⟩
  · intro r k h
    unfold greenShiftRaw
    split_ifs with hh
    · obtain ⟨rfl, rfl⟩ := hh
      exact absurd (by decide) h
    · rfl
  · rw [show (2 : Int) - 2 = 0 by decide] at hA
    rw [hA]
    norm_num [rowEstimate, demoRaw, demoMachine, Machine.initial, CLIP]
  · rw [show (2 : Int) - 2 = 0 by decide] at hB
    rw [hB]
    norm_num [rowEstimate, greenShiftRaw, demoRaw, demoMachine, Machine.initial, CLIP]

/-! ## The output planes of a successful run -/

/-- Every pixel of the interior rectangle lies in the fusion range of a tile. -/
theorem interior_covered (width height row col : Int) (h1 : 5 ≤ row) (h2 : row < height - 5)
    (h3 : 5 ≤ col) (h4 : col < width - 5) :
    ∃ t ∈ tileList width height, row ∈ fuseRows height t.1 ∧ col ∈ fuseCols width t.2 := by
  by_contra hne
  have hz := sum_map_zero (tileList width height)
    (fun t => if row ∈ fuseRows height t.1 ∧ col ∈ fuseCols width t.2 then 1 else 0)
    (fun t ht => if_neg (fun h => hne ⟨t, ht, h⟩))
  rw [tiles_hit_sum, if_pos ⟨h1, h2, h3, h4⟩] at hz
  exact absurd hz (by decide)

section Output
variable {F : Type} [LinearOrderedField F]

/-- The planes of a successful run at an interior pixel. -/
theorem ahd_demosaic_interior (border : BorderPass F) (cbrt : F → F) (width height : Int)
    (rawData : Int → Int → F) (m0 : Machine F) (cfarray : Cfa) (rgb_cam : Int → Int → F)
    (hv : validateBayerCfa cfarray = true)
    (hb : (border width height 5 rawData m0.red m0.green m0.blue cfarray).rc
      = rpError.RP_NO_ERROR)
    (row col : Int) (h1 : 5 ≤ row) (h2 : row < height - 5) (h3 : 5 ≤ col)
    (h4 : col < width - 5) :
    (ahd_demosaic border cbrt true width height rawData m0 cfarray rgb_cam).2.red row col
      = fusedRef rawData cfarray (xyz_cam rgb_cam) cbrt row col 0 ∧
    (ahd_demosaic border cbrt true width height rawData m0 cfarray rgb_cam).2.green row col
      = fusedRef rawData cfarray (xyz_cam rgb_cam) cbrt row col 1 ∧
    (ahd_demosaic border cbrt true width height rawData m0 cfarray rgb_cam).2.blue row col
      = fusedRef rawData cfarray (xyz_cam rgb_cam) cbrt row col 2 := by
  unfold ahd_demosaic
  rw [ahd_run_ran border cbrt (tileList width height) width height rawData m0 cfarray rgb_cam
    hv hb]
  obtain ⟨a1, a2, a3⟩ := runTiles_planes width height rawData cfarray hv (xyz_cam rgb_cam) cbrt
    (tileList width height) row col (loopEntry border width height rawData m0 cfarray)
  have hex := interior_covered width height row col h1 h2 h3 h4
  rw [if_pos hex] at a1 a2 a3
  exact ⟨a1, a2, a3⟩

/-- In both hypotheses the channel of a pixel's own colour is its raw sample. -/
theorem rgbRef_native (rawData : Int → Int → F) (cfarray : Cfa)
    (hv : validateBayerCfa cfarray = true) (d row col : Int) :
    rgbRef rawData cfarray d row col ((fc cfarray row col : Nat) : Int) = rawData row col := by
  by_cases hg : fc cfarray row col = 1
  · rw [hg]
    exact (rgbRef_green_site rawData cfarray hv d row col hg).1
  · rw [(cngOf_colours cfarray hv row).2.2 col hg]
    exact (rgbRef_other_site rawData cfarray hv d row col hg).2.1

theorem fuseOf_same (rgb : Int → Int → Int → Int → F) (homo : Int → Int → Int → Nat)
    (tr tc c : Int) (v : F) (h0 : rgb 0 tr tc c = v) (h1 : rgb 1 tr tc c = v) :
    fuseOf rgb homo tr tc c = v := by
  unfold fuseOf
  split_ifs
  · exact h1
  · exact h0
  · rw [h0, h1]
    ring

theorem fuseOf_between (rgb : Int → Int → Int → Int → F) (homo : Int → Int → Int → Nat)
    (tr tc c : Int) (lo hi : F) (h0 : lo ≤ rgb 0 tr tc c ∧ rgb 0 tr tc c ≤ hi)
    (h1 : lo ≤ rgb 1 tr tc c ∧ rgb 1 tr tc c ≤ hi) :
    lo ≤ fuseOf rgb homo tr tc c ∧ fuseOf rgb homo tr tc c ≤ hi := by
  unfold fuseOf
  split_ifs
  · exact h1
  · exact h0
  · constructor <;> linarith [h0.1, h0.2, h1.1, h1.2]

/-- C18: after a successful run, at every pixel written by the fusion pass
(`5 ≤ row < height - 5`, `5 ≤ col < width - 5`) the output plane of the pixel's
own CFA colour holds the raw sample of the pixel; both hypotheses hold the raw
sample in that channel, so this is the fused value whatever the homogeneity
scores are (either direction copied, or the mean of two equal values). -/
theorem native_channel_is_raw_sample (border : BorderPass F) (cbrt : F → F)
    (width height : Int) (rawData : Int → Int → F) (m0 : Machine F) (cfarray : Cfa)
    (rgb_cam : Int → Int → F) (hv : validateBayerCfa cfarray = true)
    (hb : (border width height 5 rawData m0.red m0.green m0.blue cfarray).rc
      = rpError.RP_NO_ERROR)
    (row col : Int) (h1 : 5 ≤ row) (h2 : row < height - 5) (h3 : 5 ≤ col)
    (h4 : col < width - 5) :
    (fc cfarray row col = 0 →
      (ahd_demosaic border cbrt true width height rawData m0 cfarray rgb_cam).2.red row col
        = rawData row col) ∧
    (fc cfarray row col = 1 →
      (ahd_demosaic border cbrt true width height rawData m0 cfarray rgb_cam).2.green row col
        = rawData row col) ∧
    (fc cfarray row col = 2 →
      (ahd_demosaic border cbrt true width height rawData m0 cfarray rgb_cam).2.blue row col
        = rawData row col) ∧
    (∀ d : Int, rgbRef rawData cfarray d row col ((fc cfarray row col : Nat) : Int)
      = rawData row col) ∧
    (∀ homo : Int → Int → Int → Nat,
      fuseOf (rgbRef rawData cfarray) homo row col ((fc cfarray row col : Nat) : Int)
        = rawData row col) := by
  obtain ⟨a1, a2, a3⟩ := ahd_demosaic_interior border cbrt width height rawData m0 cfarray
    rgb_cam hv hb row col h1 h2 h3 h4
  have hn := fun d => rgbRef_native rawData cfarray hv d row col
  have hf : ∀ homo : Int → Int → Int → Nat,
      fuseOf (rgbRef rawData cfarray) homo row col ((fc cfarray row col : Nat) : Int)
        = rawData row col := fun homo => fuseOf_same _ homo row col _ _ (hn 0) (hn 1)
  refine ⟨?_, ?_, ?_, hn, hf⟩
  · intro h
    have := hf (homoRef rawData cfarray (xyz_cam rgb_cam) cbrt)
    rw [h] at this
    rw [a1]
    exact this
  · intro h
    have := hf (homoRef rawData cfarray (xyz_cam rgb_cam) cbrt)
    rw [h] at this
    rw [a2]
    exact this
  · intro h
    have := hf (homoRef rawData cfarray (xyz_cam rgb_cam) cbrt)
    rw [h] at this
    rw [a3]
    exact this

/-- C19: after a successful run, at every pixel written by the fusion pass whose
CFA colour is not green, the output green lies between the minimum and the
maximum of the four axis-adjacent raw samples (left, right, up, down). -/
theorem fused_green_within_axis_neighbours (border : BorderPass F) (cbrt : F → F)
    (width height : Int) (rawData : Int → Int → F) (m0 : Machine F) (cfarray : Cfa)
    (rgb_cam : Int → Int → F) (hv : validateBayerCfa cfarray = true)
    (hb : (border width height 5 rawData m0.red m0.green m0.blue cfarray).rc
      = rpError.RP_NO_ERROR)
    (row col : Int) (h1 : 5 ≤ row) (h2 : row < height - 5) (h3 : 5 ≤ col)
    (h4 : col < width - 5) (hng : fc cfarray row col ≠ 1) :
    min (min (rawData row (col - 1)) (rawData row (col + 1)))
        (min (rawData (row - 1) col) (rawData (row + 1) col))
      ≤ (ahd_demosaic border cbrt true width height rawData m0 cfarray rgb_cam).2.green row col ∧
    (ahd_demosaic border cbrt true width height rawData m0 cfarray rgb_cam).2.green row col
      ≤ max (max (rawData row (col - 1)) (rawData row (col + 1)))
          (max (rawData (row - 1) col) (rawData (row + 1) col)) := by
  obtain ⟨_, a2, _⟩ := ahd_demosaic_interior border cbrt width height rawData m0 cfarray
    rgb_cam hv hb row col h1 h2 h3 h4
  rw [a2]
  unfold fusedRef
  have e0 := (rgbRef_other_site rawData cfarray hv 0 row col hng).1
  have e1 := (rgbRef_other_site rawData cfarray hv 1 row col hng).1
  have b0 := median_between ((1 / 4) * ((rawData row (col - 1) + rawData row col
    + rawData row (col + 1)) * 2 - rawData row (col - 2) - rawData row (col + 2)))
    (rawData row (col - 1)) (rawData row (col + 1))
  have b1 := median_between ((1 / 4) * ((rawData (row - 1) col + rawData row col
    + rawData (row + 1) col) * 2 - rawData (row - 2) col - rawData (row + 2) col))
    (rawData (row - 1) col) (rawData (row + 1) col)
  have g0 : greenRef rawData 0 row col = median ((1 / 4) * ((rawData row (col - 1)
      + rawData row col + rawData row (col + 1)) * 2 - rawData row (col - 2)
      - rawData row (col + 2))) (rawData row (col - 1)) (rawData row (col + 1)) := by
    simp only [greenRef, if_true]
  have g1 : greenRef rawData 1 row col = median ((1 / 4) * ((rawData (row - 1) col
      + rawData row col + rawData (row + 1) col) * 2 - rawData (row - 2) col
      - rawData (row + 2) col)) (rawData (row - 1) col) (rawData (row + 1) col) := by
    simp only [greenRef, show ¬ ((1 : Int) = 0) by decide, if_false]
  apply fuseOf_between
  · rw [e0, g0]
    exact ⟨le_trans (min_le_left _ _) b0.1, le_trans b0.2 (le_max_left _ _)⟩
  · rw [e1, g1]
    exact ⟨le_trans (min_le_right _ _) b1.1, le_trans b1.2 (le_max_right _ _)⟩

end Output

/-- Instance of C18: the blue pixel `(5, 5)` of an 11 x 11 RGGB image. -/
theorem native_channel_is_raw_sample_witness :
    validateBayerCfa demoCfa = true ∧
    (demoBorder 11 11 5 demoRaw demoMachine.red demoMachine.green demoMachine.blue demoCfa).rc
      = rpError.RP_NO_ERROR ∧
    fc demoCfa 5 5 = 2 ∧
    (ahd_demosaic demoBorder demoCbrt true 11 11 demoRaw demoMachine demoCfa demoCam).2.blue 5 5
      = demoRaw 5 5 :=
  ⟨by decide, rfl, by decide,
   (native_channel_is_raw_sample demoBorder demoCbrt 11 11 demoRaw demoMachine demoCfa demoCam
      (by decide) rfl 5 5 (by decide) (by decide) (by decide) (by decide)).2.2.1 (by decide)⟩

/-- Instance of C19: the blue pixel `(5, 5)` of an 11 x 11 RGGB image. -/
theorem fused_green_within_axis_neighbours_witness :
    validateBayerCfa demoCfa = true ∧ fc demoCfa 5 5 ≠ 1 ∧
    (ahd_demosaic demoBorder demoCbrt true 11 11 demoRaw demoMachine demoCfa demoCam).2.green 5 5
      ≤ max (max (demoRaw 5 (5 - 1)) (demoRaw 5 (5 + 1)))
          (max (demoRaw (5 - 1) 5) (demoRaw (5 + 1) 5)) :=
  ⟨by decide, by decide,
   (fused_green_within_axis_neighbours demoBorder demoCbrt 11 11 demoRaw demoMachine demoCfa
      demoCam (by decide) rfl 5 5 (by decide) (by decide) (by decide) (by decide)
      (by decide)).2⟩

end Ahd
